import Mathlib

/-!
Verification of the finite-automata engine
(`src/finite-automata-desinger/lib/automata-engine.ts`).

The TypeScript engine is shallowly embedded: JavaScript `Set<string>`
values are insertion-ordered duplicate-free `List String`s, JavaScript
`Map`s are insertion-ordered association lists, and every loop of the
source is translated to a structurally recursive function (loops whose
iteration count is data dependent take an explicit fuel argument that is
instantiated, at each call site, with a bound proved sufficient).
JavaScript `Array.prototype.sort` on strings is modelled by a stable
insertion sort under code-point lexicographic order; the source sorts by
UTF-16 code units, but every use of sorting in the engine only needs a
fixed canonical order, never this particular one.
-/

namespace FA

/-! ## JavaScript string and collection primitives -/

/-- Code-point lexicographic comparison of character lists. -/
def charListLe : List Char → List Char → Bool
  | [], _ => true
  | _ :: _, [] => false
  | a :: as, b :: bs =>
    if a.toNat < b.toNat then true
    else if b.toNat < a.toNat then false
    else charListLe as bs

/-- Lexicographic string comparison (models the comparator of
JavaScript's default `Array.prototype.sort` on strings). -/
def strLe (a b : String) : Bool := charListLe a.data b.data

/-- `array.sort()` of the source: a stable sort under `strLe`. -/
def sortJS (l : List String) : List String :=
  l.insertionSort (fun a b => strLe a b = true)

/-- `set.add(x)` for a JavaScript `Set<string>` held as an
insertion-ordered duplicate-free list. -/
def addSet (s : List String) (x : String) : List String :=
  if x ∈ s then s else s ++ [x]

/-- `Array.from(new Set(l))`: first-occurrence deduplication. -/
def dedupKeep (l : List String) : List String := l.foldl addSet []

/-- JavaScript `string.split(sep)` for a one-character separator,
at the character-list level. -/
def splitChAux (c : Char) : List Char → List Char → List (List Char)
  | cur, [] => [cur.reverse]
  | cur, x :: xs =>
    if x = c then cur.reverse :: splitChAux c [] xs
    else splitChAux c (x :: cur) xs

/-- JavaScript `string.split(sep)` for a one-character separator `c`. -/
def splitCh (c : Char) (s : String) : List String :=
  (splitChAux c [] s.data).map (fun l => ⟨l⟩)

/-! ## Data model (`types/automata`) -/

/-- A transition `(from, to, symbol)`.  The source's field names `from`
and `to` are escaped because they are reserved tokens here. -/
structure Transition where
  «from» : String
  «to» : String
  symbol : String
deriving DecidableEq, Repr

/-- A state: an identifier. -/
structure State where
  id : String
deriving DecidableEq, Repr

/-- The cached automaton classification. -/
inductive AutomatonType where
  | DFA
  | NFA
deriving DecidableEq, Repr

/-- The automaton aggregate. `startState` is `none` for the JavaScript
`null`/`undefined` start state. -/
structure Automaton where
  states : List State
  transitions : List Transition
  startState : Option String
  finalStates : List String
  type : AutomatonType
deriving DecidableEq, Repr

/-- Result of a `testString` call: `path = none` models the absent
`path` property of the early `{ accepted: false }` return. -/
structure TestResult where
  accepted : Bool
  path : Option (List String)
deriving DecidableEq, Repr

/-! ## `AutomataEngine` helpers -/

/-- `AutomataEngine.isEpsilon`. -/
def isEpsilon (symbol : String) : Bool :=
  symbol = "ε" || symbol = "e" || symbol = "E" || symbol = ""

/-- The inner do-while loop of `generateAlphabeticStateName`; the fuel
is instantiated with `index + 1`, which bounds the iteration count
because the loop variable strictly decreases. -/
def genNameLoop : Nat → Nat → String → String
  | 0, _, acc => acc
  | fuel + 1, num, acc =>
    let acc' := String.singleton (Char.ofNat (65 + num % 26)) ++ acc
    if num / 26 > 0 then genNameLoop fuel (num / 26) acc' else acc'

/-- `AutomataEngine.generateAlphabeticStateName`. -/
def generateAlphabeticStateName (index : Nat) : String :=
  genNameLoop (index + 1) index ""

/-- JavaScript `array.join(",")`. -/
def joinComma : List String → String
  | [] => ""
  | [x] => x
  | x :: xs => x ++ "," ++ joinComma xs

/-- `AutomataEngine.setToKey`: canonical comma-joined key of a state
set. -/
def setToKey (stateSet : List String) : String :=
  joinComma (sortJS stateSet)

/-- `AutomataEngine.keyToSet` (the source wraps the split in a
`Set`, hence the deduplication). -/
def keyToSet (key : String) : List String :=
  if key = "" then [] else dedupKeep (splitCh ',' key)

/-! ## Acceptance evaluator -/

/-- The symbol read for one input character: JavaScript
`for (const symbol of input)` yields one-character strings. -/
def charSym (c : Char) : String := String.singleton c

/-- The loop of `testStringDFA` over the input characters. -/
def dfaWalk (a : Automaton) : String → List String → List Char → TestResult
  | cur, path, [] => ⟨decide (cur ∈ a.finalStates), some path⟩
  | cur, path, c :: cs =>
    match a.transitions.find? (fun t => t.«from» == cur && t.symbol == charSym c) with
    | none => ⟨false, some path⟩
    | some t => dfaWalk a t.«to» (path ++ [t.«to»]) cs

/-- `AutomataEngine.testStringDFA` (only reached with a truthy start
state, which `getD` reflects harmlessly). -/
def testStringDFA (a : Automaton) (input : String) : TestResult :=
  let s := a.startState.getD ""
  dfaWalk a s [s] input.data

/-- One step of destination collection in `testStringNFA` and
`convertNFAToDFA`: the union of `to`-states over the current set on one
symbol, in insertion order. -/
def stepDests (a : Automaton) (cur : List String) (sym : String) : List String :=
  cur.foldl
    (fun acc st =>
      ((a.transitions.filter (fun t => t.«from» == st && t.symbol == sym)).map
          (fun t => t.«to»)).foldl addSet acc)
    []

/-- The worklist loop of `AutomataEngine.epsilonClosure`.  The closure
only ever grows inside the targets of ε-transitions, so the fuel chosen
at the call site (`seeds + transitions + 1`) strictly dominates the
number of iterations.  The source pops from the top of the stack; the
pop end is immaterial because every consumer of a closure is insensitive
to the order of its elements (keys are sorted, membership is order
blind), so the worklist is consumed from the front here. -/
def epsClosureAux (a : Automaton) : Nat → List String → List String → List String
  | 0, closure, _ => closure
  | _ + 1, closure, [] => closure
  | fuel + 1, closure, st :: stack =>
    let eps := a.transitions.filter (fun t => t.«from» == st && isEpsilon t.symbol)
    let step := eps.foldl
      (fun (p : List String × List String) t =>
        if t.«to» ∈ p.1 then p else (p.1 ++ [t.«to»], p.2 ++ [t.«to»]))
      (closure, [])
    epsClosureAux a fuel step.1 (stack ++ step.2)

/-- `AutomataEngine.epsilonClosure` on a duplicate-free seed list. -/
def epsilonClosure (a : Automaton) (states : List String) : List String :=
  epsClosureAux a (states.length + a.transitions.length + 1) states states

/-- The loop of `testStringNFA` over the input characters. -/
def nfaWalk (a : Automaton) : List String → List String → List Char → TestResult
  | cur, path, [] => ⟨cur.any (fun st => decide (st ∈ a.finalStates)), some path⟩
  | cur, path, c :: cs =>
    let next := stepDests a cur (charSym c)
    if next.length = 0 then ⟨false, some path⟩
    else
      let cl := epsilonClosure a next
      nfaWalk a cl (path ++ [joinComma (sortJS cl)]) cs

/-- `AutomataEngine.testStringNFA` (only reached with a truthy start
state). -/
def testStringNFA (a : Automaton) (input : String) : TestResult :=
  let start := epsilonClosure a (addSet [] (a.startState.getD ""))
  nfaWalk a start [joinComma (sortJS start)] input.data

/-- `AutomataEngine.testString`.  JavaScript's `!automaton.startState`
is true for `null`, `undefined` and the empty string. -/
def testString (a : Automaton) (input : String) : TestResult :=
  match a.startState with
  | none => ⟨false, none⟩
  | some s =>
    if s = "" then ⟨false, none⟩
    else if a.type = .DFA then testStringDFA a input
    else testStringNFA a input

/-! ## Classifier -/

/-- The `(from, symbol)` grouping key used by the classifier maps. -/
def pairKey (t : Transition) : String := t.«from» ++ "-" ++ t.symbol

/-- Insert one destination into the `Map<string, Set<string>>` grouping
of `hasNondeterministicTransitions` / `analyzeAutomaton`. -/
def addDest (m : List (String × List String)) (k v : String) :
    List (String × List String) :=
  match m with
  | [] => [(k, [v])]
  | (k', vs) :: rest =>
    if k' = k then (k', addSet vs v) :: rest else (k', vs) :: addDest rest k v

/-- The `transitionMap` built by `hasNondeterministicTransitions` and
`analyzeAutomaton`: key-insertion-ordered association list from
`pairKey` to the destination set. -/
def buildTransitionMap (ts : List Transition) : List (String × List String) :=
  ts.foldl (fun m t => addDest m (pairKey t) t.«to») []

/-- `AutomataEngine.hasNondeterministicTransitions`. -/
def hasNondeterministicTransitions (ts : List Transition) : Bool :=
  (buildTransitionMap ts).any (fun e => 1 < e.2.length)

/-- The engine's recurring alphabet computation:
`Array.from(new Set(transitions.map(t => t.symbol).filter(s => !isEpsilon(s))))`. -/
def alphabetOf (ts : List Transition) : List String :=
  dedupKeep ((ts.map (fun t => t.symbol)).filter (fun s => !isEpsilon s))

/-- `AutomataEngine.isCompleteDFA`. -/
def isCompleteDFA (a : Automaton) : Bool :=
  if a.type = .NFA then false
  else if a.transitions.any (fun t => isEpsilon t.symbol) then false
  else if hasNondeterministicTransitions a.transitions then false
  else
    a.states.all (fun st =>
      (alphabetOf a.transitions).all (fun sym =>
        a.transitions.any (fun t => t.«from» == st.id && t.symbol == sym)))

/-- `AutomataEngine.determineAutomatonType`. -/
def determineAutomatonType (a : Automaton) : AutomatonType :=
  if a.transitions.any (fun t => isEpsilon t.symbol) then .NFA
  else if hasNondeterministicTransitions a.transitions then .NFA
  else .DFA

/-- One entry of the nondeterministic-transition report of
`analyzeAutomaton`. -/
structure NDEntry where
  «from» : String
  symbol : String
  destinations : List String
deriving DecidableEq, Repr

/-- Result of `analyzeAutomaton`. -/
structure AnalysisResult where
  hasEpsilonTransitions : Bool
  hasNondeterministicTransitions : Bool
  epsilonTransitions : List Transition
  nondeterministicTransitions : List NDEntry
deriving DecidableEq, Repr

/-- Recover `(from, symbol)` from a grouping key the way the source
does: `key.split("-")` destructured into its first two fields.  A key
always contains at least one dash, so the split has at least two
pieces; the fallback is unreachable. -/
def splitPair (key : String) : String × String :=
  match splitCh '-' key with
  | f :: s :: _ => (f, s)
  | _ => (key, "")

/-- `AutomataEngine.analyzeAutomaton`. -/
def analyzeAutomaton (a : Automaton) : AnalysisResult :=
  let epsilonTransitions := a.transitions.filter (fun t => isEpsilon t.symbol)
  let nd := ((buildTransitionMap a.transitions).filter
      (fun e => 1 < e.2.length)).map
    (fun e => { «from» := (splitPair e.1).1, symbol := (splitPair e.1).2,
                destinations := e.2 : NDEntry })
  { hasEpsilonTransitions := decide (0 < epsilonTransitions.length)
    hasNondeterministicTransitions := decide (0 < nd.length)
    epsilonTransitions := epsilonTransitions
    nondeterministicTransitions := nd }

/-! ## Subset constructor (`convertNFAToDFA`) -/

/-- Lookup in an insertion-ordered string map (keys are unique by
construction, so first match is the match). -/
def mlookup (m : List (String × String)) (k : String) : Option String :=
  match m.find? (fun e => e.1 == k) with
  | some e => some e.2
  | none => none

/-- The mutable locals of the subset-construction loop. -/
structure SubsetSt where
  dfaStates : List State
  dfaTransitions : List Transition
  stateMap : List (String × String)
  queue : List (List String)
  stateCounter : Nat
  missing : List (String × String)
deriving DecidableEq, Repr

/-- The body of `for (const symbol of alphabet)` inside the
subset-construction worklist loop. -/
def processSymbol (nfa : Automaton) (currentSet : List String)
    (currentName : String) (st : SubsetSt) (sym : String) : SubsetSt :=
  let nextStates := stepDests nfa currentSet sym
  if nextStates.length = 0 then
    { st with missing := st.missing ++ [(currentName, sym)] }
  else
    let nextClosure := epsilonClosure nfa nextStates
    let nextKey := setToKey nextClosure
    match mlookup st.stateMap nextKey with
    | some nextName =>
      { st with dfaTransitions := st.dfaTransitions ++ [⟨currentName, nextName, sym⟩] }
    | none =>
      let nextName := generateAlphabeticStateName st.stateCounter
      { dfaStates := st.dfaStates ++ [⟨nextName⟩]
        dfaTransitions := st.dfaTransitions ++ [⟨currentName, nextName, sym⟩]
        stateMap := st.stateMap ++ [(nextKey, nextName)]
        queue := st.queue ++ [nextClosure]
        stateCounter := st.stateCounter + 1
        missing := st.missing }

/-- The subset-construction worklist loop (`while (queue.length > 0)`).
Every iteration dequeues one state set; new sets are enqueued only
together with a fresh `stateMap` key, and the number of distinct keys is
bounded by the number of subsets of the mentioned states, so the fuel
chosen at the call site dominates the iteration count. -/
def subsetLoop (nfa : Automaton) (alphabet : List String) :
    Nat → SubsetSt → SubsetSt
  | 0, st => st
  | fuel + 1, st =>
    match st.queue with
    | [] => st
    | cur :: rest =>
      let currentName := (mlookup st.stateMap (setToKey cur)).getD ""
      subsetLoop nfa alphabet fuel
        (alphabet.foldl (processSymbol nfa cur currentName) { st with queue := rest })

/-- The seed states of the start closure.  A `null` start state is an
inert value in the source: the singleton set holding it generates no
transitions, is never final, and has the key `""` — exactly the
behaviour of the empty seed list. -/
def startSeeds (nfa : Automaton) : List String :=
  match nfa.startState with
  | some s => [s]
  | none => []

/-- All states the subset construction can ever place in a state set:
the seed plus every transition target. -/
def subsetUniv (nfa : Automaton) : List String :=
  startSeeds nfa ++ nfa.transitions.map (fun t => t.«to»)

/-- The loop state of `convertNFAToDFA` just before the worklist loop:
the locals `dfaStates`, `dfaTransitions`, `stateMap`, `queue`,
`stateCounter` and `missingTransitions` as first initialised (the start
closure is registered under index 0). -/
def subsetStart (nfa : Automaton) : SubsetSt :=
  { dfaStates := [⟨generateAlphabeticStateName 0⟩]
    dfaTransitions := []
    stateMap := [(setToKey (epsilonClosure nfa (startSeeds nfa)),
      generateAlphabeticStateName 0)]
    queue := [epsilonClosure nfa (startSeeds nfa)]
    stateCounter := 1
    missing := [] }

/-- The loop state of `convertNFAToDFA` after the worklist loop has
drained the queue (the fuel dominates the iteration count, see
`subsetLoop`). -/
def subsetFinal (nfa : Automaton) : SubsetSt :=
  subsetLoop nfa (alphabetOf nfa.transitions)
    (2 ^ (subsetUniv nfa).length * 2 + 2) (subsetStart nfa)

/-- `AutomataEngine.convertNFAToDFA`. -/
def convertNFAToDFA (nfa : Automaton) : Automaton :=
  if nfa.type = .DFA then nfa
  else
    { states :=
        if 0 < (subsetFinal nfa).missing.length then
          (subsetFinal nfa).dfaStates
            ++ [⟨generateAlphabeticStateName (subsetFinal nfa).stateCounter⟩]
        else (subsetFinal nfa).dfaStates
      transitions :=
        if 0 < (subsetFinal nfa).missing.length then
          (subsetFinal nfa).dfaTransitions
            ++ (subsetFinal nfa).missing.map
                (fun m => ⟨m.1,
                  generateAlphabeticStateName (subsetFinal nfa).stateCounter, m.2⟩)
            ++ (alphabetOf nfa.transitions).map
                (fun sym => ⟨generateAlphabeticStateName (subsetFinal nfa).stateCounter,
                  generateAlphabeticStateName (subsetFinal nfa).stateCounter, sym⟩)
        else (subsetFinal nfa).dfaTransitions
      startState := some (generateAlphabeticStateName 0)
      finalStates := ((subsetFinal nfa).stateMap.filter
          (fun e => (keyToSet e.1).any (fun s => decide (s ∈ nfa.finalStates)))).map
        (fun e => e.2)
      type := .DFA }

/-! ## Completion engine (`makeCompleteDFA`) -/

/-- The `while (existingStateNames.includes(deadStateName))` search for
a fresh synthetic name.  The generator is injective, so among the first
`existing.length + 1` indices one name is always free (pigeonhole), and
that much fuel suffices. -/
def freeNameLoop (existing : List String) : Nat → Nat → String
  | 0, i => generateAlphabeticStateName i
  | fuel + 1, i =>
    let n := generateAlphabeticStateName i
    if n ∈ existing then freeNameLoop existing fuel (i + 1) else n

/-- The `(state, symbol)` pairs lacking a transition, in the source's
states-outer / alphabet-inner order. -/
def missingTransitionPairs (ts : List Transition) (stateIds alphabet : List String) :
    List (String × String) :=
  stateIds.flatMap (fun sid =>
    alphabet.filterMap (fun sym =>
      if ts.any (fun t => t.«from» == sid && t.symbol == sym) then none
      else some (sid, sym)))

/-- The dead-state name `makeCompleteDFA` synthesises: the first
generated name not colliding with an existing state identifier. -/
def deadNameOf (dfa : Automaton) : String :=
  freeNameLoop (dfa.states.map (fun s => s.id))
    ((dfa.states.map (fun s => s.id)).length + 1) 0

/-- `AutomataEngine.makeCompleteDFA`. -/
def makeCompleteDFA (dfa : Automaton) : Automaton :=
  if isCompleteDFA dfa then dfa
  else if (alphabetOf dfa.transitions).length = 0 then dfa
  else if (missingTransitionPairs dfa.transitions (dfa.states.map (fun s => s.id))
      (alphabetOf dfa.transitions)).length = 0 then dfa
  else
    { states := dfa.states ++ [⟨deadNameOf dfa⟩]
      transitions := dfa.transitions
        ++ (missingTransitionPairs dfa.transitions (dfa.states.map (fun s => s.id))
            (alphabetOf dfa.transitions)).map (fun m => ⟨m.1, deadNameOf dfa, m.2⟩)
        ++ (alphabetOf dfa.transitions).map (fun sym => ⟨deadNameOf dfa, deadNameOf dfa, sym⟩)
      startState := dfa.startState
      finalStates := dfa.finalStates
      type := .DFA }

/-! ## Reachability (`getReachableStates`) -/

/-- The BFS loop of `getReachableStates`; the same fuel argument as for
the ε-closure worklist. -/
def reachAux (a : Automaton) : Nat → List String → List String → List String
  | 0, reach, _ => reach
  | _ + 1, reach, [] => reach
  | fuel + 1, reach, cur :: rest =>
    let step := a.transitions.foldl
      (fun (p : List String × List String) t =>
        if t.«from» = cur ∧ t.«to» ∉ p.1 then (p.1 ++ [t.«to»], p.2 ++ [t.«to»]) else p)
      (reach, [])
    reachAux a fuel step.1 (rest ++ step.2)

/-- `AutomataEngine.getReachableStates`.  JavaScript's
`!dfa.startState` guard is again true for `null` and for `""`. -/
def getReachableStates (a : Automaton) : List String :=
  match a.startState with
  | none => []
  | some s =>
    if s = "" then []
    else reachAux a (1 + a.transitions.length + 1) [s] [s]

/-! ## Minimizer (`minimizeDFAWithDetails`) -/

/-- The `targetPartitionIndex` local of `splitPartitionHopcroft`:
the index of the first partition holding the `to` of the state's first
transition on the symbol, `-1` when there is no transition or no
holding partition. -/
def targetPartitionIndex (a : Automaton) (allPartitions : List (List String))
    (st : String) (sym : String) : Int :=
  match a.transitions.find? (fun t => t.«from» == st && t.symbol == sym) with
  | none => -1
  | some t =>
    match allPartitions.findIdx? (fun p => decide (t.«to» ∈ p)) with
    | some i => (i : Int)
    | none => -1

/-- Insertion into the `transitionGroups` map of
`splitPartitionHopcroft` (per-group arrays are pushed, not
deduplicated). -/
def groupInsert (m : List (Int × List String)) (k : Int) (v : String) :
    List (Int × List String) :=
  match m with
  | [] => [(k, [v])]
  | (k', vs) :: rest =>
    if k' = k then (k', vs ++ [v]) :: rest else (k', vs) :: groupInsert rest k v

/-- `AutomataEngine.splitPartitionHopcroft`. -/
def splitPartitionHopcroft (a : Automaton) (partition : List String)
    (allPartitions : List (List String)) (sym : String) : List (List String) :=
  if partition.length ≤ 1 then [partition]
  else
    (partition.foldl
        (fun m st => groupInsert m (targetPartitionIndex a allPartitions st sym) st)
        []).map (fun e => e.2)

/-- One element of a step's `splitDetails`. -/
structure SplitDetail where
  symbol : String
  splitOccurred : Bool
  splitResult : Option (List (List String))
deriving DecidableEq, Repr

/-- One recorded partitioning step. -/
structure PartitioningStep where
  step : Nat
  description : String
  partitionsBefore : List (List String)
  partitionsAfter : List (List String)
  splittingPartition : Option (List String)
  symbolsChecked : List String
  splitDetails : List SplitDetail
deriving DecidableEq, Repr

/-- The `for (const symbol of alphabet)` loop over one partition:
collect `splitDetails` and stop at the first splitting symbol. -/
def trySymbols (a : Automaton) (partition : List String)
    (allParts : List (List String)) :
    List String → List SplitDetail → List SplitDetail × Option (List (List String))
  | [], details => (details, none)
  | sym :: rest, details =>
    if 1 < (splitPartitionHopcroft a partition allParts sym).length then
      (details ++ [⟨sym,
        decide (1 < (splitPartitionHopcroft a partition allParts sym).length),
        if 1 < (splitPartitionHopcroft a partition allParts sym).length then
          some (splitPartitionHopcroft a partition allParts sym) else none⟩],
       some (splitPartitionHopcroft a partition allParts sym))
    else trySymbols a partition allParts rest
      (details ++ [⟨sym,
        decide (1 < (splitPartitionHopcroft a partition allParts sym).length),
        if 1 < (splitPartitionHopcroft a partition allParts sym).length then
          some (splitPartitionHopcroft a partition allParts sym) else none⟩])

/-- The `for (let i = 0; i < partitions.length && !changed; i++)` scan:
processed partitions accumulate in the first argument; a split replaces
the current partition in place and ends the scan with `true`. -/
def scanPartitions (a : Automaton) (alphabet : List String) :
    List (List String) → List (List String) → List PartitioningStep → Nat →
    List (List String) × List PartitioningStep × Nat × Bool
  | pre, [], steps, ctr => (pre, steps, ctr, false)
  | pre, p :: rest, steps, ctr =>
    if p.length ≤ 1 then scanPartitions a alphabet (pre ++ [p]) rest steps ctr
    else
      match trySymbols a p (pre ++ p :: rest) alphabet [] with
      | (details, some subs) =>
        (pre ++ subs ++ rest,
          steps ++ [⟨ctr,
            "Analyzing partition \x7b" ++ String.intercalate ", " p
              ++ "\x7d with all symbols",
            pre ++ p :: rest, pre ++ subs ++ rest, some p, alphabet, details⟩],
          ctr + 1, true)
      | (details, none) =>
        scanPartitions a alphabet (pre ++ [p]) rest
          (steps ++ [⟨ctr,
            "Checked partition \x7b" ++ String.intercalate ", " p
              ++ "\x7d with all symbols - no split needed",
            pre ++ p :: rest, pre ++ p :: rest, some p, alphabet, details⟩])
          (ctr + 1)

/-- The `while (changed)` refinement loop.  Every changed pass strictly
increases the number of (nonempty, disjoint) partitions, which is
bounded by the number of reachable states, so the fuel chosen at the
call site dominates the pass count. -/
def refineLoop (a : Automaton) (alphabet : List String) :
    Nat → List (List String) → List PartitioningStep → Nat →
    List (List String) × List PartitioningStep × Nat
  | 0, parts, steps, ctr => (parts, steps, ctr)
  | fuel + 1, parts, steps, ctr =>
    match scanPartitions a alphabet [] parts steps ctr with
    | (parts', steps', ctr', true) => refineLoop a alphabet fuel parts' steps' ctr'
    | (parts', steps', ctr', false) => (parts', steps', ctr')

/-- One combined-transition record. -/
structure CombinedEntry where
  «to» : String
  originalTransitions : List Transition
deriving DecidableEq, Repr

/-- `stateMapping.set` (overwrite on an existing key). -/
def msetStr (m : List (String × String)) (k v : String) : List (String × String) :=
  match m with
  | [] => [(k, v)]
  | (k', v') :: rest =>
    if k' = k then (k, v) :: rest else (k', v') :: msetStr rest k v

/-- Update of `combinedTransitions[fromState][symbol]`: create the
entry on first sight of the symbol (keeping the first target), then
push the original transition. -/
def combAdjust (inner : List (String × CombinedEntry)) (sym toState : String)
    (t : Transition) : List (String × CombinedEntry) :=
  match inner with
  | [] => [(sym, ⟨toState, [t]⟩)]
  | (s, e) :: rest =>
    if s = sym then (s, ⟨e.«to», e.originalTransitions ++ [t]⟩) :: rest
    else (s, e) :: combAdjust rest sym toState t

/-- Update of the outer `combinedTransitions` object at `fromState`
(every minimized state is pre-initialised, so a missing key is
unreachable and left unchanged). -/
def combUpdate (m : List (String × List (String × CombinedEntry)))
    (fromState sym toState : String) (t : Transition) :
    List (String × List (String × CombinedEntry)) :=
  match m with
  | [] => []
  | (f, inner) :: rest =>
    if f = fromState then (f, combAdjust inner sym toState t) :: rest
    else (f, inner) :: combUpdate rest fromState sym toState t

/-- The accumulators of the minimized-transition building loop. -/
structure BuildTransSt where
  minTransitions : List Transition
  transitionSet : List String
  combined : List (String × List (String × CombinedEntry))
deriving DecidableEq, Repr

/-- One iteration of `for (const transition of reachableDFA.transitions)`
in the minimizer's transition-building phase. -/
def buildTransStep (stateMapping : List (String × String)) (st : BuildTransSt)
    (t : Transition) : BuildTransSt :=
  if (mlookup stateMapping t.«from»).getD "" ++ "-"
      ++ (mlookup stateMapping t.«to»).getD "" ++ "-" ++ t.symbol
      ∈ st.transitionSet then
    { st with combined := (combUpdate st.combined
        ((mlookup stateMapping t.«from»).getD "") t.symbol
        ((mlookup stateMapping t.«to»).getD "") t) }
  else
    { minTransitions := (st.minTransitions
        ++ [⟨(mlookup stateMapping t.«from»).getD "",
          (mlookup stateMapping t.«to»).getD "", t.symbol⟩])
      transitionSet := (st.transitionSet
        ++ [(mlookup stateMapping t.«from»).getD "" ++ "-"
          ++ (mlookup stateMapping t.«to»).getD "" ++ "-" ++ t.symbol])
      combined := (combUpdate st.combined
        ((mlookup stateMapping t.«from»).getD "") t.symbol
        ((mlookup stateMapping t.«to»).getD "") t) }

/-- `MinimizationResult`: maps are insertion-ordered association
lists. -/
structure MinimizationResult where
  originalDFA : Automaton
  minimizedDFA : Automaton
  stateMapping : List (String × String)
  partitions : List (List String)
  equivalentStates : List (String × List String)
  combinedTransitions : List (String × List (String × CombinedEntry))
  algorithm : String
  partitioningSteps : List PartitioningStep
deriving DecidableEq, Repr

/-- The local `reachableDFA` of `minimizeDFAWithDetails`: the completed
input restricted to its reachable states. -/
def reachableDFAOf (dfa : Automaton) : Automaton :=
  { makeCompleteDFA dfa with
    states := (makeCompleteDFA dfa).states.filter
      (fun s => s.id ∈ getReachableStates (makeCompleteDFA dfa))
    transitions := (makeCompleteDFA dfa).transitions.filter
      (fun t => t.«from» ∈ getReachableStates (makeCompleteDFA dfa) ∧
        t.«to» ∈ getReachableStates (makeCompleteDFA dfa))
    finalStates := (makeCompleteDFA dfa).finalStates.filter
      (fun s => s ∈ getReachableStates (makeCompleteDFA dfa)) }

/-- The local `alphabet` of the minimizer (symbols of the reachable
transitions, deduplicated, without the ε filter used elsewhere). -/
def minAlphabet (dfa : Automaton) : List String :=
  dedupKeep ((reachableDFAOf dfa).transitions.map (fun t => t.symbol))

/-- The local `nonFinalStates` of the minimizer. -/
def minNonFinals (dfa : Automaton) : List String :=
  ((reachableDFAOf dfa).states.map (fun s => s.id)).filter
    (fun s => s ∉ (reachableDFAOf dfa).finalStates)

/-- The initial partition (empty groups are not added). -/
def minPartitions0 (dfa : Automaton) : List (List String) :=
  (if 0 < (minNonFinals dfa).length then [minNonFinals dfa] else []) ++
    (if 0 < (reachableDFAOf dfa).finalStates.length then
      [(reachableDFAOf dfa).finalStates] else [])

/-- The recorded initial partitioning step. -/
def minStep0 (dfa : Automaton) : PartitioningStep :=
  ⟨0, "Initial partition: separate final and non-final states",
    [], minPartitions0 dfa, none, [], []⟩

/-- The refinement loop run of the minimizer. -/
def minRefine (dfa : Automaton) :
    List (List String) × List PartitioningStep × Nat :=
  refineLoop (reachableDFAOf dfa) (minAlphabet dfa)
    ((reachableDFAOf dfa).states.length + 1) (minPartitions0 dfa) [minStep0 dfa] 1

/-- The final partition list. -/
def minParts (dfa : Automaton) : List (List String) :=
  (minRefine dfa).1

/-- The `stateMapping` from original to minimized state names. -/
def minStateMapping (dfa : Automaton) : List (String × String) :=
  (minParts dfa).enum.foldl
    (fun m e => e.2.foldl
      (fun m2 s => msetStr m2 s (generateAlphabeticStateName e.1)) m)
    []

/-- The transition-building fold of the minimizer. -/
def minBuild (dfa : Automaton) : BuildTransSt :=
  (reachableDFAOf dfa).transitions.foldl (buildTransStep (minStateMapping dfa))
    { minTransitions := [], transitionSet := []
      combined := ((List.range (minParts dfa).length).map
        (fun i => State.mk (generateAlphabeticStateName i))).map
          (fun s => (s.id, [])) }

/-- The minimized automaton assembled by the minimizer. -/
def minimizedDFAOf (dfa : Automaton) : Automaton :=
  { states := (List.range (minParts dfa).length).map
      (fun i => State.mk (generateAlphabeticStateName i))
    transitions := (minBuild dfa).minTransitions
    startState :=
      match (reachableDFAOf dfa).startState with
      | none => none
      | some s => mlookup (minStateMapping dfa) s
    finalStates := dedupKeep ((reachableDFAOf dfa).finalStates.map
      (fun s => (mlookup (minStateMapping dfa) s).getD ""))
    type := .DFA }

/-- `AutomataEngine.minimizeDFAWithDetails`. -/
def minimizeDFAWithDetails (dfa : Automaton) : MinimizationResult :=
  if dfa.type ≠ .DFA then
    { originalDFA := dfa, minimizedDFA := dfa, stateMapping := [], partitions := []
      equivalentStates := [], combinedTransitions := [], algorithm := "Hopcroft"
      partitioningSteps := [] }
  else
    { originalDFA := dfa
      minimizedDFA := minimizedDFAOf dfa
      stateMapping := minStateMapping dfa
      partitions := minParts dfa
      equivalentStates := (minParts dfa).enum.map
        (fun e => (generateAlphabeticStateName e.1, e.2))
      combinedTransitions := (minBuild dfa).combined
      algorithm := "Hopcroft"
      partitioningSteps := (minRefine dfa).2.1 }

/-- `AutomataEngine.minimizeDFA`. -/
def minimizeDFA (dfa : Automaton) : Automaton :=
  (minimizeDFAWithDetails dfa).minimizedDFA

/-! ## Concrete automata used by the claims and by witnesses -/

/-- The already-minimal three-state DFA of the spec's concrete
minimization scenario (§8.8). -/
def exampleMinimalDFA : Automaton :=
  { states := [⟨"A"⟩, ⟨"B"⟩, ⟨"C"⟩]
    transitions := [⟨"A", "B", "0"⟩, ⟨"A", "A", "1"⟩, ⟨"B", "C", "0"⟩,
                    ⟨"B", "A", "1"⟩, ⟨"C", "C", "0"⟩, ⟨"C", "A", "1"⟩]
    startState := some "A"
    finalStates := ["C"]
    type := .DFA }

/-- An NFA whose state identifiers alias under the comma-joined set
keys: the sets `{"a,b"}` and `{"a", "b"}` share the key `"a,b"`. -/
def commaAliasNFA : Automaton :=
  { states := [⟨"S"⟩, ⟨"a,b"⟩, ⟨"a"⟩, ⟨"b"⟩]
    transitions := [⟨"S", "a,b", "0"⟩, ⟨"S", "a", "1"⟩, ⟨"S", "b", "1"⟩]
    startState := some "S"
    finalStates := ["a,b"]
    type := .NFA }

/-- A deterministic transition set whose `from`/`symbol` pairs alias
under the dash-joined grouping key: `("A-", "0")` and `("A", "-0")`
both map to the key `"A--0"`. -/
def dashAliasAutomaton : Automaton :=
  { states := [⟨"A-"⟩, ⟨"A"⟩, ⟨"B"⟩, ⟨"C"⟩]
    transitions := [⟨"A-", "B", "0"⟩, ⟨"A", "C", "-0"⟩]
    startState := some "A"
    finalStates := []
    type := .DFA }

/-- A nondeterministic automaton whose offending `from` state contains
a dash, so the report's `key.split("-")` misparses the pair. -/
def dashFromAutomaton : Automaton :=
  { states := [⟨"A-B"⟩, ⟨"B"⟩, ⟨"C"⟩]
    transitions := [⟨"A-B", "B", "0"⟩, ⟨"A-B", "C", "0"⟩]
    startState := some "A-B"
    finalStates := []
    type := .NFA }

/-- The spec's concrete nondeterminism scenario (§8.10):
transitions `A-0→B` and `A-0→C`. -/
def nondetPairAutomaton : Automaton :=
  { states := [⟨"A"⟩, ⟨"B"⟩, ⟨"C"⟩]
    transitions := [⟨"A", "B", "0"⟩, ⟨"A", "C", "0"⟩]
    startState := some "A"
    finalStates := []
    type := .NFA }

/-- A small incomplete DFA (state B lacks a transition on "0"). -/
def incompleteDFA : Automaton :=
  { states := [⟨"A"⟩, ⟨"B"⟩]
    transitions := [⟨"A", "B", "0"⟩]
    startState := some "A"
    finalStates := ["B"]
    type := .DFA }

/-- The spec's epsilon-NFA scenario (§8.9): `A-ε→B`, `B-a→C`. -/
def epsilonNFA : Automaton :=
  { states := [⟨"A"⟩, ⟨"B"⟩, ⟨"C"⟩]
    transitions := [⟨"A", "B", "ε"⟩, ⟨"B", "C", "a"⟩]
    startState := some "A"
    finalStates := ["C"]
    type := .NFA }

/-! ## Specification-side definitions used by the theorems -/

/-- Specification-side big-endian base-26 digit sequence of the
generator (digit `A` = 0). -/
def genDigits (n : Nat) : List Nat :=
  if _ : n < 26 then [n]
  else
    have : n / 26 < n := Nat.div_lt_self (by omega) (by omega)
    genDigits (n / 26) ++ [n % 26]

/-- The character the generator emits for one digit. -/
def digitChar (d : Nat) : Char := Char.ofNat (65 + d)

/-- The distinct destinations of one true `(from, symbol)` pair, in
first-occurrence order. -/
def destsOf (ts : List Transition) (f s : String) : List String :=
  dedupKeep ((ts.filter (fun t => t.«from» = f ∧ t.symbol = s)).map (fun t => t.«to»))

/-- The distinct destinations grouped under one map key. -/
def destsOfKey (ts : List Transition) (k : String) : List String :=
  dedupKeep ((ts.filter (fun t => pairKey t = k)).map (fun t => t.«to»))

/-- Generic lookup in the destination map. -/
def lookupDests (m : List (String × List String)) (k : String) :
    Option (List String) :=
  match m.find? (fun e => e.1 == k) with
  | some e => some e.2
  | none => none

/-- Ghost characterisation of the transition and missing-transition
records accumulated by the subset construction: `sets` is the list of
NFA state sets in discovery order (DFA state `i` is named
`generateAlphabeticStateName i` and stands for `sets[i]`), and
`C i sym` says the loop has already processed symbol `sym` for state
`i`. -/
def SubsetRecords (nfa : Automaton) (alphabet : List String)
    (sets : List (List String)) (C : Nat → String → Prop)
    (trs : List Transition) (missing : List (String × String)) : Prop :=
  (∀ tr, tr ∈ trs ↔ ∃ i sym j, C i sym ∧ sym ∈ alphabet ∧ i < sets.length ∧
      j < sets.length ∧
      stepDests nfa (sets.getD i []) sym ≠ [] ∧
      setToKey (sets.getD j []) =
        setToKey (epsilonClosure nfa (stepDests nfa (sets.getD i []) sym)) ∧
      tr = ⟨generateAlphabeticStateName i, generateAlphabeticStateName j, sym⟩) ∧
  (∀ p, p ∈ missing ↔ ∃ i sym, C i sym ∧ sym ∈ alphabet ∧ i < sets.length ∧
      stepDests nfa (sets.getD i []) sym = [] ∧
      p = (generateAlphabeticStateName i, sym)) ∧
  (∀ i sym, C i sym → sym ∈ alphabet → i < sets.length →
      stepDests nfa (sets.getD i []) sym ≠ [] →
      setToKey (epsilonClosure nfa (stepDests nfa (sets.getD i []) sym)) ∈
        sets.map setToKey)

/-- Ghost invariant of the subset-construction loop state: the first
`donen` of the discovered `sets` have been dequeued. -/
structure SubsetGhost (nfa : Automaton) (sets : List (List String))
    (donen : Nat) (st : SubsetSt) : Prop where
  hcount : st.stateCounter = sets.length
  hmap : st.stateMap = sets.enum.map
    (fun e => (setToKey e.2, generateAlphabeticStateName e.1))
  hstates : st.dfaStates = sets.enum.map
    (fun e => State.mk (generateAlphabeticStateName e.1))
  hqueue : st.queue = sets.drop donen
  hgood : ∀ S ∈ sets, S.Nodup ∧ ∀ x ∈ S, x ∈ subsetUniv nfa
  hkeys : (sets.map setToKey).Nodup

/-- One transition step of the automaton, any symbol. -/
def StepTo (a : Automaton) (x y : String) : Prop :=
  ∃ t ∈ a.transitions, t.«from» = x ∧ t.«to» = y

/-- One ε-step of the automaton. -/
def EpsStep (a : Automaton) (x y : String) : Prop :=
  ∃ t ∈ a.transitions, t.«from» = x ∧ isEpsilon t.symbol = true ∧ t.«to» = y

/-- ε-reachability: the reflexive-transitive closure of ε-steps. -/
def EpsReach (a : Automaton) : String → String → Prop :=
  Relation.ReflTransGen (EpsStep a)

/-! # Basic lemmas about the JavaScript collection primitives -/

theorem data_append (a b : String) : (a ++ b).data = a.data ++ b.data := by
  cases a; cases b; rfl

theorem mem_addSet {s : List String} {x y : String} :
    y ∈ addSet s x ↔ y ∈ s ∨ y = x := by
  unfold addSet
  split
  · next h => simp only [iff_self_or]; rintro rfl; exact h
  · simp

theorem nodup_addSet {s : List String} (hs : s.Nodup) (x : String) :
    (addSet s x).Nodup := by
  unfold addSet
  split
  · exact hs
  · next h => simpa [List.nodup_append, hs] using h

theorem addSet_sublist (s : List String) (x : String) :
    s.Sublist (addSet s x) := by
  unfold addSet
  split
  · exact List.Sublist.refl s
  · exact List.sublist_append_left s [x]

theorem mem_foldl_addSet (l : List String) (acc : List String) (y : String) :
    y ∈ l.foldl addSet acc ↔ y ∈ acc ∨ y ∈ l := by
  induction l generalizing acc with
  | nil => simp
  | cons x xs ih =>
    rw [List.foldl_cons, ih]
    simp [mem_addSet]
    tauto

theorem nodup_foldl_addSet (l : List String) (acc : List String)
    (hacc : acc.Nodup) : (l.foldl addSet acc).Nodup := by
  induction l generalizing acc with
  | nil => exact hacc
  | cons x xs ih => exact ih _ (nodup_addSet hacc x)

theorem foldl_addSet_of_nodup (l : List String) (acc : List String)
    (h : (acc ++ l).Nodup) : l.foldl addSet acc = acc ++ l := by
  induction l generalizing acc with
  | nil => simp
  | cons x xs ih =>
    have hx : x ∉ acc := by
      intro hmem
      exact (List.nodup_append.mp h).2.2 hmem (by simp)
    rw [List.foldl_cons]
    have : addSet acc x = acc ++ [x] := by unfold addSet; simp [hx]
    rw [this]
    have h' : (acc ++ [x] ++ xs).Nodup := by simpa using h
    rw [ih _ h']
    simp

theorem mem_dedupKeep {l : List String} {y : String} :
    y ∈ dedupKeep l ↔ y ∈ l := by
  unfold dedupKeep
  rw [mem_foldl_addSet]
  simp

theorem nodup_dedupKeep (l : List String) : (dedupKeep l).Nodup :=
  nodup_foldl_addSet l [] List.nodup_nil

theorem dedupKeep_of_nodup {l : List String} (h : l.Nodup) : dedupKeep l = l := by
  unfold dedupKeep
  rw [foldl_addSet_of_nodup l [] (by simpa using h)]
  simp

/-! ## The string order used for sorting -/

theorem charListLe_refl : ∀ a, charListLe a a = true := by
  intro a
  induction a with
  | nil => rfl
  | cons x xs ih => simp [charListLe, ih]

theorem charListLe_total : ∀ a b, charListLe a b = true ∨ charListLe b a = true := by
  intro a
  induction a with
  | nil => intro b; left; rfl
  | cons x xs ih =>
    intro b
    cases b with
    | nil => right; rfl
    | cons y ys =>
      by_cases hxy : x.toNat < y.toNat
      · left; simp [charListLe, hxy]
      · by_cases hyx : y.toNat < x.toNat
        · right; simp [charListLe, hyx]
        · rcases ih ys with h | h
          · left; simpa [charListLe, hxy, hyx] using h
          · right; simpa [charListLe, hxy, hyx] using h

theorem charListLe_trans :
    ∀ a b c, charListLe a b = true → charListLe b c = true → charListLe a c = true := by
  intro a
  induction a with
  | nil => intro b c _ _; rfl
  | cons x xs ih =>
    intro b c hab hbc
    cases b with
    | nil => simp [charListLe] at hab
    | cons y ys =>
      cases c with
      | nil => simp [charListLe] at hbc
      | cons z zs =>
        simp only [charListLe] at hab hbc ⊢
        by_cases hxy : x.toNat < y.toNat
        · by_cases hyz : y.toNat < z.toNat
          · simp [show x.toNat < z.toNat from hxy.trans hyz]
          · by_cases hzy : z.toNat < y.toNat
            · simp [hyz, hzy] at hbc
            · have : y.toNat = z.toNat := by omega
              simp [show x.toNat < z.toNat from this ▸ hxy]
        · by_cases hyx : y.toNat < x.toNat
          · simp [hxy, hyx] at hab
          · have hxyeq : x.toNat = y.toNat := by omega
            by_cases hyz : y.toNat < z.toNat
            · simp [show x.toNat < z.toNat from hxyeq ▸ hyz]
            · by_cases hzy : z.toNat < y.toNat
              · simp [hyz, hzy] at hbc
              · have hyzeq : y.toNat = z.toNat := by omega
                have h1 : ¬ x.toNat < z.toNat := by omega
                have h2 : ¬ z.toNat < x.toNat := by omega
                simp only [h1, if_false, h2]
                simp only [hxy, hyx, if_false] at hab
                simp only [hyz, hzy, if_false] at hbc
                exact ih ys zs hab hbc

theorem char_toNat_inj {a b : Char} (h : a.toNat = b.toNat) : a = b := by
  have := congrArg Char.ofNat h
  rwa [Char.ofNat_toNat, Char.ofNat_toNat] at this

theorem charListLe_antisymm :
    ∀ a b, charListLe a b = true → charListLe b a = true → a = b := by
  intro a
  induction a with
  | nil =>
    intro b _ hba
    cases b with
    | nil => rfl
    | cons y ys => simp [charListLe] at hba
  | cons x xs ih =>
    intro b hab hba
    cases b with
    | nil => simp [charListLe] at hab
    | cons y ys =>
      simp only [charListLe] at hab hba
      by_cases hxy : x.toNat < y.toNat
      · simp [hxy, show ¬ y.toNat < x.toNat by omega] at hba
      · by_cases hyx : y.toNat < x.toNat
        · simp [hxy, hyx] at hab
        · have hx : x = y := char_toNat_inj (by omega)
          simp only [hxy, hyx, if_false] at hab hba
          rw [hx, ih ys hab hba]

theorem strLe_total (a b : String) : strLe a b = true ∨ strLe b a = true :=
  charListLe_total a.data b.data

theorem strLe_trans {a b c : String} (hab : strLe a b = true)
    (hbc : strLe b c = true) : strLe a c = true :=
  charListLe_trans a.data b.data c.data hab hbc

theorem strLe_antisymm {a b : String} (hab : strLe a b = true)
    (hba : strLe b a = true) : a = b :=
  String.ext (charListLe_antisymm a.data b.data hab hba)

theorem sortJS_perm (l : List String) : (sortJS l).Perm l :=
  List.perm_insertionSort _ l

theorem sortJS_sorted (l : List String) :
    List.Sorted (fun a b => strLe a b = true) (sortJS l) := by
  have htot : IsTotal String (fun a b => strLe a b = true) :=
    ⟨fun a b => strLe_total a b⟩
  have htr : IsTrans String (fun a b => strLe a b = true) :=
    ⟨fun _ _ _ h1 h2 => strLe_trans h1 h2⟩
  exact List.sorted_insertionSort _ l

/-- Sorting is canonical: permuted inputs sort to the same list. -/
theorem sortJS_canonical {l₁ l₂ : List String} (h : l₁.Perm l₂) :
    sortJS l₁ = sortJS l₂ := by
  have hanti : IsAntisymm String (fun a b => strLe a b = true) :=
    ⟨fun _ _ h1 h2 => strLe_antisymm h1 h2⟩
  exact List.eq_of_perm_of_sorted
    (((sortJS_perm l₁).trans h).trans (sortJS_perm l₂).symm)
    (sortJS_sorted l₁) (sortJS_sorted l₂)

theorem sortJS_nodup {l : List String} (h : l.Nodup) : (sortJS l).Nodup :=
  ((sortJS_perm l).symm.nodup h : (sortJS l).Nodup)

theorem mem_sortJS {l : List String} {x : String} : x ∈ sortJS l ↔ x ∈ l :=
  (sortJS_perm l).mem_iff

/-- Permutation-invariance of `setToKey`: set-equal duplicate-free
lists share a key. -/
theorem setToKey_perm {l₁ l₂ : List String} (h : l₁.Perm l₂) :
    setToKey l₁ = setToKey l₂ := by
  unfold setToKey
  rw [sortJS_canonical h]

/-! ## join / split -/

theorem joinComma_data_cons (x : String) (xs : List String) (hxs : xs ≠ []) :
    (joinComma (x :: xs)).data = x.data ++ ',' :: (joinComma xs).data := by
  match xs, hxs with
  | y :: ys, _ =>
    show (x ++ "," ++ joinComma (y :: ys)).data = _
    rw [data_append, data_append]
    simp

theorem splitChAux_no_sep (c : Char) (acc l : List Char) (h : c ∉ l) :
    splitChAux c acc l = [acc.reverse ++ l] := by
  induction l generalizing acc with
  | nil => simp [splitChAux]
  | cons x xs ih =>
    have hxc : ¬ x = c := fun hx => h (hx ▸ List.mem_cons_self x xs)
    have hxs : c ∉ xs := fun hm => h (List.mem_cons_of_mem x hm)
    rw [splitChAux, if_neg hxc, ih _ hxs]
    simp

theorem splitChAux_sep (c : Char) (acc l₁ l₂ : List Char) (h : c ∉ l₁) :
    splitChAux c acc (l₁ ++ c :: l₂) =
      (acc.reverse ++ l₁) :: splitChAux c [] l₂ := by
  induction l₁ generalizing acc with
  | nil => simp [splitChAux]
  | cons x xs ih =>
    have hxc : ¬ x = c := fun hx => h (hx ▸ List.mem_cons_self x xs)
    have hxs : c ∉ xs := fun hm => h (List.mem_cons_of_mem x hm)
    rw [List.cons_append, splitChAux, if_neg hxc, ih _ hxs]
    simp

/-- Splitting a comma-join recovers the parts, provided no part
contains a comma. -/
theorem splitCh_joinComma (l : List String) (hne : l ≠ [])
    (hfree : ∀ s ∈ l, ',' ∉ s.data) :
    splitCh ',' (joinComma l) = l := by
  induction l with
  | nil => exact absurd rfl hne
  | cons x xs ih =>
    cases xs with
    | nil =>
      show (splitChAux ',' [] x.data).map _ = [x]
      rw [splitChAux_no_sep ',' [] x.data (hfree x (by simp))]
      simp
    | cons y ys =>
      unfold splitCh
      rw [joinComma_data_cons x (y :: ys) (by simp),
        splitChAux_sep ',' [] x.data _ (hfree x (by simp))]
      have ihh := ih (by simp) (fun s hs => hfree s (List.mem_cons_of_mem x hs))
      unfold splitCh at ihh
      simp only [List.map_cons, List.reverse_nil, List.nil_append] at ihh ⊢
      rw [ihh]

/-- A comma-join of duplicate-free comma-free nonempty parts is
injective up to the part lists. -/
theorem joinComma_inj (l₁ l₂ : List String)
    (h₁ne : ∀ s ∈ l₁, s ≠ "") (h₁ : ∀ s ∈ l₁, ',' ∉ s.data)
    (h₂ne : ∀ s ∈ l₂, s ≠ "") (h₂ : ∀ s ∈ l₂, ',' ∉ s.data)
    (h : joinComma l₁ = joinComma l₂) : l₁ = l₂ := by
  rcases l₁ with _ | ⟨x, xs⟩
  · rcases l₂ with _ | ⟨y, ys⟩
    · rfl
    · exfalso
      rcases ys with _ | ⟨z, zs⟩
      · exact h₂ne y (by simp) h.symm
      · have hdata := congrArg String.data h
        rw [joinComma_data_cons y (z :: zs) (by simp)] at hdata
        have hlen := congrArg List.length hdata
        simp [joinComma] at hlen
        omega
  · rcases l₂ with _ | ⟨y, ys⟩
    · exfalso
      rcases xs with _ | ⟨z, zs⟩
      · exact h₁ne x (by simp) h
      · have hdata := congrArg String.data h
        rw [joinComma_data_cons x (z :: zs) (by simp)] at hdata
        have hlen := congrArg List.length hdata
        simp [joinComma] at hlen
    · have hs := congrArg (splitCh ',') h
      rw [splitCh_joinComma _ (by simp) h₁, splitCh_joinComma _ (by simp) h₂] at hs
      exact hs

/-- `setToKey` is injective (up to permutation) on duplicate-free lists
of nonempty comma-free identifiers. -/
theorem setToKey_inj {l₁ l₂ : List String}
    (h₁ne : ∀ s ∈ l₁, s ≠ "") (h₁ : ∀ s ∈ l₁, ',' ∉ s.data)
    (h₂ne : ∀ s ∈ l₂, s ≠ "") (h₂ : ∀ s ∈ l₂, ',' ∉ s.data)
    (h : setToKey l₁ = setToKey l₂) : l₁.Perm l₂ := by
  unfold setToKey at h
  have hj := joinComma_inj (sortJS l₁) (sortJS l₂)
    (fun s hs => h₁ne s (mem_sortJS.mp hs)) (fun s hs => h₁ s (mem_sortJS.mp hs))
    (fun s hs => h₂ne s (mem_sortJS.mp hs)) (fun s hs => h₂ s (mem_sortJS.mp hs)) h
  have hp : l₁.Perm (sortJS l₂) := hj ▸ (sortJS_perm l₁).symm
  exact hp.trans (sortJS_perm l₂)

/-- `keyToSet` inverts `setToKey` (as a permutation) on duplicate-free
lists of nonempty comma-free identifiers. -/
theorem keyToSet_setToKey {l : List String} (hd : l.Nodup)
    (hne : ∀ s ∈ l, s ≠ "") (hfree : ∀ s ∈ l, ',' ∉ s.data) :
    (keyToSet (setToKey l)).Perm l := by
  rcases l with _ | ⟨x, xs⟩
  · simp [keyToSet, setToKey, sortJS, joinComma]
  · have hsne : sortJS (x :: xs) ≠ [] := by
      intro hnil
      have := (sortJS_perm (x :: xs)).length_eq
      rw [hnil] at this
      simp at this
    have hkey : setToKey (x :: xs) ≠ "" := by
      unfold setToKey
      rcases hs : sortJS (x :: xs) with _ | ⟨y, ys⟩
      · exact absurd hs hsne
      · rcases ys with _ | ⟨z, zs⟩
        · show joinComma [y] ≠ ""
          exact hne y (mem_sortJS.mp (hs ▸ List.mem_cons_self y []))
        · intro hc
          have := congrArg String.data hc
          rw [show joinComma (y :: z :: zs) = y ++ "," ++ joinComma (z :: zs) from rfl,
            data_append, data_append] at this
          cases hyd : y.data with
          | nil =>
            exact hne y (mem_sortJS.mp (hs ▸ List.mem_cons_self y (z :: zs)))
              (String.ext (by simp [hyd]))
          | cons a as => rw [hyd] at this; simp at this
    unfold keyToSet
    rw [if_neg hkey]
    unfold setToKey
    rw [splitCh_joinComma _ hsne (fun s hs => hfree s (mem_sortJS.mp hs)),
      dedupKeep_of_nodup (sortJS_nodup hd)]
    exact sortJS_perm _

/-! ## The synthetic name generator -/


theorem genDigits_eq (n : Nat) :
    genDigits n = if n < 26 then [n] else genDigits (n / 26) ++ [n % 26] := by
  by_cases h : n < 26
  · rw [genDigits, dif_pos h, if_pos h]
  · rw [genDigits, dif_neg h, if_neg h]

theorem genDigits_ne_nil (n : Nat) : genDigits n ≠ [] := by
  rw [genDigits_eq]
  split
  · simp
  · simp

theorem genDigits_lt (n : Nat) : ∀ d ∈ genDigits n, d < 26 := by
  induction n using Nat.strong_induction_on with
  | _ n ih =>
    rw [genDigits_eq]
    split
    · next h => intro d hd; simp at hd; omega
    · next h =>
      intro d hd
      have hdiv : n / 26 < n := Nat.div_lt_self (by omega) (by omega)
      simp at hd
      rcases hd with hd | hd
      · exact ih (n / 26) hdiv d hd
      · subst hd; exact Nat.mod_lt n (by omega)

theorem genDigits_inj : ∀ m n : Nat, genDigits m = genDigits n → m = n := by
  intro m
  induction m using Nat.strong_induction_on with
  | _ m ih =>
    intro n h
    by_cases hm : m < 26
    · by_cases hn : n < 26
      · rw [genDigits_eq m, if_pos hm, genDigits_eq n, if_pos hn] at h
        simpa using h
      · rw [genDigits_eq m, if_pos hm, genDigits_eq n, if_neg hn] at h
        have hlen := congrArg List.length h
        simp at hlen
        exact absurd hlen (genDigits_ne_nil _)
    · by_cases hn : n < 26
      · rw [genDigits_eq m, if_neg hm, genDigits_eq n, if_pos hn] at h
        have hlen := congrArg List.length h
        simp at hlen
        exact absurd hlen (genDigits_ne_nil _)
      · rw [genDigits_eq m, if_neg hm, genDigits_eq n, if_neg hn] at h
        have h2 := List.append_inj' h (by rfl)
        have hdiveq : m / 26 = n / 26 :=
          ih (m / 26) (Nat.div_lt_self (by omega) (by omega)) (n / 26) h2.1
        have hmodeq : m % 26 = n % 26 := by simpa using h2.2
        omega

theorem digitChar_inj {d₁ d₂ : Nat} (h₁ : d₁ < 26) (h₂ : d₂ < 26)
    (h : digitChar d₁ = digitChar d₂) : d₁ = d₂ := by
  have key : ∀ a b : Fin 26,
      Char.ofNat (65 + a.val) = Char.ofNat (65 + b.val) → a = b := by decide
  have := key ⟨d₁, h₁⟩ ⟨d₂, h₂⟩ h
  simpa using congrArg Fin.val this

theorem digitChar_toNat {d : Nat} (h : d < 26) :
    (digitChar d).toNat = 65 + d := by
  have key : ∀ a : Fin 26, (Char.ofNat (65 + a.val)).toNat = 65 + a.val := by decide
  exact key ⟨d, h⟩

/-- The generator loop computes the digit string, given enough fuel. -/
theorem genNameLoop_eq (fuel num : Nat) (acc : String) (h : num < fuel) :
    (genNameLoop fuel num acc).data = (genDigits num).map digitChar ++ acc.data := by
  induction fuel using Nat.strong_induction_on generalizing num acc with
  | _ fuel ih =>
    match fuel, h with
    | fuel + 1, h =>
      rw [genNameLoop]
      by_cases hdiv : num / 26 > 0
      · have hnum : ¬ num < 26 := by
          intro hlt
          rw [Nat.div_eq_of_lt hlt] at hdiv
          omega
        rw [if_pos hdiv]
        have hrec : num / 26 < fuel := by
          have : num / 26 < num := Nat.div_lt_self (by omega) (by omega)
          omega
        rw [ih fuel (by omega) (num / 26) _ hrec]
        rw [genDigits_eq num, if_neg hnum]
        simp [data_append, digitChar, String.singleton]
      · have hnum : num < 26 := by
          by_contra hge
          have : 26 ≤ num := by omega
          have : 1 ≤ num / 26 := (Nat.le_div_iff_mul_le (by omega)).mpr (by omega)
          omega
        rw [if_neg hdiv]
        rw [genDigits_eq num, if_pos hnum]
        simp [data_append, digitChar, String.singleton, Nat.mod_eq_of_lt hnum]

theorem generateAlphabeticStateName_data (n : Nat) :
    (generateAlphabeticStateName n).data = (genDigits n).map digitChar := by
  unfold generateAlphabeticStateName
  rw [genNameLoop_eq (n + 1) n "" (by omega)]
  simp

/-- The generator is injective. -/
theorem generateAlphabeticStateName_inj {m n : Nat}
    (h : generateAlphabeticStateName m = generateAlphabeticStateName n) : m = n := by
  have hd := congrArg String.data h
  rw [generateAlphabeticStateName_data, generateAlphabeticStateName_data] at hd
  apply genDigits_inj
  have bound₁ := genDigits_lt m
  have bound₂ := genDigits_lt n
  revert hd bound₁ bound₂
  generalize genDigits m = l₁
  generalize genDigits n = l₂
  induction l₁ generalizing l₂ with
  | nil => cases l₂ <;> simp
  | cons d ds ihl =>
    cases l₂ with
    | nil => simp
    | cons e es =>
      intro hd b₁ b₂
      simp only [List.map_cons, List.cons.injEq] at hd
      have hde : d = e :=
        digitChar_inj (b₁ d (by simp)) (b₂ e (by simp)) hd.1
      have := ihl es hd.2 (fun x hx => b₁ x (by simp [hx]))
        (fun x hx => b₂ x (by simp [hx]))
      rw [hde, this]

/-- Every character of a generated name is an uppercase letter. -/
theorem generateAlphabeticStateName_chars (n : Nat) :
    ∀ c ∈ (generateAlphabeticStateName n).data, 65 ≤ c.toNat ∧ c.toNat ≤ 90 := by
  intro c hc
  rw [generateAlphabeticStateName_data] at hc
  rcases List.mem_map.mp hc with ⟨d, hd, hdc⟩
  have hlt := genDigits_lt n d hd
  have := digitChar_toNat hlt
  rw [hdc] at this
  omega

theorem generateAlphabeticStateName_ne_empty (n : Nat) :
    generateAlphabeticStateName n ≠ "" := by
  intro h
  have := congrArg String.data h
  rw [generateAlphabeticStateName_data] at this
  have hne := genDigits_ne_nil n
  simp at this
  exact hne this

theorem generateAlphabeticStateName_comma_free (n : Nat) :
    ',' ∉ (generateAlphabeticStateName n).data := by
  intro h
  exact absurd (generateAlphabeticStateName_chars n ',' h) (by decide)

theorem generateAlphabeticStateName_dash_free (n : Nat) :
    '-' ∉ (generateAlphabeticStateName n).data := by
  intro h
  exact absurd (generateAlphabeticStateName_chars n '-' h) (by decide)

/-- Pigeonhole freshness of the `freeNameLoop` search: starting from
index `i` with fuel exceeding the number of occupied names that can
still collide, the returned name is free. -/
theorem freeNameLoop_not_mem (existing : List String) :
    ∀ fuel i, ((List.range' i fuel).map generateAlphabeticStateName).countP
        (fun nm => decide (nm ∈ existing)) < fuel →
      freeNameLoop existing fuel i ∉ existing := by
  intro fuel
  induction fuel with
  | zero => intro i h; omega
  | succ fuel ih =>
    intro i h
    rw [freeNameLoop]
    by_cases hmem : generateAlphabeticStateName i ∈ existing
    · rw [if_pos hmem]
      apply ih
      rw [List.range'_succ, List.map_cons,
        List.countP_cons_of_pos _ _ (by simpa using hmem)] at h
      omega
    · rw [if_neg hmem]
      exact hmem

/-- The dead-state name chosen by `makeCompleteDFA` is fresh. -/
theorem freeName_fresh (existing : List String) :
    freeNameLoop existing (existing.length + 1) 0 ∉ existing := by
  apply freeNameLoop_not_mem
  have hnodup : (((List.range' 0 (existing.length + 1)).map
      generateAlphabeticStateName)).Nodup := by
    apply List.Nodup.map_on
    · intro k₁ _ k₂ _ hk
      exact generateAlphabeticStateName_inj hk
    · exact List.nodup_range' _ _
  have hsub : ((List.range' 0 (existing.length + 1)).map
      generateAlphabeticStateName).filter
        (fun nm => decide (nm ∈ existing)) ⊆ existing := by
    intro x hx
    have := List.of_mem_filter hx
    simpa using this
  have hnd := List.Nodup.filter (fun nm => decide (nm ∈ existing)) hnodup
  have hle : (((List.range' 0 (existing.length + 1)).map
        generateAlphabeticStateName).filter
      (fun nm => decide (nm ∈ existing))).length ≤ existing.length := by
    calc (((List.range' 0 (existing.length + 1)).map
          generateAlphabeticStateName).filter
        (fun nm => decide (nm ∈ existing))).length
        = (((List.range' 0 (existing.length + 1)).map
            generateAlphabeticStateName).filter
          (fun nm => decide (nm ∈ existing))).toFinset.card := by
          rw [List.toFinset_card_of_nodup hnd]
      _ ≤ existing.toFinset.card := by
          apply Finset.card_le_card
          intro x hx
          rw [List.mem_toFinset] at hx ⊢
          exact hsub hx
      _ ≤ existing.length := List.toFinset_card_le existing
  rw [List.countP_eq_length_filter]
  omega

/-! ## Classifier grouping -/


theorem sep_append_inj {c : Char} : ∀ {l₁ l₂ r₁ r₂ : List Char}, c ∉ l₁ → c ∉ l₂ →
    l₁ ++ c :: r₁ = l₂ ++ c :: r₂ → l₁ = l₂ ∧ r₁ = r₂ := by
  intro l₁
  induction l₁ with
  | nil =>
    intro l₂ r₁ r₂ _ h₂ h
    cases l₂ with
    | nil => simpa using h
    | cons y ys =>
      simp at h
      exact absurd (h.1 ▸ List.mem_cons_self y ys) h₂
  | cons x xs ih =>
    intro l₂ r₁ r₂ h₁ h₂ h
    cases l₂ with
    | nil =>
      simp at h
      exact absurd (h.1 ▸ List.mem_cons_self x xs) h₁
    | cons y ys =>
      simp at h
      obtain ⟨hxy, hrest⟩ := h
      have := ih (fun hm => h₁ (List.mem_cons_of_mem x hm))
        (fun hm => h₂ (List.mem_cons_of_mem y hm)) hrest
      exact ⟨by rw [hxy, this.1], this.2⟩

theorem dashKey_data (f s : String) :
    (f ++ "-" ++ s).data = f.data ++ '-' :: s.data := by
  rw [data_append, data_append]
  simp

/-- Dash-joined pair keys are injective when the `from` parts are
dash-free. -/
theorem pairKey_inj {f₁ s₁ f₂ s₂ : String} (h₁ : '-' ∉ f₁.data)
    (h₂ : '-' ∉ f₂.data) (h : f₁ ++ "-" ++ s₁ = f₂ ++ "-" ++ s₂) :
    f₁ = f₂ ∧ s₁ = s₂ := by
  have hd := congrArg String.data h
  rw [dashKey_data, dashKey_data] at hd
  have := sep_append_inj h₁ h₂ hd
  exact ⟨String.ext this.1, String.ext this.2⟩

/-- `key.split("-")` destructured recovers a dash-free pair. -/
theorem splitPair_eq {f s : String} (hf : '-' ∉ f.data) (hs : '-' ∉ s.data) :
    splitPair (f ++ "-" ++ s) = (f, s) := by
  unfold splitPair splitCh
  rw [dashKey_data, splitChAux_sep '-' [] f.data s.data hf,
    splitChAux_no_sep '-' [] s.data hs]
  simp

theorem lookupDests_nil (k : String) : lookupDests [] k = none := rfl

theorem lookupDests_cons (ek : String) (evs : List String)
    (rest : List (String × List String)) (k : String) :
    lookupDests ((ek, evs) :: rest) k =
      if ek = k then some evs else lookupDests rest k := by
  by_cases h : ek = k
  · have hb : (ek == k) = true := beq_iff_eq.mpr h
    simp [lookupDests, List.find?, hb, h]
  · have hb : (ek == k) = false := beq_eq_false_iff_ne.mpr h
    simp [lookupDests, List.find?, hb, h]

theorem addDest_nil (k v : String) : addDest [] k v = [(k, [v])] := rfl

theorem addDest_cons (ek : String) (evs : List String)
    (rest : List (String × List String)) (k v : String) :
    addDest ((ek, evs) :: rest) k v =
      if ek = k then (ek, addSet evs v) :: rest
      else (ek, evs) :: addDest rest k v := rfl

theorem lookupDests_addDest (m : List (String × List String)) (k v k' : String) :
    lookupDests (addDest m k v) k' =
      if k' = k then some (addSet ((lookupDests m k).getD []) v)
      else lookupDests m k' := by
  induction m with
  | nil =>
    rw [addDest_nil, lookupDests_cons]
    by_cases h : k' = k
    · subst h
      rw [if_pos rfl, if_pos rfl, lookupDests_nil]
      simp [addSet]
    · rw [if_neg (fun hc => h hc.symm), if_neg h, lookupDests_nil]
  | cons e rest ih =>
    obtain ⟨ek, evs⟩ := e
    by_cases hek : ek = k
    · subst hek
      rw [addDest_cons, if_pos rfl, lookupDests_cons]
      by_cases hk : ek = k'
      · rw [if_pos hk, if_pos hk.symm, lookupDests_cons, if_pos rfl]
        simp
      · rw [if_neg hk, if_neg (fun hc => hk hc.symm), lookupDests_cons, if_neg hk]
    · rw [addDest_cons, if_neg hek, lookupDests_cons]
      by_cases hk : ek = k'
      · rw [if_pos hk, if_neg (fun hc : k' = k => hek (hk.trans hc)),
          lookupDests_cons, if_pos hk]
      · rw [if_neg hk, ih]
        by_cases hkk : k' = k
        · rw [if_pos hkk, if_pos hkk, lookupDests_cons, if_neg hek]
        · rw [if_neg hkk, if_neg hkk, lookupDests_cons, if_neg hk]

theorem keys_addDest (m : List (String × List String)) (k v : String) :
    (addDest m k v).map Prod.fst = addSet (m.map Prod.fst) k := by
  induction m with
  | nil => simp [addDest, addSet]
  | cons e rest ih =>
    obtain ⟨ek, evs⟩ := e
    by_cases hek : ek = k
    · subst hek
      simp [addDest, addSet]
    · rw [addDest, if_neg hek]
      have : addSet (ek :: rest.map Prod.fst) k = ek :: addSet (rest.map Prod.fst) k := by
        unfold addSet
        by_cases hmem : k ∈ rest.map Prod.fst
        · simp [hmem, Ne.symm hek]
        · simp [hmem, Ne.symm hek]
      simp [this, ih]

/-- The transition-map fold, characterised by lookup. -/
theorem lookupDests_foldTransMap (ts : List Transition) :
    ∀ (m : List (String × List String)) (k : String),
      lookupDests (ts.foldl (fun m t => addDest m (pairKey t) t.«to») m) k =
        if (lookupDests m k).isSome ∨ ∃ t ∈ ts, pairKey t = k then
          some (((ts.filter (fun t => pairKey t = k)).map (fun t => t.«to»)).foldl
            addSet ((lookupDests m k).getD []))
        else none := by
  induction ts with
  | nil =>
    intro m k
    simp only [List.foldl_nil, List.filter_nil, List.map_nil, List.foldl_nil,
      List.not_mem_nil, false_and, exists_false, or_false]
    match h : lookupDests m k with
    | some vs => simp [Option.isSome, h]
    | none => simp [Option.isSome, h]
  | cons t ts ih =>
    intro m k
    rw [List.foldl_cons, ih]
    by_cases hk : pairKey t = k
    · have hsome : (lookupDests (addDest m (pairKey t) t.«to») k).isSome = true := by
        rw [lookupDests_addDest, if_pos hk.symm]
        rfl
      have hval : (lookupDests (addDest m (pairKey t) t.«to») k).getD [] =
          addSet ((lookupDests m k).getD []) t.«to» := by
        rw [lookupDests_addDest, if_pos hk.symm, hk]
        rfl
      rw [if_pos (Or.inl hsome), if_pos (Or.inr ⟨t, List.mem_cons_self t ts, hk⟩)]
      rw [List.filter_cons_of_pos (by simpa using hk), List.map_cons,
        List.foldl_cons, hval]
    · have haff : lookupDests (addDest m (pairKey t) t.«to») k = lookupDests m k := by
        rw [lookupDests_addDest, if_neg (fun hc => hk hc.symm)]
      rw [haff]
      rw [List.filter_cons_of_neg (by simpa using hk)]
      have hiff : ((lookupDests m k).isSome = true ∨ ∃ u ∈ t :: ts, pairKey u = k) ↔
          ((lookupDests m k).isSome = true ∨ ∃ u ∈ ts, pairKey u = k) := by
        constructor
        · rintro (h | ⟨u, hu, hku⟩)
          · exact Or.inl h
          · rcases List.mem_cons.mp hu with rfl | hu'
            · exact absurd hku hk
            · exact Or.inr ⟨u, hu', hku⟩
        · rintro (h | ⟨u, hu, hku⟩)
          · exact Or.inl h
          · exact Or.inr ⟨u, List.mem_cons_of_mem t hu, hku⟩
      by_cases hcond : (lookupDests m k).isSome = true ∨ ∃ u ∈ ts, pairKey u = k
      · rw [if_pos hcond, if_pos (hiff.mpr hcond)]
      · rw [if_neg hcond, if_neg (fun hc => hcond (hiff.mp hc))]

/-- Lookup in the built transition map. -/
theorem lookupDests_buildTransitionMap (ts : List Transition) (k : String) :
    lookupDests (buildTransitionMap ts) k =
      if ∃ t ∈ ts, pairKey t = k then some (destsOfKey ts k) else none := by
  unfold buildTransitionMap
  rw [lookupDests_foldTransMap ts [] k]
  simp only [lookupDests, List.find?_nil, Option.isSome_none, Bool.false_eq_true,
    false_or, Option.getD_none]
  rfl

theorem keys_foldTransMap (ts : List Transition) :
    ∀ (m : List (String × List String)),
      (ts.foldl (fun m t => addDest m (pairKey t) t.«to») m).map Prod.fst =
        (ts.map pairKey).foldl addSet (m.map Prod.fst) := by
  induction ts with
  | nil => intro m; simp
  | cons t ts ih =>
    intro m
    rw [List.foldl_cons, ih, keys_addDest, List.map_cons, List.foldl_cons]

theorem keys_buildTransitionMap (ts : List Transition) :
    (buildTransitionMap ts).map Prod.fst = dedupKeep (ts.map pairKey) := by
  unfold buildTransitionMap dedupKeep
  rw [keys_foldTransMap ts []]
  rfl

theorem keys_buildTransitionMap_nodup (ts : List Transition) :
    ((buildTransitionMap ts).map Prod.fst).Nodup := by
  rw [keys_buildTransitionMap]
  exact nodup_dedupKeep _

/-- In a map with duplicate-free keys, membership and lookup agree. -/
theorem mem_iff_lookupDests {m : List (String × List String)}
    (hnd : (m.map Prod.fst).Nodup) (k : String) (vs : List String) :
    (k, vs) ∈ m ↔ lookupDests m k = some vs := by
  induction m with
  | nil => simp [lookupDests]
  | cons e rest ih =>
    obtain ⟨ek, evs⟩ := e
    simp only [List.map_cons, List.nodup_cons] at hnd
    by_cases hek : ek = k
    · subst hek
      rw [lookupDests_cons, if_pos rfl]
      constructor
      · intro hmem
        rcases List.mem_cons.mp hmem with heq | hmem'
        · simp at heq
          simp [heq]
        · exact absurd (List.mem_map.mpr ⟨(ek, vs), hmem', rfl⟩) hnd.1
      · intro hl
        simp at hl
        simp [hl]
    · rw [lookupDests_cons, if_neg hek, List.mem_cons]
      have := ih hnd.2
      constructor
      · rintro (heq | hmem')
        · exact absurd (by simpa using congrArg Prod.fst heq.symm) hek
        · exact this.mp hmem'
      · intro hl
        exact Or.inr (this.mpr hl)

/-- `hasNondeterministicTransitions` detects exactly the keys grouping
at least two distinct destinations. -/
theorem hasNondeterministicTransitions_iff (ts : List Transition) :
    hasNondeterministicTransitions ts = true ↔
      ∃ t ∈ ts, 2 ≤ (destsOfKey ts (pairKey t)).length := by
  unfold hasNondeterministicTransitions
  rw [List.any_eq_true]
  constructor
  · rintro ⟨e, hmem, hlen⟩
    obtain ⟨k, vs⟩ := e
    have hl := (mem_iff_lookupDests (keys_buildTransitionMap_nodup ts) k vs).mp hmem
    rw [lookupDests_buildTransitionMap] at hl
    by_cases hex : ∃ t ∈ ts, pairKey t = k
    · rw [if_pos hex] at hl
      obtain ⟨t, ht, hkt⟩ := hex
      refine ⟨t, ht, ?_⟩
      rw [hkt]
      have : vs = destsOfKey ts k := by injection hl with h; exact h.symm
      subst this
      simpa using hlen
    · rw [if_neg hex] at hl
      exact absurd hl (by simp)
  · rintro ⟨t, ht, hlen⟩
    refine ⟨(pairKey t, destsOfKey ts (pairKey t)), ?_, by simpa using hlen⟩
    rw [mem_iff_lookupDests (keys_buildTransitionMap_nodup ts),
      lookupDests_buildTransitionMap,
      if_pos ⟨t, ht, rfl⟩]

/-- Under dash-free `from` identifiers, key groups are exactly the true
`(from, symbol)` pairs. -/
theorem destsOfKey_eq_destsOf {ts : List Transition}
    (hdash : ∀ t ∈ ts, '-' ∉ t.«from».data) {t : Transition} (ht : t ∈ ts) :
    destsOfKey ts (pairKey t) = destsOf ts t.«from» t.symbol := by
  unfold destsOfKey destsOf
  congr 1
  congr 1
  apply List.filter_congr
  intro u hu
  unfold pairKey
  by_cases heq : u.«from» = t.«from» ∧ u.symbol = t.symbol
  · simp [heq.1, heq.2]
  · have : ¬ (u.«from» ++ "-" ++ u.symbol = t.«from» ++ "-" ++ t.symbol) := by
      intro hc
      exact heq (pairKey_inj (hdash u hu) (hdash t ht) hc)
    simp [this, heq]

/-! ## Completion engine -/

theorem foldl_addSet_of_mem {l acc : List String} (h : ∀ x ∈ l, x ∈ acc) :
    l.foldl addSet acc = acc := by
  induction l generalizing acc with
  | nil => rfl
  | cons x xs ih =>
    rw [List.foldl_cons]
    have hx : addSet acc x = acc := by
      unfold addSet
      rw [if_pos (h x (by simp))]
    rw [hx]
    exact ih (fun y hy => h y (by simp [hy]))

theorem dedupKeep_append (l₁ l₂ : List String) :
    dedupKeep (l₁ ++ l₂) = l₂.foldl addSet (dedupKeep l₁) := by
  unfold dedupKeep
  rw [List.foldl_append]

theorem mem_alphabetOf {ts : List Transition} {x : String} :
    x ∈ alphabetOf ts ↔ (∃ t ∈ ts, t.symbol = x) ∧ isEpsilon x = false := by
  unfold alphabetOf
  rw [mem_dedupKeep, List.mem_filter]
  simp

/-- Appending transitions whose symbols are already in the alphabet
leaves the alphabet unchanged. -/
theorem alphabetOf_append (ts extra : List Transition)
    (h : ∀ t ∈ extra, t.symbol ∈ alphabetOf ts) :
    alphabetOf (ts ++ extra) = alphabetOf ts := by
  unfold alphabetOf
  rw [List.map_append, List.filter_append, dedupKeep_append]
  apply foldl_addSet_of_mem
  intro x hx
  rw [List.mem_filter] at hx
  obtain ⟨t, ht, hsym⟩ := List.mem_map.mp hx.1
  have := h t ht
  rw [hsym] at this
  exact this

theorem mem_missingTransitionPairs {ts : List Transition}
    {stateIds alphabet : List String} {x y : String} :
    (x, y) ∈ missingTransitionPairs ts stateIds alphabet ↔
      x ∈ stateIds ∧ y ∈ alphabet ∧
        ts.any (fun t => t.«from» == x && t.symbol == y) = false := by
  unfold missingTransitionPairs
  rw [List.mem_flatMap]
  constructor
  · rintro ⟨sid, hsid, hmem⟩
    rw [List.mem_filterMap] at hmem
    obtain ⟨sym, hsymal, hval⟩ := hmem
    by_cases hany : ts.any (fun t => t.«from» == sid && t.symbol == sym) = true
    · rw [if_pos hany] at hval
      exact absurd hval (by simp)
    · rw [if_neg hany] at hval
      injection hval with hv
      have hx : sid = x := congrArg Prod.fst hv
      have hy : sym = y := congrArg Prod.snd hv
      subst hx
      subst hy
      exact ⟨hsid, hsymal, by simpa using hany⟩
  · rintro ⟨hx, hy, hany⟩
    refine ⟨x, hx, ?_⟩
    rw [List.mem_filterMap]
    exact ⟨y, hy, by rw [if_neg (by simp [hany])]⟩

/-- `isCompleteDFA = true` short-circuits completion. -/
theorem makeCompleteDFA_of_complete {a : Automaton}
    (h : isCompleteDFA a = true) : makeCompleteDFA a = a := by
  unfold makeCompleteDFA
  rw [if_pos h]

theorem makeCompleteDFA_of_alphabet_nil {a : Automaton}
    (h : isCompleteDFA a ≠ true) (hl : (alphabetOf a.transitions).length = 0) :
    makeCompleteDFA a = a := by
  unfold makeCompleteDFA
  rw [if_neg (by simpa using h), if_pos hl]

theorem makeCompleteDFA_of_no_missing {a : Automaton}
    (h : isCompleteDFA a ≠ true) (hl : (alphabetOf a.transitions).length ≠ 0)
    (hm : (missingTransitionPairs a.transitions (a.states.map (fun s => s.id))
      (alphabetOf a.transitions)).length = 0) :
    makeCompleteDFA a = a := by
  unfold makeCompleteDFA
  rw [if_neg (by simpa using h), if_neg hl, if_pos hm]

theorem makeCompleteDFA_of_build {a : Automaton}
    (h : isCompleteDFA a ≠ true) (hl : (alphabetOf a.transitions).length ≠ 0)
    (hm : (missingTransitionPairs a.transitions (a.states.map (fun s => s.id))
      (alphabetOf a.transitions)).length ≠ 0) :
    makeCompleteDFA a =
      { states := a.states ++ [⟨deadNameOf a⟩]
        transitions := a.transitions
          ++ (missingTransitionPairs a.transitions (a.states.map (fun s => s.id))
              (alphabetOf a.transitions)).map (fun m => ⟨m.1, deadNameOf a, m.2⟩)
          ++ (alphabetOf a.transitions).map
              (fun sym => ⟨deadNameOf a, deadNameOf a, sym⟩)
        startState := a.startState
        finalStates := a.finalStates
        type := .DFA } := by
  unfold makeCompleteDFA
  rw [if_neg (by simpa using h), if_neg hl, if_neg hm]

/-! ## ε-closure worklist correctness -/

theorem countP_split (p q : String → Bool) (l : List String) :
    l.countP p = l.countP (fun v => p v && q v) + l.countP (fun v => p v && !q v) := by
  induction l with
  | nil => simp
  | cons x xs ih =>
    rw [List.countP_cons, List.countP_cons, List.countP_cons, ih]
    cases hp : p x <;> cases hq : q x <;> simp [hp, hq] <;> omega

/-- The inner fold of one worklist iteration: it appends a
duplicate-free batch of fresh targets to both the closure and the push
list, and afterwards every target of the folded transitions is in the
closure. -/
theorem closure_fold_spec (l : List Transition) :
    ∀ closure pushes : List String,
      ∃ news : List String,
        (l.foldl (fun (p : List String × List String) t =>
          if t.«to» ∈ p.1 then p else (p.1 ++ [t.«to»], p.2 ++ [t.«to»]))
          (closure, pushes)).1 = closure ++ news ∧
        (l.foldl (fun (p : List String × List String) t =>
          if t.«to» ∈ p.1 then p else (p.1 ++ [t.«to»], p.2 ++ [t.«to»]))
          (closure, pushes)).2 = pushes ++ news ∧
        news.Nodup ∧ (∀ v ∈ news, v ∉ closure) ∧
        (∀ v ∈ news, ∃ t ∈ l, t.«to» = v) ∧
        (∀ t ∈ l, t.«to» ∈ closure ++ news) := by
  induction l with
  | nil =>
    intro closure pushes
    exact ⟨[], by simp, by simp, List.nodup_nil, by simp, by simp, by simp⟩
  | cons t l ih =>
    intro closure pushes
    rw [List.foldl_cons]
    by_cases hmem : t.«to» ∈ closure
    · rw [if_pos hmem]
      obtain ⟨news, h1, h2, h3, h4, h5, h6⟩ := ih closure pushes
      refine ⟨news, h1, h2, h3, h4, ?_, ?_⟩
      · intro v hv
        obtain ⟨u, hu, huv⟩ := h5 v hv
        exact ⟨u, List.mem_cons_of_mem t hu, huv⟩
      · intro u hu
        rcases List.mem_cons.mp hu with rfl | hu'
        · exact List.mem_append_left _ hmem
        · exact h6 u hu'
    · rw [if_neg hmem]
      obtain ⟨news, h1, h2, h3, h4, h5, h6⟩ := ih (closure ++ [t.«to»]) (pushes ++ [t.«to»])
      refine ⟨t.«to» :: news, ?_, ?_, ?_, ?_, ?_, ?_⟩
      · rw [h1]; simp
      · rw [h2]; simp
      · rw [List.nodup_cons]
        refine ⟨fun hc => ?_, h3⟩
        exact (h4 _ hc) (by simp)
      · intro v hv
        rcases List.mem_cons.mp hv with rfl | hv'
        · exact hmem
        · intro hc
          exact (h4 v hv') (List.mem_append_left _ hc)
      · intro v hv
        rcases List.mem_cons.mp hv with rfl | hv'
        · exact ⟨t, by simp, rfl⟩
        · obtain ⟨u, hu, huv⟩ := h5 v hv'
          exact ⟨u, List.mem_cons_of_mem t hu, huv⟩
      · intro u hu
        rcases List.mem_cons.mp hu with rfl | hu'
        · simp
        · have := h6 u hu'
          simpa [List.append_assoc] using this

theorem nodup_length_le {α : Type} [DecidableEq α] {l l' : List α}
    (h : l.Nodup) (hsub : l ⊆ l') : l.length ≤ l'.length := by
  calc l.length = l.toFinset.card := (List.toFinset_card_of_nodup h).symm
    _ ≤ l'.toFinset.card := Finset.card_le_card (fun x hx => by
        rw [List.mem_toFinset] at hx ⊢
        exact hsub hx)
    _ ≤ l'.length := List.toFinset_card_le l'

/-- Invariant-carrying correctness of the ε-closure worklist: with
enough fuel the result is duplicate-free, contains the closure it
started from, stays inside any ε-closed superset `P`, and is itself
ε-closed. -/
theorem epsClosureAux_spec (a : Automaton) (P : String → Prop)
    (hP : ∀ x y, P x → EpsStep a x y → P y) :
    ∀ (fuel : Nat) (closure stack : List String),
      closure.Nodup →
      (∀ x ∈ stack, x ∈ closure) →
      (∀ x ∈ closure, x ∈ stack ∨ ∀ y, EpsStep a x y → y ∈ closure) →
      (∀ x ∈ closure, P x) →
      stack.length +
        (((a.transitions.filter (fun t => isEpsilon t.symbol)).map
          (fun t => t.«to»)).filter (fun v => decide (v ∉ closure))).length < fuel →
      (epsClosureAux a fuel closure stack).Nodup ∧
      (∀ x ∈ closure, x ∈ epsClosureAux a fuel closure stack) ∧
      (∀ x ∈ epsClosureAux a fuel closure stack, P x) ∧
      (∀ x ∈ epsClosureAux a fuel closure stack, ∀ y, EpsStep a x y →
        y ∈ epsClosureAux a fuel closure stack) := by
  intro fuel
  induction fuel with
  | zero => intro closure stack _ _ _ _ hlt; omega
  | succ fuel ih =>
    intro closure stack hnd hstk hinv bP hlt
    match stack with
    | [] =>
      refine ⟨hnd, fun x hx => hx, bP, ?_⟩
      intro x hx y hstep
      rcases hinv x hx with hfalse | hclosed
      · exact absurd hfalse (List.not_mem_nil x)
      · exact hclosed y hstep
    | st :: stack' =>
      obtain ⟨news, hc1, hc2, hc3, hc4, hc5, hc6⟩ :=
        closure_fold_spec
          (a.transitions.filter (fun t => t.«from» == st && isEpsilon t.symbol))
          closure []
      have hres : epsClosureAux a (fuel + 1) closure (st :: stack') =
          epsClosureAux a fuel (closure ++ news) (stack' ++ news) := by
        rw [epsClosureAux]
        rw [hc1, hc2]
        simp
      rw [hres]
      have hnewsP : ∀ v ∈ news, P v := by
        intro v hv
        obtain ⟨t, ht, htv⟩ := hc5 v hv
        rw [List.mem_filter] at ht
        have hb := ht.2
        rw [Bool.and_eq_true, beq_iff_eq] at hb
        have hstep : EpsStep a st v := ⟨t, ht.1, hb.1, hb.2, htv⟩
        exact hP st v (bP st (hstk st (by simp))) hstep
      have hnd' : (closure ++ news).Nodup := by
        rw [List.nodup_append]
        exact ⟨hnd, hc3, fun x hx hxn => hc4 x hxn hx⟩
      have hstk' : ∀ x ∈ stack' ++ news, x ∈ closure ++ news := by
        intro x hx
        rcases List.mem_append.mp hx with hx' | hx'
        · exact List.mem_append_left _ (hstk x (by simp [hx']))
        · exact List.mem_append_right _ hx'
      have hinv' : ∀ x ∈ closure ++ news,
          x ∈ stack' ++ news ∨ ∀ y, EpsStep a x y → y ∈ closure ++ news := by
        intro x hx
        rcases List.mem_append.mp hx with hx' | hx'
        · rcases hinv x hx' with hmem | hclosed
          · rcases List.mem_cons.mp hmem with rfl | hmem'
            · right
              intro y hstep
              obtain ⟨t, ht, htf, hte, htv⟩ := hstep
              rw [← htv]
              apply hc6
              rw [List.mem_filter]
              exact ⟨ht, by rw [Bool.and_eq_true, beq_iff_eq]; exact ⟨htf, hte⟩⟩
            · exact Or.inl (List.mem_append_left _ hmem')
          · exact Or.inr (fun y hy => List.mem_append_left _ (hclosed y hy))
        · exact Or.inl (List.mem_append_right _ hx')
      have hP' : ∀ x ∈ closure ++ news, P x := by
        intro x hx
        rcases List.mem_append.mp hx with hx' | hx'
        · exact bP x hx'
        · exact hnewsP x hx'
      have hmeas : (stack' ++ news).length +
          (((a.transitions.filter (fun t => isEpsilon t.symbol)).map
            (fun t => t.«to»)).filter
              (fun v => decide (v ∉ closure ++ news))).length < fuel := by
        set L := (a.transitions.filter (fun t => isEpsilon t.symbol)).map
          (fun t => t.«to») with hL
        have hsplitc := countP_split (fun v => decide (v ∉ closure))
          (fun v => decide (v ∈ news)) L
        have hgeA : news.length ≤
            L.countP (fun v => decide (v ∉ closure) && decide (v ∈ news)) := by
          rw [List.countP_eq_length_filter]
          apply nodup_length_le hc3
          intro v hv
          rw [List.mem_filter]
          refine ⟨?_, by simp [hc4 v hv, hv]⟩
          obtain ⟨t, ht, htv⟩ := hc5 v hv
          rw [List.mem_filter, Bool.and_eq_true, beq_iff_eq] at ht
          rw [hL]
          apply List.mem_map.mpr
          exact ⟨t, List.mem_filter.mpr ⟨ht.1, ht.2.2⟩, htv⟩
        have hBeq : (L.filter (fun v => decide (v ∉ closure ++ news))).length =
            L.countP (fun v => decide (v ∉ closure) && !(decide (v ∈ news))) := by
          rw [← List.countP_eq_length_filter]
          apply List.countP_congr
          intro v _
          by_cases h1 : v ∈ closure <;> by_cases h2 : v ∈ news <;>
            simp [h1, h2]
        rw [List.length_append, hBeq]
        rw [← List.countP_eq_length_filter] at hlt
        simp only [List.length_cons] at hlt
        omega
      obtain ⟨r1, r2, r3, r4⟩ := ih (closure ++ news) (stack' ++ news)
        hnd' hstk' hinv' hP' hmeas
      exact ⟨r1, fun x hx => r2 x (List.mem_append_left _ hx), r3, r4⟩

/-- Membership characterisation of the ε-closure: exactly the states
ε-reachable from some seed. -/
theorem mem_epsilonClosure {a : Automaton} {seeds : List String}
    (hnd : seeds.Nodup) (x : String) :
    x ∈ epsilonClosure a seeds ↔ ∃ s ∈ seeds, EpsReach a s x := by
  have hmeas : seeds.length +
      (((a.transitions.filter (fun t => isEpsilon t.symbol)).map
        (fun t => t.«to»)).filter (fun v => decide (v ∉ seeds))).length <
      seeds.length + a.transitions.length + 1 := by
    have h1 := List.length_filter_le (fun v => decide (v ∉ seeds))
      ((a.transitions.filter (fun t => isEpsilon t.symbol)).map (fun t => t.«to»))
    have h2 : ((a.transitions.filter (fun t => isEpsilon t.symbol)).map
        (fun t => t.«to»)).length ≤ a.transitions.length := by
      rw [List.length_map]
      exact List.length_filter_le _ _
    omega
  obtain ⟨r1, r2, r3, r4⟩ := epsClosureAux_spec a
    (fun z => ∃ s ∈ seeds, EpsReach a s z)
    (fun u v ⟨s, hs, hr⟩ hstep => ⟨s, hs, hr.tail hstep⟩)
    (seeds.length + a.transitions.length + 1) seeds seeds
    hnd (fun z hz => hz) (fun z hz => Or.inl hz)
    (fun z hz => ⟨z, hz, Relation.ReflTransGen.refl⟩) hmeas
  constructor
  · exact r3 x
  · rintro ⟨s, hs, hreach⟩
    unfold EpsReach at hreach
    induction hreach with
    | refl => exact r2 s hs
    | tail _ hstep ihr => exact r4 _ ihr _ hstep

/-- The ε-closure of a duplicate-free seed list is duplicate-free. -/
theorem epsilonClosure_nodup {a : Automaton} {seeds : List String}
    (hnd : seeds.Nodup) : (epsilonClosure a seeds).Nodup := by
  have hmeas : seeds.length +
      (((a.transitions.filter (fun t => isEpsilon t.symbol)).map
        (fun t => t.«to»)).filter (fun v => decide (v ∉ seeds))).length <
      seeds.length + a.transitions.length + 1 := by
    have h1 := List.length_filter_le (fun v => decide (v ∉ seeds))
      ((a.transitions.filter (fun t => isEpsilon t.symbol)).map (fun t => t.«to»))
    have h2 : ((a.transitions.filter (fun t => isEpsilon t.symbol)).map
        (fun t => t.«to»)).length ≤ a.transitions.length := by
      rw [List.length_map]
      exact List.length_filter_le _ _
    omega
  exact (epsClosureAux_spec a (fun _ => True) (fun _ _ _ _ => trivial)
    (seeds.length + a.transitions.length + 1) seeds seeds
    hnd (fun z hz => hz) (fun z hz => Or.inl hz) (fun _ _ => trivial) hmeas).1

/-- Set-equal duplicate-free seed lists have set-equal closures. -/
theorem epsilonClosure_congr {a : Automaton} {s₁ s₂ : List String}
    (h₁ : s₁.Nodup) (h₂ : s₂.Nodup) (h : ∀ x, x ∈ s₁ ↔ x ∈ s₂) (x : String) :
    x ∈ epsilonClosure a s₁ ↔ x ∈ epsilonClosure a s₂ := by
  rw [mem_epsilonClosure h₁, mem_epsilonClosure h₂]
  constructor
  · rintro ⟨s, hs, hr⟩
    exact ⟨s, (h s).mp hs, hr⟩
  · rintro ⟨s, hs, hr⟩
    exact ⟨s, (h s).mpr hs, hr⟩

/-! ## Subset-construction toolkit -/

theorem mem_stepDests {a : Automaton} {cur : List String} {sym x : String} :
    x ∈ stepDests a cur sym ↔
      ∃ st ∈ cur, ∃ t ∈ a.transitions, t.«from» = st ∧ t.symbol = sym ∧ t.«to» = x := by
  unfold stepDests
  suffices h : ∀ acc, x ∈ cur.foldl
      (fun acc st => ((a.transitions.filter
        (fun t => t.«from» == st && t.symbol == sym)).map (fun t => t.«to»)).foldl
          addSet acc) acc ↔
      x ∈ acc ∨ ∃ st ∈ cur, ∃ t ∈ a.transitions,
        t.«from» = st ∧ t.symbol = sym ∧ t.«to» = x by
    rw [h []]
    simp
  intro acc
  induction cur generalizing acc with
  | nil => simp
  | cons c cs ih =>
    rw [List.foldl_cons, ih, mem_foldl_addSet]
    constructor
    · rintro ((hacc | hnew) | ⟨st, hst, t, ht, h1, h2, h3⟩)
      · exact Or.inl hacc
      · obtain ⟨t, ht, htx⟩ := List.mem_map.mp hnew
        rw [List.mem_filter, Bool.and_eq_true, beq_iff_eq, beq_iff_eq] at ht
        exact Or.inr ⟨c, by simp, t, ht.1, ht.2.1, ht.2.2, htx⟩
      · exact Or.inr ⟨st, by simp [hst], t, ht, h1, h2, h3⟩
    · rintro (hacc | ⟨st, hst, t, ht, h1, h2, h3⟩)
      · exact Or.inl (Or.inl hacc)
      · rcases List.mem_cons.mp hst with rfl | hst'
        · refine Or.inl (Or.inr ?_)
          apply List.mem_map.mpr
          exact ⟨t, List.mem_filter.mpr ⟨ht, by
            rw [Bool.and_eq_true, beq_iff_eq, beq_iff_eq]; exact ⟨h1, h2⟩⟩, h3⟩
        · exact Or.inr ⟨st, hst', t, ht, h1, h2, h3⟩

theorem stepDests_nodup (a : Automaton) (cur : List String) (sym : String) :
    (stepDests a cur sym).Nodup := by
  unfold stepDests
  suffices h : ∀ acc : List String, acc.Nodup → (cur.foldl
      (fun acc st => ((a.transitions.filter
        (fun t => t.«from» == st && t.symbol == sym)).map (fun t => t.«to»)).foldl
          addSet acc) acc).Nodup by
    exact h [] List.nodup_nil
  intro acc hacc
  induction cur generalizing acc with
  | nil => exact hacc
  | cons c cs ih => exact ih _ (nodup_foldl_addSet _ _ hacc)

theorem stepDests_congr {a : Automaton} {cur₁ cur₂ : List String}
    (h : ∀ x, x ∈ cur₁ ↔ x ∈ cur₂) (sym x : String) :
    x ∈ stepDests a cur₁ sym ↔ x ∈ stepDests a cur₂ sym := by
  rw [mem_stepDests, mem_stepDests]
  constructor
  · rintro ⟨st, hst, rest⟩
    exact ⟨st, (h st).mp hst, rest⟩
  · rintro ⟨st, hst, rest⟩
    exact ⟨st, (h st).mpr hst, rest⟩

/-- Duplicate-free lists with the same members are permutations. -/
theorem perm_of_nodup_mem_iff {l₁ l₂ : List String} (h₁ : l₁.Nodup)
    (h₂ : l₂.Nodup) (h : ∀ x, x ∈ l₁ ↔ x ∈ l₂) : l₁.Perm l₂ :=
  (h₁.subperm (fun {x} hx => (h x).mp hx)).antisymm
    (h₂.subperm (fun {x} hx => (h x).mpr hx))

theorem mlookup_cons (ek ev : String) (rest : List (String × String)) (k : String) :
    mlookup ((ek, ev) :: rest) k = if ek = k then some ev else mlookup rest k := by
  by_cases h : ek = k
  · have hb : (ek == k) = true := beq_iff_eq.mpr h
    simp [mlookup, List.find?, hb, h]
  · have hb : (ek == k) = false := beq_eq_false_iff_ne.mpr h
    simp [mlookup, List.find?, hb, h]

/-- `stateMap` lookup of the key of the `j`-th discovered set. -/
theorem mlookup_keyMap {sets : List (List String)}
    (hkeys : (sets.map setToKey).Nodup) {j : Nat} (hj : j < sets.length) :
    mlookup (sets.enum.map (fun e => (setToKey e.2, generateAlphabeticStateName e.1)))
      (setToKey (sets.getD j [])) = some (generateAlphabeticStateName j) := by
  suffices h : ∀ (n : Nat) (sets : List (List String)),
      (sets.map setToKey).Nodup → ∀ j, (hj : j < sets.length) →
      mlookup ((sets.enumFrom n).map
        (fun e => (setToKey e.2, generateAlphabeticStateName e.1)))
        (setToKey (sets.getD j [])) = some (generateAlphabeticStateName (n + j)) by
    have := h 0 sets hkeys j hj
    simpa using this
  intro n sets
  induction sets generalizing n with
  | nil => intro _ j hj; simp at hj
  | cons S ss ih =>
    intro hnd j hj
    rw [List.enumFrom_cons, List.map_cons, mlookup_cons]
    simp only [List.map_cons, List.nodup_cons] at hnd
    cases j with
    | zero =>
      rw [List.getD_cons_zero, if_pos rfl]
      simp
    | succ j' =>
      rw [List.getD_cons_succ]
      have hlencons : (S :: ss).length = ss.length + 1 := rfl
      have hj' : j' < ss.length := by omega
      rw [if_neg (fun hc => hnd.1 (by
        have hc' : setToKey S = setToKey (ss.getD j' []) := hc
        rw [hc']
        apply List.mem_map.mpr
        exact ⟨ss.getD j' [], by
          rw [List.getD_eq_getElem _ _ hj']
          exact List.getElem_mem hj', rfl⟩))]
      rw [ih (n + 1) hnd.2 j' hj']
      have harith : n + 1 + j' = n + (j' + 1) := by omega
      rw [harith]

/-- `stateMap` lookup of an unknown key misses. -/
theorem mlookup_keyMap_none {sets : List (List String)} {k : String}
    (hk : k ∉ sets.map setToKey) :
    mlookup (sets.enum.map (fun e => (setToKey e.2, generateAlphabeticStateName e.1)))
      k = none := by
  suffices h : ∀ (n : Nat) (sets : List (List String)), k ∉ sets.map setToKey →
      mlookup ((sets.enumFrom n).map
        (fun e => (setToKey e.2, generateAlphabeticStateName e.1))) k = none by
    exact h 0 sets hk
  intro n sets
  induction sets generalizing n with
  | nil => intro _; rfl
  | cons S ss ih =>
    intro hnk
    rw [List.enumFrom_cons, List.map_cons, mlookup_cons,
      if_neg (fun hc => hnk (by
        have hc' : setToKey S = k := hc
        rw [← hc']
        simp)),
      ih (n + 1) (fun hc => hnk (by simp [hc]))]

/-- A strictly ordered duplicate-free list over the members of another
strictly ordered duplicate-free list is a sublist of it. -/
theorem sorted_nodup_sublist :
    ∀ (l₂ l₁ : List String), List.Sorted (fun a b => strLe a b = true) l₁ →
      l₁.Nodup → List.Sorted (fun a b => strLe a b = true) l₂ → l₂.Nodup →
      (∀ x ∈ l₁, x ∈ l₂) → l₁.Sublist l₂ := by
  intro l₂
  induction l₂ with
  | nil =>
    intro l₁ _ _ _ _ hsub
    match l₁ with
    | [] => exact List.Sublist.refl []
    | x :: xs => exact absurd (hsub x (by simp)) (List.not_mem_nil x)
  | cons y ys ih =>
    intro l₁ hs₁ hn₁ hs₂ hn₂ hsub
    match l₁ with
    | [] => exact List.nil_sublist _
    | x :: xs =>
      rw [List.sorted_cons] at hs₁ hs₂
      rw [List.nodup_cons] at hn₁ hn₂
      by_cases hxy : x = y
      · subst hxy
        apply List.Sublist.cons₂
        apply ih xs hs₁.2 hn₁.2 hs₂.2 hn₂.2
        intro z hz
        rcases List.mem_cons.mp (hsub z (by simp [hz])) with rfl | hzys
        · exact absurd hz hn₁.1
        · exact hzys
      · apply List.Sublist.cons
        apply ih (x :: xs) (List.sorted_cons.mpr hs₁) (List.nodup_cons.mpr hn₁)
          hs₂.2 hn₂.2
        intro z hz
        have hzy : z ∈ y :: ys := hsub z hz
        rcases List.mem_cons.mp hzy with hzy' | hzys
        · exfalso
          rcases List.mem_cons.mp hz with hzx | hzxs
          · exact hxy (hzx ▸ hzy')
          · have h₁ : strLe x z = true := hs₁.1 z hzxs
            have h₂ : strLe z x = true := by
              have hxmem : x ∈ y :: ys := hsub x (by simp)
              rcases List.mem_cons.mp hxmem with hxy' | hxys
              · exact absurd hxy' hxy
              · exact hzy' ▸ hs₂.1 x hxys
            exact hxy ((strLe_antisymm h₁ h₂).trans hzy')
        · exact hzys

/-- The number of distinct duplicate-free subsets of a universe list is
bounded by `2 ^ |universe|`: the pigeonhole bound for the state map. -/
theorem sets_length_le_pow {univ : List String} {sets : List (List String)}
    (hgood : ∀ S ∈ sets, S.Nodup ∧ ∀ x ∈ S, x ∈ univ)
    (hkeys : (sets.map setToKey).Nodup) :
    sets.length ≤ 2 ^ univ.length := by
  set su := sortJS (dedupKeep univ) with hsu
  have hsunodup : su.Nodup := sortJS_nodup (nodup_dedupKeep univ)
  have hsusorted : List.Sorted (fun a b => strLe a b = true) su := sortJS_sorted _
  have hmapss : ∀ S ∈ sets, sortJS S ∈ su.sublists := by
    intro S hS
    rw [List.mem_sublists]
    apply sorted_nodup_sublist su (sortJS S) (sortJS_sorted S)
      (sortJS_nodup (hgood S hS).1) hsusorted hsunodup
    intro x hx
    rw [hsu, mem_sortJS, mem_dedupKeep]
    exact (hgood S hS).2 x (mem_sortJS.mp hx)
  have hnodupmap : (sets.map sortJS).Nodup := by
    have : sets.map setToKey = (sets.map sortJS).map joinComma := by
      rw [List.map_map]
      rfl
    rw [this] at hkeys
    exact hkeys.of_map
  have hlen : (sets.map sortJS).length ≤ su.sublists.length :=
    @nodup_length_le (List String) _ (sets.map sortJS) su.sublists hnodupmap
      (fun x hx => by
        obtain ⟨S, hS, hSx⟩ := List.mem_map.mp hx
        rw [← hSx]
        exact hmapss S hS)
  rw [List.length_map, List.length_sublists] at hlen
  calc sets.length ≤ 2 ^ su.length := hlen
    _ ≤ 2 ^ univ.length := by
        apply Nat.pow_le_pow_right (by omega)
        calc su.length = (dedupKeep univ).length := (sortJS_perm _).length_eq
          _ ≤ univ.length := by
              have := (sortJS_perm (dedupKeep univ)).length_eq
              unfold dedupKeep
              have hle : ∀ (l : List String) (acc : List String),
                  (l.foldl addSet acc).length ≤ acc.length + l.length := by
                intro l
                induction l with
                | nil => intro acc; simp
                | cons x xs ihl =>
                  intro acc
                  rw [List.foldl_cons]
                  calc (xs.foldl addSet (addSet acc x)).length ≤
                      (addSet acc x).length + xs.length := ihl _
                    _ ≤ acc.length + (x :: xs).length := by
                        unfold addSet
                        split <;> simp <;> omega
              have := hle univ []
              simpa using this

theorem epsilonClosure_src {nfa : Automaton} {seeds : List String}
    (hnd : seeds.Nodup) {x : String} (hx : x ∈ epsilonClosure nfa seeds) :
    x ∈ seeds ∨ ∃ t ∈ nfa.transitions, t.«to» = x := by
  obtain ⟨s, hs, hr⟩ := (mem_epsilonClosure hnd x).mp hx
  rcases hr.cases_tail with heq | ⟨c, _, hstep⟩
  · left
    rwa [heq]
  · right
    obtain ⟨t, ht, _, _, htv⟩ := hstep
    exact ⟨t, ht, htv⟩

theorem SubsetRecords_congr {nfa : Automaton} {alphabet : List String}
    {sets : List (List String)} {C₁ C₂ : Nat → String → Prop}
    {trs : List Transition} {missing : List (String × String)}
    (h : SubsetRecords nfa alphabet sets C₁ trs missing)
    (hc : ∀ i sym, sym ∈ alphabet → (C₁ i sym ↔ C₂ i sym)) :
    SubsetRecords nfa alphabet sets C₂ trs missing := by
  obtain ⟨htr, hmiss, hclo⟩ := h
  refine ⟨?_, ?_, ?_⟩
  · intro tr
    rw [htr tr]
    constructor
    · rintro ⟨i, sym, j, hC, hal, rest⟩
      exact ⟨i, sym, j, (hc i sym hal).mp hC, hal, rest⟩
    · rintro ⟨i, sym, j, hC, hal, rest⟩
      exact ⟨i, sym, j, (hc i sym hal).mpr hC, hal, rest⟩
  · intro p
    rw [hmiss p]
    constructor
    · rintro ⟨i, sym, hC, hal, rest⟩
      exact ⟨i, sym, (hc i sym hal).mp hC, hal, rest⟩
    · rintro ⟨i, sym, hC, hal, rest⟩
      exact ⟨i, sym, (hc i sym hal).mpr hC, hal, rest⟩
  · intro i sym hC hal
    exact hclo i sym ((hc i sym hal).mpr hC) hal

theorem getD_append_self (sets : List (List String)) (S' : List String) :
    (sets ++ [S']).getD sets.length [] = S' := by
  rw [List.getD_eq_getElem _ _ (by simp)]
  rw [List.getElem_append_right (by omega)]
  simp

theorem SubsetRecords_extend {nfa : Automaton} {alphabet : List String}
    {sets : List (List String)} {C : Nat → String → Prop}
    {trs : List Transition} {missing : List (String × String)}
    (h : SubsetRecords nfa alphabet sets C trs missing)
    (hC : ∀ i sym, C i sym → i < sets.length)
    (S' : List String) (hfresh : setToKey S' ∉ sets.map setToKey) :
    SubsetRecords nfa alphabet (sets ++ [S']) C trs missing := by
  obtain ⟨htr, hmiss, hclo⟩ := h
  have hgetD : ∀ i, i < sets.length → (sets ++ [S']).getD i [] = sets.getD i [] :=
    fun i hi => List.getD_append _ _ _ i hi
  refine ⟨?_, ?_, ?_⟩
  · intro tr
    rw [htr tr]
    constructor
    · rintro ⟨i, sym, j, hCc, hal, hi, hj, hne, hkey, htreq⟩
      refine ⟨i, sym, j, hCc, hal, by simp; omega, by simp; omega, ?_, ?_, htreq⟩
      · rwa [hgetD i hi]
      · rwa [hgetD i hi, hgetD j hj]
    · rintro ⟨i, sym, j, hCc, hal, hi, hj, hne, hkey, htreq⟩
      have hi' : i < sets.length := hC i sym hCc
      rw [hgetD i hi'] at hne hkey
      by_cases hjl : j < sets.length
      · rw [hgetD j hjl] at hkey
        exact ⟨i, sym, j, hCc, hal, hi', hjl, hne, hkey, htreq⟩
      · exfalso
        have hjeq : j = sets.length := by
          simp only [List.length_append, List.length_cons, List.length_nil] at hj
          omega
        rw [hjeq, getD_append_self] at hkey
        have := hclo i sym hCc hal hi' hne
        rw [← hkey] at this
        exact hfresh this
  · intro p
    rw [hmiss p]
    constructor
    · rintro ⟨i, sym, hCc, hal, hi, hnil, hpeq⟩
      exact ⟨i, sym, hCc, hal, by simp; omega, by rwa [hgetD i hi], hpeq⟩
    · rintro ⟨i, sym, hCc, hal, hi, hnil, hpeq⟩
      have hi' : i < sets.length := hC i sym hCc
      rw [hgetD i hi'] at hnil
      exact ⟨i, sym, hCc, hal, hi', hnil, hpeq⟩
  · intro i sym hCc hal hi hne
    have hi' : i < sets.length := hC i sym hCc
    rw [hgetD i hi'] at hne ⊢
    have := hclo i sym hCc hal hi' hne
    rw [List.map_append]
    exact List.mem_append_left _ this

theorem processSymbol_of_empty {nfa : Automaton} {cur : List String}
    {n : String} {st : SubsetSt} {sym : String}
    (h : (stepDests nfa cur sym).length = 0) :
    processSymbol nfa cur n st sym =
      { st with missing := st.missing ++ [(n, sym)] } := by
  unfold processSymbol
  rw [if_pos h]

theorem processSymbol_of_found {nfa : Automaton} {cur : List String}
    {n : String} {st : SubsetSt} {sym nm : String}
    (h : ¬ (stepDests nfa cur sym).length = 0)
    (hl : mlookup st.stateMap
      (setToKey (epsilonClosure nfa (stepDests nfa cur sym))) = some nm) :
    processSymbol nfa cur n st sym =
      { st with dfaTransitions := st.dfaTransitions ++ [⟨n, nm, sym⟩] } := by
  unfold processSymbol
  rw [if_neg h]
  dsimp only
  rw [hl]

theorem processSymbol_of_new {nfa : Automaton} {cur : List String}
    {n : String} {st : SubsetSt} {sym : String}
    (h : ¬ (stepDests nfa cur sym).length = 0)
    (hl : mlookup st.stateMap
      (setToKey (epsilonClosure nfa (stepDests nfa cur sym))) = none) :
    processSymbol nfa cur n st sym =
      { dfaStates := st.dfaStates ++
          [⟨generateAlphabeticStateName st.stateCounter⟩]
        dfaTransitions := st.dfaTransitions ++
          [⟨n, generateAlphabeticStateName st.stateCounter, sym⟩]
        stateMap := st.stateMap ++
          [(setToKey (epsilonClosure nfa (stepDests nfa cur sym)),
            generateAlphabeticStateName st.stateCounter)]
        queue := st.queue ++ [epsilonClosure nfa (stepDests nfa cur sym)]
        stateCounter := st.stateCounter + 1
        missing := st.missing } := by
  unfold processSymbol
  rw [if_neg h]
  dsimp only
  rw [hl]

theorem keys_getD_inj {sets : List (List String)}
    (h : (sets.map setToKey).Nodup) {j₁ j₂ : Nat}
    (h₁ : j₁ < sets.length) (h₂ : j₂ < sets.length)
    (hk : setToKey (sets.getD j₁ []) = setToKey (sets.getD j₂ [])) : j₁ = j₂ := by
  rw [List.getD_eq_getElem _ _ h₁, List.getD_eq_getElem _ _ h₂] at hk
  have hb₁ : j₁ < (sets.map setToKey).length := by simpa using h₁
  have hb₂ : j₂ < (sets.map setToKey).length := by simpa using h₂
  have e₁ : (sets.map setToKey)[j₁] = setToKey (sets[j₁]) := List.getElem_map _
  have e₂ : (sets.map setToKey)[j₂] = setToKey (sets[j₂]) := List.getElem_map _
  have heq : (sets.map setToKey)[j₁] = (sets.map setToKey)[j₂] := by
    rw [e₁, e₂, hk]
  exact (h.getElem_inj_iff).mp heq

/-- Effect of one `processSymbol` call on the ghost-tracked state:
either no new set is discovered, or the closure of the step
destinations is appended; the records gain coverage of the processed
`(donen, sym)` pair. -/
theorem processSymbol_spec (nfa : Automaton) (alphabet : List String)
    (sets : List (List String)) (donen : Nat) (C : Nat → String → Prop)
    (st : SubsetSt) (sym : String)
    (hdn : donen < sets.length)
    (hsym : sym ∈ alphabet)
    (hC : ∀ i s, C i s → i < sets.length)
    (hg : SubsetGhost nfa sets (donen + 1) st)
    (hr : SubsetRecords nfa alphabet sets C st.dfaTransitions st.missing) :
    ∃ sets', (∃ extra, sets' = sets ++ extra) ∧
      SubsetGhost nfa sets' (donen + 1)
        (processSymbol nfa (sets.getD donen [])
          (generateAlphabeticStateName donen) st sym) ∧
      SubsetRecords nfa alphabet sets'
        (fun i s => C i s ∨ (i = donen ∧ s = sym))
        (processSymbol nfa (sets.getD donen [])
          (generateAlphabeticStateName donen) st sym).dfaTransitions
        (processSymbol nfa (sets.getD donen [])
          (generateAlphabeticStateName donen) st sym).missing ∧
      (∀ i s, (C i s ∨ (i = donen ∧ s = sym)) → i < sets'.length) := by
  obtain ⟨htr, hmiss, hclo⟩ := hr
  by_cases hDnil : (stepDests nfa (sets.getD donen []) sym).length = 0
  · have hDeq : stepDests nfa (sets.getD donen []) sym = [] :=
      List.length_eq_zero.mp hDnil
    rw [processSymbol_of_empty hDnil]
    refine ⟨sets, ⟨[], by simp⟩, ⟨hg.hcount, hg.hmap, hg.hstates, hg.hqueue,
      hg.hgood, hg.hkeys⟩, ⟨?_, ?_, ?_⟩, ?_⟩
    · intro tr
      rw [htr tr]
      constructor
      · rintro ⟨i, s, j, hCc, rest⟩
        exact ⟨i, s, j, Or.inl hCc, rest⟩
      · rintro ⟨i, s, j, hCc, hal, hi, hj, hne, rest⟩
        rcases hCc with hCc | ⟨rfl, rfl⟩
        · exact ⟨i, s, j, hCc, hal, hi, hj, hne, rest⟩
        · exact absurd hDeq hne
    · intro p
      show p ∈ st.missing ++ [(generateAlphabeticStateName donen, sym)] ↔ _
      rw [List.mem_append]
      constructor
      · rintro (hold | hnew)
        · obtain ⟨i, s, hCc, rest⟩ := (hmiss p).mp hold
          exact ⟨i, s, Or.inl hCc, rest⟩
        · have hpe : p = (generateAlphabeticStateName donen, sym) := by
            simpa using hnew
          exact ⟨donen, sym, Or.inr ⟨rfl, rfl⟩, hsym, hdn, hDeq, hpe⟩
      · rintro ⟨i, s, hCc, hal, hi, hnil, hpe⟩
        rcases hCc with hCc | ⟨rfl, rfl⟩
        · exact Or.inl ((hmiss p).mpr ⟨i, s, hCc, hal, hi, hnil, hpe⟩)
        · right
          simp [hpe]
    · intro i s hCc hal hi hne
      rcases hCc with hCc | ⟨rfl, rfl⟩
      · exact hclo i s hCc hal hi hne
      · exact absurd hDeq hne
    · intro i s hCc
      rcases hCc with hCc | ⟨rfl, _⟩
      · exact hC i s hCc
      · exact hdn
  · have hDnodup : (stepDests nfa (sets.getD donen []) sym).Nodup :=
      stepDests_nodup nfa _ sym
    have hclnodup : (epsilonClosure nfa
        (stepDests nfa (sets.getD donen []) sym)).Nodup :=
      epsilonClosure_nodup hDnodup
    by_cases hkmem : setToKey (epsilonClosure nfa
        (stepDests nfa (sets.getD donen []) sym)) ∈ sets.map setToKey
    · obtain ⟨Sj, hSjmem, hSjk⟩ := List.mem_map.mp hkmem
      obtain ⟨j, hj, hgj⟩ := List.mem_iff_getElem.mp hSjmem
      have hjkey : setToKey (sets.getD j []) = setToKey (epsilonClosure nfa
          (stepDests nfa (sets.getD donen []) sym)) := by
        rw [List.getD_eq_getElem _ _ hj, hgj, hSjk]
      have hlookup : mlookup st.stateMap (setToKey (epsilonClosure nfa
          (stepDests nfa (sets.getD donen []) sym))) =
          some (generateAlphabeticStateName j) := by
        rw [hg.hmap, ← hjkey]
        exact mlookup_keyMap hg.hkeys hj
      rw [processSymbol_of_found hDnil hlookup]
      refine ⟨sets, ⟨[], by simp⟩, ⟨hg.hcount, hg.hmap, hg.hstates, hg.hqueue,
        hg.hgood, hg.hkeys⟩, ⟨?_, ?_, ?_⟩, ?_⟩
      · intro tr
        show tr ∈ st.dfaTransitions ++ [_] ↔ _
        rw [List.mem_append]
        constructor
        · rintro (hold | hnew)
          · obtain ⟨i, s, j', hCc, rest⟩ := (htr tr).mp hold
            exact ⟨i, s, j', Or.inl hCc, rest⟩
          · have htre : tr = ⟨generateAlphabeticStateName donen,
                generateAlphabeticStateName j, sym⟩ := by simpa using hnew
            exact ⟨donen, sym, j, Or.inr ⟨rfl, rfl⟩, hsym, hdn, hj,
              fun hc => hDnil (by rw [hc]; rfl), hjkey, htre⟩
        · rintro ⟨i, s, j', hCc, hal, hi, hj', hne, hkey, htre⟩
          rcases hCc with hCc | ⟨rfl, rfl⟩
          · exact Or.inl ((htr tr).mpr ⟨i, s, j', hCc, hal, hi, hj', hne, hkey, htre⟩)
          · have : j' = j := keys_getD_inj hg.hkeys hj' hj (hkey.trans hjkey.symm)
            right
            rw [htre, this]
            simp
      · intro p
        rw [hmiss p]
        constructor
        · rintro ⟨i, s, hCc, rest⟩
          exact ⟨i, s, Or.inl hCc, rest⟩
        · rintro ⟨i, s, hCc, hal, hi, hnil, hpe⟩
          rcases hCc with hCc | ⟨rfl, rfl⟩
          · exact ⟨i, s, hCc, hal, hi, hnil, hpe⟩
          · exact absurd hnil (fun hc => hDnil (by rw [hc]; rfl))
      · intro i s hCc hal hi hne
        rcases hCc with hCc | ⟨rfl, rfl⟩
        · exact hclo i s hCc hal hi hne
        · exact hkmem
      · intro i s hCc
        rcases hCc with hCc | ⟨rfl, _⟩
        · exact hC i s hCc
        · exact hdn
    · have hlookup : mlookup st.stateMap (setToKey (epsilonClosure nfa
          (stepDests nfa (sets.getD donen []) sym))) = none := by
        rw [hg.hmap]
        exact mlookup_keyMap_none hkmem
      rw [processSymbol_of_new hDnil hlookup]
      set cl := epsilonClosure nfa (stepDests nfa (sets.getD donen []) sym) with hcl
      have hgetDstable : ∀ i, i < sets.length →
          (sets ++ [cl]).getD i [] = sets.getD i [] :=
        fun i hi => List.getD_append _ _ _ i hi
      have hex : SubsetRecords nfa alphabet (sets ++ [cl]) C
          st.dfaTransitions st.missing :=
        SubsetRecords_extend ⟨htr, hmiss, hclo⟩ hC cl hkmem
      obtain ⟨htr', hmiss', hclo'⟩ := hex
      have hlen' : (sets ++ [cl]).length = sets.length + 1 := by simp
      refine ⟨sets ++ [cl], ⟨[cl], rfl⟩, ?_, ⟨?_, ?_, ?_⟩, ?_⟩
      · refine ⟨?_, ?_, ?_, ?_, ?_, ?_⟩
        · show st.stateCounter + 1 = (sets ++ [cl]).length
          rw [hg.hcount, hlen']
        · show st.stateMap ++ [(setToKey cl, generateAlphabeticStateName st.stateCounter)] = _
          rw [hg.hmap, hg.hcount, List.enum_append]
          simp [List.enumFrom_cons]
        · show st.dfaStates ++ [⟨generateAlphabeticStateName st.stateCounter⟩] = _
          rw [hg.hstates, hg.hcount, List.enum_append]
          simp [List.enumFrom_cons]
        · show st.queue ++ [cl] = (sets ++ [cl]).drop (donen + 1)
          rw [hg.hqueue, List.drop_append_of_le_length (by omega)]
        · intro S hS
          rcases List.mem_append.mp hS with hS' | hS'
          · exact hg.hgood S hS'
          · have hSeq : S = cl := by simpa using hS'
            subst hSeq
            refine ⟨hclnodup, ?_⟩
            intro x hx
            rcases epsilonClosure_src hDnodup hx with hxD | ⟨t, ht, htx⟩
            · obtain ⟨st₀, _, t, ht, _, _, htx⟩ := mem_stepDests.mp hxD
              unfold subsetUniv
              exact List.mem_append_right _ (List.mem_map.mpr ⟨t, ht, htx⟩)
            · unfold subsetUniv
              exact List.mem_append_right _ (List.mem_map.mpr ⟨t, ht, htx⟩)
        · rw [List.map_append]
          simp only [List.map_cons, List.map_nil]
          rw [List.nodup_append]
          exact ⟨hg.hkeys, List.nodup_singleton _,
            fun k hk hk' => hkmem (by
              have : k = setToKey cl := by simpa using hk'
              rwa [← this])⟩
      · intro tr
        show tr ∈ st.dfaTransitions ++ [_] ↔ _
        rw [List.mem_append]
        constructor
        · rintro (hold | hnew)
          · obtain ⟨i, s, j', hCc, rest⟩ := (htr' tr).mp hold
            exact ⟨i, s, j', Or.inl hCc, rest⟩
          · have htre : tr = ⟨generateAlphabeticStateName donen,
                generateAlphabeticStateName sets.length, sym⟩ := by
              rw [hg.hcount] at hnew
              simpa using hnew
            refine ⟨donen, sym, sets.length, Or.inr ⟨rfl, rfl⟩, hsym,
              by omega, by omega, ?_, ?_, htre⟩
            · rw [hgetDstable donen hdn]
              exact fun hc => hDnil (by rw [hc]; rfl)
            · rw [hgetDstable donen hdn, getD_append_self]
        · rintro ⟨i, s, j', hCc, hal, hi, hj', hne, hkey, htre⟩
          rcases hCc with hCc | ⟨rfl, rfl⟩
          · exact Or.inl ((htr' tr).mpr ⟨i, s, j', hCc, hal, hi, hj', hne, hkey, htre⟩)
          · right
            rw [hgetDstable i hdn] at hkey
            by_cases hjl : j' < sets.length
            · exfalso
              rw [hgetDstable j' hjl] at hkey
              apply hkmem
              rw [← hkey]
              rw [List.getD_eq_getElem _ _ hjl]
              exact List.mem_map.mpr ⟨sets[j'], List.getElem_mem hjl, rfl⟩
            · have hje : j' = sets.length := by
                rw [hlen'] at hj'
                omega
              rw [htre, hje, hg.hcount]
              simp
      · intro p
        rw [hmiss' p]
        constructor
        · rintro ⟨i, s, hCc, rest⟩
          exact ⟨i, s, Or.inl hCc, rest⟩
        · rintro ⟨i, s, hCc, hal, hi, hnil, hpe⟩
          rcases hCc with hCc | ⟨rfl, rfl⟩
          · exact ⟨i, s, hCc, hal, hi, hnil, hpe⟩
          · rw [hgetDstable i hdn] at hnil
            exact absurd hnil (fun hc => hDnil (by rw [hc]; rfl))
      · intro i s hCc hal hi hne
        rcases hCc with hCc | ⟨rfl, rfl⟩
        · exact hclo' i s hCc hal hi hne
        · rw [hgetDstable i hdn, List.map_append]
          apply List.mem_append_right
          show setToKey (epsilonClosure nfa (stepDests nfa (sets.getD i []) s)) ∈
            [setToKey cl]
          rw [← hcl]
          simp
      · intro i s hCc
        rcases hCc with hCc | ⟨rfl, _⟩
        · have := hC i s hCc
          omega
        · omega

/-- Effect of the whole `for (const symbol of alphabet)` fold on the
ghost-tracked state: coverage grows by `(donen, s)` for every symbol
`s` of the folded list.  The folded function captures the dequeued set
and name of index `donen` of the pre-fold prefix `sets0`. -/
theorem processSymbols_fold_spec (nfa : Automaton) (alphabet : List String)
    (sets0 : List (List String)) (donen : Nat) (hdn0 : donen < sets0.length) :
    ∀ (syms : List String), (∀ s ∈ syms, s ∈ alphabet) →
    ∀ (sets : List (List String)) (C : Nat → String → Prop) (st : SubsetSt),
      (∃ e₀, sets = sets0 ++ e₀) →
      (∀ i s, C i s → i < sets.length) →
      SubsetGhost nfa sets (donen + 1) st →
      SubsetRecords nfa alphabet sets C st.dfaTransitions st.missing →
      ∃ sets', (∃ extra, sets' = sets ++ extra) ∧
        SubsetGhost nfa sets' (donen + 1)
          (syms.foldl (processSymbol nfa (sets0.getD donen [])
            (generateAlphabeticStateName donen)) st) ∧
        SubsetRecords nfa alphabet sets'
          (fun i s => C i s ∨ (i = donen ∧ s ∈ syms))
          (syms.foldl (processSymbol nfa (sets0.getD donen [])
            (generateAlphabeticStateName donen)) st).dfaTransitions
          (syms.foldl (processSymbol nfa (sets0.getD donen [])
            (generateAlphabeticStateName donen)) st).missing ∧
        (∀ i s, (C i s ∨ (i = donen ∧ s ∈ syms)) → i < sets'.length) := by
  intro syms
  induction syms with
  | nil =>
    intro _ sets C st _ hC hg hr
    refine ⟨sets, ⟨[], by simp⟩, hg, ?_, ?_⟩
    · exact SubsetRecords_congr hr (fun i s _ => by simp)
    · rintro i s (hCc | ⟨_, hmem⟩)
      · exact hC i s hCc
      · exact absurd hmem (List.not_mem_nil s)
  | cons sym rest ih =>
    intro hsyms sets C st hsets hC hg hr
    obtain ⟨e₀, he₀⟩ := hsets
    have hdn : donen < sets.length := by
      rw [he₀, List.length_append]
      omega
    have hgd : sets0.getD donen [] = sets.getD donen [] := by
      rw [he₀, List.getD_append _ _ _ _ hdn0]
    have hspec := processSymbol_spec nfa alphabet sets donen C st sym hdn
      (hsyms sym (by simp)) hC hg hr
    rw [← hgd] at hspec
    obtain ⟨sets₁, ⟨extra₁, he₁⟩, hg₁, hr₁, hb₁⟩ := hspec
    have hsets₁ : ∃ e, sets₁ = sets0 ++ e :=
      ⟨e₀ ++ extra₁, by rw [he₁, he₀, List.append_assoc]⟩
    obtain ⟨sets₂, ⟨extra₂, he₂⟩, hg₂, hr₂, hb₂⟩ :=
      ih (fun s hs => hsyms s (by simp [hs])) sets₁ _ _ hsets₁ hb₁ hg₁ hr₁
    rw [List.foldl_cons]
    refine ⟨sets₂, ⟨extra₁ ++ extra₂, by rw [he₂, he₁, List.append_assoc]⟩,
      hg₂, ?_, ?_⟩
    · apply SubsetRecords_congr hr₂
      intro i s _
      rw [List.mem_cons]
      tauto
    · intro i s hCc
      apply hb₂
      rw [List.mem_cons] at hCc
      tauto

theorem subsetLoop_succ_nil (nfa : Automaton) (alphabet : List String)
    (fuel : Nat) (st : SubsetSt) (hq : st.queue = []) :
    subsetLoop nfa alphabet (fuel + 1) st = st := by
  unfold subsetLoop
  rw [hq]

theorem subsetLoop_succ_cons (nfa : Automaton) (alphabet : List String)
    (fuel : Nat) (st : SubsetSt) (cur : List String) (rest : List (List String))
    (hq : st.queue = cur :: rest) :
    subsetLoop nfa alphabet (fuel + 1) st =
      subsetLoop nfa alphabet fuel
        (alphabet.foldl
          (processSymbol nfa cur ((mlookup st.stateMap (setToKey cur)).getD ""))
          { st with queue := rest }) := by
  conv_lhs => rw [subsetLoop]
  rw [hq]

/-- Full effect of the worklist loop under sufficient fuel: the queue
is drained and the accumulated records cover every discovered state
and every alphabet symbol. -/
theorem subsetLoop_spec (nfa : Automaton) (alphabet : List String) :
    ∀ (fuel : Nat) (sets : List (List String)) (donen : Nat) (st : SubsetSt),
      donen ≤ sets.length →
      SubsetGhost nfa sets donen st →
      SubsetRecords nfa alphabet sets (fun i _ => i < donen)
        st.dfaTransitions st.missing →
      (sets.length - donen) + 2 * (2 ^ (subsetUniv nfa).length - sets.length)
        < fuel →
      ∃ sets', (∃ extra, sets' = sets ++ extra) ∧
        SubsetGhost nfa sets' sets'.length (subsetLoop nfa alphabet fuel st) ∧
        SubsetRecords nfa alphabet sets' (fun i _ => i < sets'.length)
          (subsetLoop nfa alphabet fuel st).dfaTransitions
          (subsetLoop nfa alphabet fuel st).missing := by
  intro fuel
  induction fuel with
  | zero => intro sets donen st _ _ _ hfu; omega
  | succ fuel ih =>
    intro sets donen st hdone hg hr hfu
    rcases hq : st.queue with _ | ⟨cur, rest⟩
    · have hdrop : sets.drop donen = [] := by rw [← hg.hqueue]; exact hq
      have hlen : sets.length ≤ donen := List.drop_eq_nil_iff.mp hdrop
      have heq : donen = sets.length := le_antisymm hdone hlen
      subst heq
      rw [subsetLoop_succ_nil _ _ _ _ hq]
      exact ⟨sets, ⟨[], by simp⟩, hg, hr⟩
    · have hdrop : sets.drop donen = cur :: rest := by rw [← hg.hqueue]; exact hq
      have hdn : donen < sets.length := by
        by_contra hcon
        rw [List.drop_eq_nil_iff.mpr (by omega)] at hdrop
        exact List.noConfusion hdrop
      rw [List.drop_eq_getElem_cons hdn] at hdrop
      injection hdrop with h1 h2
      have hgetD : sets.getD donen [] = cur := by
        rw [List.getD_eq_getElem _ _ hdn, h1]
      have hname : (mlookup st.stateMap (setToKey cur)).getD "" =
          generateAlphabeticStateName donen := by
        rw [hg.hmap, ← hgetD, mlookup_keyMap hg.hkeys hdn]
        rfl
      rw [subsetLoop_succ_cons _ _ _ _ _ _ hq, hname]
      have hg₁ : SubsetGhost nfa sets (donen + 1) { st with queue := rest } :=
        { hcount := hg.hcount, hmap := hg.hmap, hstates := hg.hstates,
          hqueue := h2.symm, hgood := hg.hgood, hkeys := hg.hkeys }
      have hfold := processSymbols_fold_spec nfa alphabet sets donen hdn alphabet
        (fun _ hs => hs) sets (fun i _ => i < donen) { st with queue := rest }
        ⟨[], by simp⟩ (fun i _ hi => lt_trans hi hdn) hg₁ hr
      rw [hgetD] at hfold
      obtain ⟨sets₁, ⟨extra₁, he₁⟩, hgF, hrF, _⟩ := hfold
      have hgrow : sets.length ≤ sets₁.length := by
        rw [he₁, List.length_append]
        omega
      have hrF' : SubsetRecords nfa alphabet sets₁ (fun i _ => i < donen + 1)
          _ _ := SubsetRecords_congr hrF (fun i s hs => by
        constructor
        · rintro (hlt | ⟨rfl, _⟩) <;> omega
        · intro hlt
          by_cases hi : i < donen
          · exact Or.inl hi
          · exact Or.inr ⟨by omega, hs⟩)
      have hdone₁ : donen + 1 ≤ sets₁.length := by omega
      have hbound : sets₁.length ≤ 2 ^ (subsetUniv nfa).length :=
        sets_length_le_pow hgF.hgood hgF.hkeys
      have hfu' : (sets₁.length - (donen + 1))
          + 2 * (2 ^ (subsetUniv nfa).length - sets₁.length) < fuel := by
        omega
      obtain ⟨sets₂, ⟨extra₂, he₂⟩, hg₃, hr₃⟩ :=
        ih sets₁ (donen + 1) _ hdone₁ hgF hrF' hfu'
      exact ⟨sets₂, ⟨extra₁ ++ extra₂, by rw [he₂, he₁, List.append_assoc]⟩,
        hg₃, hr₃⟩

/-- The state of the subset worklist loop at its exit, characterised:
the loop discovers a list `sets` of NFA state sets, the first of which
is the start closure, and the transition and missing records cover
every discovered index and alphabet symbol. -/
theorem subsetFinal_spec (nfa : Automaton) :
    ∃ sets : List (List String),
      0 < sets.length ∧
      sets.getD 0 [] = epsilonClosure nfa (startSeeds nfa) ∧
      SubsetGhost nfa sets sets.length (subsetFinal nfa) ∧
      SubsetRecords nfa (alphabetOf nfa.transitions) sets
        (fun i _ => i < sets.length)
        (subsetFinal nfa).dfaTransitions (subsetFinal nfa).missing := by
  have hseeds : (startSeeds nfa).Nodup := by
    unfold startSeeds
    cases nfa.startState <;> simp
  have hclnd : (epsilonClosure nfa (startSeeds nfa)).Nodup :=
    epsilonClosure_nodup hseeds
  have hcluniv : ∀ x ∈ epsilonClosure nfa (startSeeds nfa), x ∈ subsetUniv nfa := by
    intro x hx
    rcases epsilonClosure_src hseeds hx with hs | ⟨t, ht, hto⟩
    · exact List.mem_append_left _ hs
    · exact List.mem_append_right _ (List.mem_map.mpr ⟨t, ht, hto⟩)
  have hg0 : SubsetGhost nfa [epsilonClosure nfa (startSeeds nfa)] 0
      (subsetStart nfa) :=
    { hcount := rfl, hmap := rfl, hstates := rfl, hqueue := rfl,
      hgood := by
        intro S hS
        rw [List.mem_singleton] at hS
        subst hS
        exact ⟨hclnd, hcluniv⟩,
      hkeys := by simp }
  have hr0 : SubsetRecords nfa (alphabetOf nfa.transitions)
      [epsilonClosure nfa (startSeeds nfa)] (fun i _ => i < 0)
      (subsetStart nfa).dfaTransitions (subsetStart nfa).missing := by
    refine ⟨?_, ?_, ?_⟩
    · intro tr
      constructor
      · intro hmem
        exact absurd hmem (List.not_mem_nil tr)
      · rintro ⟨i, sym, j, hC, _⟩
        omega
    · intro p
      constructor
      · intro hmem
        exact absurd hmem (List.not_mem_nil p)
      · rintro ⟨i, sym, hC, _⟩
        omega
    · intro i sym hC
      omega
  have hone : 1 ≤ 2 ^ (subsetUniv nfa).length := Nat.one_le_two_pow
  have hfu : ([epsilonClosure nfa (startSeeds nfa)].length - 0)
      + 2 * (2 ^ (subsetUniv nfa).length
        - [epsilonClosure nfa (startSeeds nfa)].length)
      < 2 ^ (subsetUniv nfa).length * 2 + 2 := by
    rw [List.length_singleton]
    omega
  obtain ⟨sets, ⟨extra, hex⟩, hgF, hrF⟩ :=
    subsetLoop_spec nfa (alphabetOf nfa.transitions)
      (2 ^ (subsetUniv nfa).length * 2 + 2)
      [epsilonClosure nfa (startSeeds nfa)] 0 (subsetStart nfa)
      (by omega) hg0 hr0 hfu
  refine ⟨sets, ?_, ?_, hgF, hrF⟩
  · rw [hex, List.length_append, List.length_singleton]
    omega
  · rw [hex, List.getD_append _ _ _ _ (by simp)]
    rfl

theorem nodup_all_eq_length_le_one {l : List String} (hnd : l.Nodup)
    (h : ∀ x ∈ l, ∀ y ∈ l, x = y) : l.length ≤ 1 := by
  match l with
  | [] => simp
  | [_] => simp
  | x :: y :: rest =>
    exfalso
    have hxy : x = y := h x (by simp) y (by simp)
    rw [List.nodup_cons] at hnd
    exact hnd.1 (by rw [hxy]; simp)

/-- A transition list that is functional on grouping keys has at most
one distinct destination per key. -/
theorem destsOfKey_length_le_one {ts : List Transition} {k : String}
    (h : ∀ t₁ ∈ ts, ∀ t₂ ∈ ts, pairKey t₁ = k → pairKey t₂ = k →
      t₁.«to» = t₂.«to») :
    (destsOfKey ts k).length ≤ 1 := by
  unfold destsOfKey
  apply nodup_all_eq_length_le_one (nodup_dedupKeep _)
  intro x hx y hy
  rw [mem_dedupKeep] at hx hy
  obtain ⟨t₁, ht₁, hx⟩ := List.mem_map.mp hx
  obtain ⟨t₂, ht₂, hy⟩ := List.mem_map.mp hy
  rw [List.mem_filter] at ht₁ ht₂
  have h₁ : pairKey t₁ = k := by simpa using ht₁.2
  have h₂ : pairKey t₂ = k := by simpa using ht₂.2
  rw [← hx, ← hy]
  exact h t₁ ht₁.1 t₂ ht₂.1 h₁ h₂

/-- Membership in the enumerated synthetic-state list. -/
theorem mem_enum_states {sets : List (List String)} {st : State} :
    st ∈ sets.enum.map (fun e => State.mk (generateAlphabeticStateName e.1)) ↔
      ∃ i, i < sets.length ∧ st = ⟨generateAlphabeticStateName i⟩ := by
  suffices h : ∀ (n : Nat) (l : List (List String)),
      st ∈ (l.enumFrom n).map (fun e => State.mk (generateAlphabeticStateName e.1)) ↔
      ∃ i, i < l.length ∧ st = ⟨generateAlphabeticStateName (n + i)⟩ by
    have := h 0 sets
    simpa using this
  intro n l
  induction l generalizing n with
  | nil => simp
  | cons S ss ih =>
    rw [List.enumFrom_cons, List.map_cons]
    constructor
    · intro hmem
      rcases List.mem_cons.mp hmem with heq | htail
      · exact ⟨0, by simp, by simpa using heq⟩
      · obtain ⟨i, hi, hsteq⟩ := (ih (n + 1)).mp htail
        refine ⟨i + 1, by simp; omega, ?_⟩
        rw [hsteq]
        have harith : n + 1 + i = n + (i + 1) := by omega
        rw [harith]
    · rintro ⟨i, hi, rfl⟩
      cases i with
      | zero => exact List.mem_cons_self _ _
      | succ i' =>
        apply List.mem_cons_of_mem
        apply (ih (n + 1)).mpr
        refine ⟨i', by simp at hi; omega, ?_⟩
        have harith : n + (i' + 1) = n + 1 + i' := by omega
        rw [harith]

/-- Structural properties of the converted DFA needed by the
completeness checks: every result transition carries an alphabet symbol
and a dash-free source name; the transition list is functional on
grouping keys; and every result state has an outgoing transition for
every alphabet symbol. -/
theorem convertNFAToDFA_functional (nfa : Automaton) (hty : ¬ nfa.type = .DFA) :
    (∀ t ∈ (convertNFAToDFA nfa).transitions,
        t.symbol ∈ alphabetOf nfa.transitions ∧ '-' ∉ t.«from».data) ∧
    (∀ t₁ ∈ (convertNFAToDFA nfa).transitions,
        ∀ t₂ ∈ (convertNFAToDFA nfa).transitions,
          pairKey t₁ = pairKey t₂ → t₁.«to» = t₂.«to») ∧
    (∀ st ∈ (convertNFAToDFA nfa).states, ∀ sym ∈ alphabetOf nfa.transitions,
        ∃ t ∈ (convertNFAToDFA nfa).transitions,
          t.«from» = st.id ∧ t.symbol = sym) := by
  obtain ⟨sets, hposlen, hstartcl, hg, hr⟩ := subsetFinal_spec nfa
  obtain ⟨htr, hmiss, hclo⟩ := hr
  have htrans : (convertNFAToDFA nfa).transitions =
      if 0 < (subsetFinal nfa).missing.length then
        (subsetFinal nfa).dfaTransitions
          ++ (subsetFinal nfa).missing.map
              (fun m => ⟨m.1,
                generateAlphabeticStateName (subsetFinal nfa).stateCounter, m.2⟩)
          ++ (alphabetOf nfa.transitions).map
              (fun sym => ⟨generateAlphabeticStateName (subsetFinal nfa).stateCounter,
                generateAlphabeticStateName (subsetFinal nfa).stateCounter, sym⟩)
      else (subsetFinal nfa).dfaTransitions := by
    unfold convertNFAToDFA
    rw [if_neg hty]
  have hstates : (convertNFAToDFA nfa).states =
      if 0 < (subsetFinal nfa).missing.length then
        (subsetFinal nfa).dfaStates
          ++ [⟨generateAlphabeticStateName (subsetFinal nfa).stateCounter⟩]
      else (subsetFinal nfa).dfaStates := by
    unfold convertNFAToDFA
    rw [if_neg hty]
  have hmemT : ∀ tr : Transition, tr ∈ (convertNFAToDFA nfa).transitions ↔
      tr ∈ (subsetFinal nfa).dfaTransitions ∨
      (∃ p ∈ (subsetFinal nfa).missing,
        tr = ⟨p.1, generateAlphabeticStateName (subsetFinal nfa).stateCounter, p.2⟩) ∨
      (0 < (subsetFinal nfa).missing.length ∧
        ∃ sym ∈ alphabetOf nfa.transitions,
          tr = ⟨generateAlphabeticStateName (subsetFinal nfa).stateCounter,
            generateAlphabeticStateName (subsetFinal nfa).stateCounter, sym⟩) := by
    intro tr
    rw [htrans]
    by_cases hM : 0 < (subsetFinal nfa).missing.length
    · rw [if_pos hM, List.mem_append, List.mem_append]
      constructor
      · rintro ((h | h) | h)
        · exact Or.inl h
        · obtain ⟨p, hp, rfl⟩ := List.mem_map.mp h
          exact Or.inr (Or.inl ⟨p, hp, rfl⟩)
        · obtain ⟨sym, hsym, rfl⟩ := List.mem_map.mp h
          exact Or.inr (Or.inr ⟨hM, sym, hsym, rfl⟩)
      · rintro (h | ⟨p, hp, rfl⟩ | ⟨_, sym, hsym, rfl⟩)
        · exact Or.inl (Or.inl h)
        · exact Or.inl (Or.inr (List.mem_map.mpr ⟨p, hp, rfl⟩))
        · exact Or.inr (List.mem_map.mpr ⟨sym, hsym, rfl⟩)
    · rw [if_neg hM]
      have hnil : (subsetFinal nfa).missing = [] := by
        rcases hmm : (subsetFinal nfa).missing with _ | ⟨p, ps⟩
        · rfl
        · rw [hmm] at hM
          simp at hM
      constructor
      · intro h
        exact Or.inl h
      · rintro (h | ⟨p, hp, _⟩ | ⟨hM', _⟩)
        · exact h
        · rw [hnil] at hp
          exact absurd hp (List.not_mem_nil p)
        · exact absurd hM' hM
  have hclass : ∀ t ∈ (convertNFAToDFA nfa).transitions,
      ∃ i sym, t.«from» = generateAlphabeticStateName i ∧ t.symbol = sym ∧
        sym ∈ alphabetOf nfa.transitions ∧
        ((i < sets.length ∧ stepDests nfa (sets.getD i []) sym ≠ [] ∧
            ∃ j, j < sets.length ∧
              setToKey (sets.getD j []) =
                setToKey (epsilonClosure nfa (stepDests nfa (sets.getD i []) sym)) ∧
              t.«to» = generateAlphabeticStateName j) ∨
          (i < sets.length ∧ stepDests nfa (sets.getD i []) sym = [] ∧
            t.«to» = generateAlphabeticStateName sets.length) ∨
          (i = sets.length ∧
            t.«to» = generateAlphabeticStateName sets.length)) := by
    intro t ht
    rcases (hmemT t).mp ht with hA | ⟨p, hp, rfl⟩ | ⟨_, sym, hsym, rfl⟩
    · obtain ⟨i, sym, j, _, hsym, hi, hj, hne, hkey, rfl⟩ := (htr t).mp hA
      exact ⟨i, sym, rfl, rfl, hsym, Or.inl ⟨hi, hne, j, hj, hkey, rfl⟩⟩
    · obtain ⟨i, sym, _, hsym, hi, hDnil, hpe⟩ := (hmiss p).mp hp
      subst hpe
      exact ⟨i, sym, rfl, rfl, hsym,
        Or.inr (Or.inl ⟨hi, hDnil, by
          show generateAlphabeticStateName (subsetFinal nfa).stateCounter = _
          rw [hg.hcount]⟩)⟩
    · exact ⟨sets.length, sym, by
        show generateAlphabeticStateName (subsetFinal nfa).stateCounter = _
        rw [hg.hcount], rfl, hsym,
        Or.inr (Or.inr ⟨rfl, by
          show generateAlphabeticStateName (subsetFinal nfa).stateCounter = _
          rw [hg.hcount]⟩)⟩
  refine ⟨?_, ?_, ?_⟩
  · intro t ht
    obtain ⟨i, sym, hfrom, hsymeq, hsym, _⟩ := hclass t ht
    refine ⟨by rw [hsymeq]; exact hsym, ?_⟩
    rw [hfrom]
    exact generateAlphabeticStateName_dash_free i
  · intro t₁ h₁ t₂ h₂ hk
    obtain ⟨i₁, s₁, hf₁, hs₁, _, hc₁⟩ := hclass t₁ h₁
    obtain ⟨i₂, s₂, hf₂, hs₂, _, hc₂⟩ := hclass t₂ h₂
    unfold pairKey at hk
    rw [hf₁, hs₁, hf₂, hs₂] at hk
    obtain ⟨hfe, hse⟩ := pairKey_inj (generateAlphabeticStateName_dash_free i₁)
      (generateAlphabeticStateName_dash_free i₂) hk
    have hie : i₁ = i₂ := generateAlphabeticStateName_inj hfe
    subst hie
    subst hse
    rcases hc₁ with ⟨hi₁, hne₁, j₁, hj₁, hkey₁, hto₁⟩ | ⟨hi₁, hnil₁, hto₁⟩ |
        ⟨hieq₁, hto₁⟩ <;>
      rcases hc₂ with ⟨hi₂, hne₂, j₂, hj₂, hkey₂, hto₂⟩ | ⟨hi₂, hnil₂, hto₂⟩ |
        ⟨hieq₂, hto₂⟩
    · have hje : j₁ = j₂ := keys_getD_inj hg.hkeys hj₁ hj₂ (by rw [hkey₁, hkey₂])
      rw [hto₁, hto₂, hje]
    · exact absurd hnil₂ hne₁
    · exact absurd hieq₂ (by omega)
    · exact absurd hnil₁ hne₂
    · rw [hto₁, hto₂]
    · exact absurd hieq₂ (by omega)
    · exact absurd hieq₁ (by omega)
    · exact absurd hieq₁ (by omega)
    · rw [hto₁, hto₂]
  · intro st hst sym hsym
    have hmemS : st ∈ (subsetFinal nfa).dfaStates ∨
        (0 < (subsetFinal nfa).missing.length ∧
          st = ⟨generateAlphabeticStateName (subsetFinal nfa).stateCounter⟩) := by
      rw [hstates] at hst
      by_cases hM : 0 < (subsetFinal nfa).missing.length
      · rw [if_pos hM] at hst
        rcases List.mem_append.mp hst with h | h
        · exact Or.inl h
        · exact Or.inr ⟨hM, by simpa using h⟩
      · rw [if_neg hM] at hst
        exact Or.inl hst
    rcases hmemS with hS | ⟨hM, rfl⟩
    · rw [hg.hstates] at hS
      obtain ⟨i, hi, rfl⟩ := mem_enum_states.mp hS
      by_cases hD : stepDests nfa (sets.getD i []) sym = []
      · have hpmem : (generateAlphabeticStateName i, sym) ∈
            (subsetFinal nfa).missing :=
          (hmiss _).mpr ⟨i, sym, hi, hsym, hi, hD, rfl⟩
        refine ⟨⟨generateAlphabeticStateName i,
          generateAlphabeticStateName (subsetFinal nfa).stateCounter, sym⟩,
          ?_, rfl, rfl⟩
        exact (hmemT _).mpr (Or.inr (Or.inl
          ⟨(generateAlphabeticStateName i, sym), hpmem, rfl⟩))
      · have hkeymem := hclo i sym hi hsym hi hD
        obtain ⟨S, hS', hkeq⟩ := List.mem_map.mp hkeymem
        obtain ⟨j, hj, hSj⟩ := List.mem_iff_getElem.mp hS'
        have hkeq' : setToKey (sets.getD j []) =
            setToKey (epsilonClosure nfa (stepDests nfa (sets.getD i []) sym)) := by
          rw [List.getD_eq_getElem _ _ hj, hSj, hkeq]
        refine ⟨⟨generateAlphabeticStateName i, generateAlphabeticStateName j, sym⟩,
          ?_, rfl, rfl⟩
        exact (hmemT _).mpr (Or.inl ((htr _).mpr
          ⟨i, sym, j, hi, hsym, hi, hj, hD, hkeq', rfl⟩))
    · refine ⟨⟨generateAlphabeticStateName (subsetFinal nfa).stateCounter,
        generateAlphabeticStateName (subsetFinal nfa).stateCounter, sym⟩,
        ?_, rfl, rfl⟩
      exact (hmemT _).mpr (Or.inr (Or.inr ⟨hM, sym, hsym, rfl⟩))

theorem nfaWalk_nil (a : Automaton) (cur p : List String) :
    nfaWalk a cur p [] =
      ⟨cur.any (fun st => decide (st ∈ a.finalStates)), some p⟩ := rfl

theorem nfaWalk_cons (a : Automaton) (cur p : List String) (c : Char)
    (cs : List Char) :
    nfaWalk a cur p (c :: cs) =
      if (stepDests a cur (charSym c)).length = 0 then ⟨false, some p⟩
      else nfaWalk a (epsilonClosure a (stepDests a cur (charSym c)))
        (p ++ [joinComma (sortJS (epsilonClosure a (stepDests a cur (charSym c))))])
        cs := rfl

theorem dfaWalk_nil (a : Automaton) (cur : String) (p : List String) :
    dfaWalk a cur p [] = ⟨decide (cur ∈ a.finalStates), some p⟩ := rfl

theorem dfaWalk_cons (a : Automaton) (cur : String) (p : List String) (c : Char)
    (cs : List Char) :
    dfaWalk a cur p (c :: cs) =
      match a.transitions.find?
          (fun t => t.«from» == cur && t.symbol == charSym c) with
      | none => ⟨false, some p⟩
      | some t => dfaWalk a t.«to» (p ++ [t.«to»]) cs := rfl

theorem dfaWalk_cons_found {a : Automaton} {cur : String} {c : Char}
    {t : Transition}
    (hf : a.transitions.find? (fun u => u.«from» == cur && u.symbol == charSym c)
      = some t) (p : List String) (cs : List Char) :
    dfaWalk a cur p (c :: cs) = dfaWalk a t.«to» (p ++ [t.«to»]) cs := by
  rw [dfaWalk_cons, hf]

theorem dfaWalk_cons_none {a : Automaton} {cur : String} {c : Char}
    (hf : a.transitions.find? (fun u => u.«from» == cur && u.symbol == charSym c)
      = none) (p : List String) (cs : List Char) :
    dfaWalk a cur p (c :: cs) = ⟨false, some p⟩ := by
  rw [dfaWalk_cons, hf]

theorem testStringNFA_eq (a : Automaton) (input : String) :
    testStringNFA a input =
      nfaWalk a (epsilonClosure a (addSet [] (a.startState.getD "")))
        [joinComma (sortJS (epsilonClosure a (addSet [] (a.startState.getD ""))))]
        input.data := rfl

theorem testStringDFA_eq (a : Automaton) (input : String) :
    testStringDFA a input =
      dfaWalk a (a.startState.getD "") [a.startState.getD ""] input.data := rfl

theorem convertNFAToDFA_type (nfa : Automaton) (hty : ¬ nfa.type = .DFA) :
    (convertNFAToDFA nfa).type = .DFA := by
  unfold convertNFAToDFA
  rw [if_neg hty]

theorem convertNFAToDFA_start (nfa : Automaton) (hty : ¬ nfa.type = .DFA) :
    (convertNFAToDFA nfa).startState = some (generateAlphabeticStateName 0) := by
  unfold convertNFAToDFA
  rw [if_neg hty]

theorem convertNFAToDFA_finals_eq (nfa : Automaton) (hty : ¬ nfa.type = .DFA) :
    (convertNFAToDFA nfa).finalStates =
      ((subsetFinal nfa).stateMap.filter
        (fun e => (keyToSet e.1).any (fun s => decide (s ∈ nfa.finalStates)))).map
        (fun e => e.2) := by
  unfold convertNFAToDFA
  rw [if_neg hty]

/-- Membership characterisation of the converted DFA's transition list:
a looped transition, a missing-pair transition into the dead state, or
a dead-state self loop. -/
theorem convertNFAToDFA_mem_trans (nfa : Automaton) (hty : ¬ nfa.type = .DFA) :
    ∀ tr : Transition, tr ∈ (convertNFAToDFA nfa).transitions ↔
      tr ∈ (subsetFinal nfa).dfaTransitions ∨
      (∃ p ∈ (subsetFinal nfa).missing,
        tr = ⟨p.1, generateAlphabeticStateName (subsetFinal nfa).stateCounter, p.2⟩) ∨
      (0 < (subsetFinal nfa).missing.length ∧
        ∃ sym ∈ alphabetOf nfa.transitions,
          tr = ⟨generateAlphabeticStateName (subsetFinal nfa).stateCounter,
            generateAlphabeticStateName (subsetFinal nfa).stateCounter, sym⟩) := by
  have htrans : (convertNFAToDFA nfa).transitions =
      if 0 < (subsetFinal nfa).missing.length then
        (subsetFinal nfa).dfaTransitions
          ++ (subsetFinal nfa).missing.map
              (fun m => ⟨m.1,
                generateAlphabeticStateName (subsetFinal nfa).stateCounter, m.2⟩)
          ++ (alphabetOf nfa.transitions).map
              (fun sym => ⟨generateAlphabeticStateName (subsetFinal nfa).stateCounter,
                generateAlphabeticStateName (subsetFinal nfa).stateCounter, sym⟩)
      else (subsetFinal nfa).dfaTransitions := by
    unfold convertNFAToDFA
    rw [if_neg hty]
  intro tr
  rw [htrans]
  by_cases hM : 0 < (subsetFinal nfa).missing.length
  · rw [if_pos hM, List.mem_append, List.mem_append]
    constructor
    · rintro ((h | h) | h)
      · exact Or.inl h
      · obtain ⟨p, hp, rfl⟩ := List.mem_map.mp h
        exact Or.inr (Or.inl ⟨p, hp, rfl⟩)
      · obtain ⟨sym, hsym, rfl⟩ := List.mem_map.mp h
        exact Or.inr (Or.inr ⟨hM, sym, hsym, rfl⟩)
    · rintro (h | ⟨p, hp, rfl⟩ | ⟨_, sym, hsym, rfl⟩)
      · exact Or.inl (Or.inl h)
      · exact Or.inl (Or.inr (List.mem_map.mpr ⟨p, hp, rfl⟩))
      · exact Or.inr (List.mem_map.mpr ⟨sym, hsym, rfl⟩)
  · rw [if_neg hM]
    have hnil : (subsetFinal nfa).missing = [] := by
      rcases hmm : (subsetFinal nfa).missing with _ | ⟨p, ps⟩
      · rfl
      · rw [hmm] at hM
        simp at hM
    constructor
    · intro h
      exact Or.inl h
    · rintro (h | ⟨p, hp, _⟩ | ⟨hM', _⟩)
      · exact h
      · rw [hnil] at hp
        exact absurd hp (List.not_mem_nil p)
      · exact absurd hM' hM

/-- Classification of one converted-DFA transition by its source index
and fate. -/
theorem convertNFAToDFA_trans_class (nfa : Automaton) (hty : ¬ nfa.type = .DFA)
    {sets : List (List String)}
    (hg : SubsetGhost nfa sets sets.length (subsetFinal nfa))
    (hr : SubsetRecords nfa (alphabetOf nfa.transitions) sets
      (fun i _ => i < sets.length)
      (subsetFinal nfa).dfaTransitions (subsetFinal nfa).missing) :
    ∀ t ∈ (convertNFAToDFA nfa).transitions,
      ∃ i sym, t.«from» = generateAlphabeticStateName i ∧ t.symbol = sym ∧
        sym ∈ alphabetOf nfa.transitions ∧
        ((i < sets.length ∧ stepDests nfa (sets.getD i []) sym ≠ [] ∧
            ∃ j, j < sets.length ∧
              setToKey (sets.getD j []) =
                setToKey (epsilonClosure nfa (stepDests nfa (sets.getD i []) sym)) ∧
              t.«to» = generateAlphabeticStateName j) ∨
          (i < sets.length ∧ stepDests nfa (sets.getD i []) sym = [] ∧
            t.«to» = generateAlphabeticStateName sets.length) ∨
          (i = sets.length ∧
            t.«to» = generateAlphabeticStateName sets.length)) := by
  obtain ⟨htr, hmiss, hclo⟩ := hr
  intro t ht
  rcases (convertNFAToDFA_mem_trans nfa hty t).mp ht with hA | ⟨p, hp, rfl⟩ |
      ⟨_, sym, hsym, rfl⟩
  · obtain ⟨i, sym, j, _, hsym, hi, hj, hne, hkey, rfl⟩ := (htr t).mp hA
    exact ⟨i, sym, rfl, rfl, hsym, Or.inl ⟨hi, hne, j, hj, hkey, rfl⟩⟩
  · obtain ⟨i, sym, _, hsym, hi, hDnil, hpe⟩ := (hmiss p).mp hp
    subst hpe
    exact ⟨i, sym, rfl, rfl, hsym,
      Or.inr (Or.inl ⟨hi, hDnil, by
        show generateAlphabeticStateName (subsetFinal nfa).stateCounter = _
        rw [hg.hcount]⟩)⟩
  · exact ⟨sets.length, sym, by
      show generateAlphabeticStateName (subsetFinal nfa).stateCounter = _
      rw [hg.hcount], rfl, hsym,
      Or.inr (Or.inr ⟨rfl, by
        show generateAlphabeticStateName (subsetFinal nfa).stateCounter = _
        rw [hg.hcount]⟩)⟩

/-- The converted DFA's transition list is functional on grouping keys. -/
theorem convertNFAToDFA_key_functional (nfa : Automaton) (hty : ¬ nfa.type = .DFA)
    {sets : List (List String)}
    (hg : SubsetGhost nfa sets sets.length (subsetFinal nfa))
    (hr : SubsetRecords nfa (alphabetOf nfa.transitions) sets
      (fun i _ => i < sets.length)
      (subsetFinal nfa).dfaTransitions (subsetFinal nfa).missing) :
    ∀ t₁ ∈ (convertNFAToDFA nfa).transitions,
      ∀ t₂ ∈ (convertNFAToDFA nfa).transitions,
        pairKey t₁ = pairKey t₂ → t₁.«to» = t₂.«to» := by
  have hclass := convertNFAToDFA_trans_class nfa hty hg hr
  intro t₁ h₁ t₂ h₂ hk
  obtain ⟨i₁, s₁, hf₁, hs₁, _, hc₁⟩ := hclass t₁ h₁
  obtain ⟨i₂, s₂, hf₂, hs₂, _, hc₂⟩ := hclass t₂ h₂
  unfold pairKey at hk
  rw [hf₁, hs₁, hf₂, hs₂] at hk
  obtain ⟨hfe, hse⟩ := pairKey_inj (generateAlphabeticStateName_dash_free i₁)
    (generateAlphabeticStateName_dash_free i₂) hk
  have hie : i₁ = i₂ := generateAlphabeticStateName_inj hfe
  subst hie
  subst hse
  rcases hc₁ with ⟨hi₁, hne₁, j₁, hj₁, hkey₁, hto₁⟩ | ⟨hi₁, hnil₁, hto₁⟩ |
      ⟨hieq₁, hto₁⟩ <;>
    rcases hc₂ with ⟨hi₂, hne₂, j₂, hj₂, hkey₂, hto₂⟩ | ⟨hi₂, hnil₂, hto₂⟩ |
      ⟨hieq₂, hto₂⟩
  · have hje : j₁ = j₂ := keys_getD_inj hg.hkeys hj₁ hj₂ (by rw [hkey₁, hkey₂])
    rw [hto₁, hto₂, hje]
  · exact absurd hnil₂ hne₁
  · exact absurd hieq₂ (by omega)
  · exact absurd hnil₁ hne₂
  · rw [hto₁, hto₂]
  · exact absurd hieq₂ (by omega)
  · exact absurd hieq₁ (by omega)
  · exact absurd hieq₁ (by omega)
  · rw [hto₁, hto₂]

/-- Membership in the enumerated state-map association list. -/
theorem mem_enum_keymap {sets : List (List String)} {pr : String × String} :
    pr ∈ sets.enum.map (fun e => (setToKey e.2, generateAlphabeticStateName e.1)) ↔
      ∃ i, i < sets.length ∧
        pr = (setToKey (sets.getD i []), generateAlphabeticStateName i) := by
  suffices h : ∀ (n : Nat) (l : List (List String)),
      pr ∈ (l.enumFrom n).map
        (fun e => (setToKey e.2, generateAlphabeticStateName e.1)) ↔
      ∃ i, i < l.length ∧
        pr = (setToKey (l.getD i []), generateAlphabeticStateName (n + i)) by
    have := h 0 sets
    simpa using this
  intro n l
  induction l generalizing n with
  | nil => simp
  | cons S ss ih =>
    rw [List.enumFrom_cons, List.map_cons]
    constructor
    · intro hmem
      rcases List.mem_cons.mp hmem with heq | htail
      · exact ⟨0, by simp, by simpa using heq⟩
      · obtain ⟨i, hi, hpre⟩ := (ih (n + 1)).mp htail
        refine ⟨i + 1, by simp; omega, ?_⟩
        rw [hpre, List.getD_cons_succ]
        have harith : n + 1 + i = n + (i + 1) := by omega
        rw [harith]
    · rintro ⟨i, hi, rfl⟩
      cases i with
      | zero => exact List.mem_cons_self _ _
      | succ i' =>
        apply List.mem_cons_of_mem
        apply (ih (n + 1)).mpr
        refine ⟨i', by simp at hi; omega, ?_⟩
        rw [List.getD_cons_succ]
        have harith : n + (i' + 1) = n + 1 + i' := by omega
        rw [harith]

/-- A synthetic state name is final in the converted DFA exactly when
its discovered NFA state set touches the NFA's final states (the dead
state, index `sets.length`, is never final). -/
theorem convertNFAToDFA_final_iff (nfa : Automaton) (hty : ¬ nfa.type = .DFA)
    {sets : List (List String)}
    (hg : SubsetGhost nfa sets sets.length (subsetFinal nfa))
    (hids : ∀ x ∈ subsetUniv nfa, ¬ x = "" ∧ ',' ∉ x.data) (i : Nat) :
    generateAlphabeticStateName i ∈ (convertNFAToDFA nfa).finalStates ↔
      (i < sets.length ∧ ∃ x ∈ sets.getD i [], x ∈ nfa.finalStates) := by
  have hgood : ∀ j, j < sets.length → (sets.getD j []).Nodup ∧
      ∀ x ∈ sets.getD j [], x ∈ subsetUniv nfa := by
    intro j hj
    apply hg.hgood
    rw [List.getD_eq_getElem _ _ hj]
    exact List.getElem_mem hj
  rw [convertNFAToDFA_finals_eq nfa hty, hg.hmap]
  constructor
  · intro hmem
    obtain ⟨e, he, heq⟩ := List.mem_map.mp hmem
    rw [List.mem_filter] at he
    obtain ⟨hemem, hP⟩ := he
    obtain ⟨j, hj, hpe⟩ := mem_enum_keymap.mp hemem
    subst hpe
    have hji : j = i := generateAlphabeticStateName_inj heq
    subst hji
    refine ⟨hj, ?_⟩
    simp only [List.any_eq_true, decide_eq_true_eq] at hP
    obtain ⟨x, hx, hxf⟩ := hP
    have hperm := keyToSet_setToKey (hgood j hj).1
      (fun s hs => (hids s ((hgood j hj).2 s hs)).1)
      (fun s hs => (hids s ((hgood j hj).2 s hs)).2)
    exact ⟨x, hperm.mem_iff.mp hx, hxf⟩
  · rintro ⟨hi, x, hx, hxf⟩
    apply List.mem_map.mpr
    refine ⟨(setToKey (sets.getD i []), generateAlphabeticStateName i), ?_, rfl⟩
    rw [List.mem_filter]
    refine ⟨mem_enum_keymap.mpr ⟨i, hi, rfl⟩, ?_⟩
    simp only [List.any_eq_true, decide_eq_true_eq]
    have hperm := keyToSet_setToKey (hgood i hi).1
      (fun s hs => (hids s ((hgood i hi).2 s hs)).1)
      (fun s hs => (hids s ((hgood i hi).2 s hs)).2)
    exact ⟨x, hperm.mem_iff.mpr hx, hxf⟩

/-- The dead state of the converted DFA absorbs: once reached, the walk
can never accept. -/
theorem dfaWalk_dead (nfa : Automaton) (hty : ¬ nfa.type = .DFA)
    {sets : List (List String)}
    (hg : SubsetGhost nfa sets sets.length (subsetFinal nfa))
    (hr : SubsetRecords nfa (alphabetOf nfa.transitions) sets
      (fun i _ => i < sets.length)
      (subsetFinal nfa).dfaTransitions (subsetFinal nfa).missing)
    (hids : ∀ x ∈ subsetUniv nfa, ¬ x = "" ∧ ',' ∉ x.data) :
    ∀ (cs : List Char) (p : List String),
      (dfaWalk (convertNFAToDFA nfa) (generateAlphabeticStateName sets.length) p
        cs).accepted = false := by
  have hdead : generateAlphabeticStateName sets.length ∉
      (convertNFAToDFA nfa).finalStates := by
    intro hc
    have := ((convertNFAToDFA_final_iff nfa hty hg hids sets.length).mp hc).1
    omega
  have hloop := convertNFAToDFA_trans_class nfa hty hg hr
  intro cs
  induction cs with
  | nil =>
    intro p
    rw [dfaWalk_nil]
    show decide _ = false
    exact decide_eq_false hdead
  | cons c cs ih =>
    intro p
    rcases hf : (convertNFAToDFA nfa).transitions.find?
        (fun t => t.«from» == generateAlphabeticStateName sets.length &&
          t.symbol == charSym c) with _ | t
    · rw [dfaWalk_cons_none hf]
    · have hmem := List.mem_of_find?_eq_some hf
      have hpred := List.find?_some hf
      simp only [Bool.and_eq_true, beq_iff_eq] at hpred
      obtain ⟨i', sym', hfrom, _, _, hcase⟩ := hloop t hmem
      have hieq : i' = sets.length := by
        apply generateAlphabeticStateName_inj
        rw [← hfrom]
        exact hpred.1
      have hto : t.«to» = generateAlphabeticStateName sets.length := by
        rcases hcase with ⟨hi, _⟩ | ⟨hi, _⟩ | ⟨_, hto⟩
        · exact absurd hieq (by omega)
        · exact absurd hieq (by omega)
        · exact hto
      rw [dfaWalk_cons_found hf, hto]
      exact ih _

/-- The step-by-step simulation between the NFA walk and the converted
DFA's walk: when the current NFA state set is (as a set) the `i`-th
discovered set, both walks accept the remaining input equally. -/
theorem subset_walk_sim (nfa : Automaton) (hty : ¬ nfa.type = .DFA)
    (sets : List (List String))
    (hg : SubsetGhost nfa sets sets.length (subsetFinal nfa))
    (hr : SubsetRecords nfa (alphabetOf nfa.transitions) sets
      (fun i _ => i < sets.length)
      (subsetFinal nfa).dfaTransitions (subsetFinal nfa).missing)
    (hids : ∀ x ∈ subsetUniv nfa, ¬ x = "" ∧ ',' ∉ x.data) :
    ∀ (cs : List Char), (∀ c ∈ cs, isEpsilon (charSym c) = false) →
    ∀ (i : Nat) (cur p₁ p₂ : List String),
      i < sets.length → cur.Nodup →
      (∀ x, x ∈ cur ↔ x ∈ sets.getD i []) →
      (nfaWalk nfa cur p₁ cs).accepted =
        (dfaWalk (convertNFAToDFA nfa) (generateAlphabeticStateName i) p₂
          cs).accepted := by
  have hfun := convertNFAToDFA_key_functional nfa hty hg hr
  have hclass := convertNFAToDFA_trans_class nfa hty hg hr
  have hmemT := convertNFAToDFA_mem_trans nfa hty
  intro cs
  induction cs with
  | nil =>
    intro _ i cur p₁ p₂ hi hnd hinv
    rw [nfaWalk_nil, dfaWalk_nil]
    show cur.any (fun st => decide (st ∈ nfa.finalStates)) =
      decide (generateAlphabeticStateName i ∈ (convertNFAToDFA nfa).finalStates)
    by_cases hf : ∃ x ∈ cur, x ∈ nfa.finalStates
    · obtain ⟨x, hx, hxf⟩ := hf
      rw [List.any_eq_true.mpr ⟨x, hx, decide_eq_true hxf⟩,
        decide_eq_true ((convertNFAToDFA_final_iff nfa hty hg hids i).mpr
          ⟨hi, x, (hinv x).mp hx, hxf⟩)]
    · have h1 : cur.any (fun st => decide (st ∈ nfa.finalStates)) = false := by
        rw [List.any_eq_false]
        intro x hx
        simp only [decide_eq_true_eq]
        exact fun hxf => hf ⟨x, hx, hxf⟩
      have h2 : generateAlphabeticStateName i ∉ (convertNFAToDFA nfa).finalStates := by
        intro hc
        obtain ⟨_, x, hx, hxf⟩ := (convertNFAToDFA_final_iff nfa hty hg hids i).mp hc
        exact hf ⟨x, (hinv x).mpr hx, hxf⟩
      rw [h1, decide_eq_false h2]
  | cons c cs ih =>
    intro hcs i cur p₁ p₂ hi hnd hinv
    have hε : isEpsilon (charSym c) = false := hcs c (by simp)
    have hcs' : ∀ c' ∈ cs, isEpsilon (charSym c') = false :=
      fun c' h => hcs c' (by simp [h])
    have hstep : ∀ x, x ∈ stepDests nfa cur (charSym c) ↔
        x ∈ stepDests nfa (sets.getD i []) (charSym c) :=
      fun x => stepDests_congr hinv (charSym c) x
    by_cases hal : charSym c ∈ alphabetOf nfa.transitions
    · by_cases hD : stepDests nfa (sets.getD i []) (charSym c) = []
      · have hDcur : stepDests nfa cur (charSym c) = [] := by
          rw [List.eq_nil_iff_forall_not_mem]
          intro x hx
          have hmm := (hstep x).mp hx
          rw [hD] at hmm
          exact List.not_mem_nil x hmm
        rw [nfaWalk_cons, if_pos (by rw [hDcur]; rfl)]
        have hmm : (generateAlphabeticStateName i, charSym c) ∈
            (subsetFinal nfa).missing :=
          (hr.2.1 _).mpr ⟨i, charSym c, hi, hal, hi, hD, rfl⟩
        have htr0 : (⟨generateAlphabeticStateName i,
            generateAlphabeticStateName (subsetFinal nfa).stateCounter,
            charSym c⟩ : Transition) ∈ (convertNFAToDFA nfa).transitions :=
          (hmemT _).mpr (Or.inr (Or.inl ⟨_, hmm, rfl⟩))
        obtain ⟨t, hfind⟩ : ∃ t, (convertNFAToDFA nfa).transitions.find?
            (fun u => u.«from» == generateAlphabeticStateName i &&
              u.symbol == charSym c) = some t :=
          Option.isSome_iff_exists.mp (List.find?_isSome.mpr ⟨_, htr0, by simp⟩)
        have hmemt := List.mem_of_find?_eq_some hfind
        have hpred := List.find?_some hfind
        simp only [Bool.and_eq_true, beq_iff_eq] at hpred
        have hto : t.«to» =
            generateAlphabeticStateName (subsetFinal nfa).stateCounter :=
          hfun t hmemt _ htr0 (by unfold pairKey; rw [hpred.1, hpred.2])
        rw [dfaWalk_cons_found hfind, hto, hg.hcount]
        exact (dfaWalk_dead nfa hty hg hr hids cs _).symm
      · have hkeymem := hr.2.2 i (charSym c) hi hal hi hD
        obtain ⟨S, hS', hkeq⟩ := List.mem_map.mp hkeymem
        obtain ⟨j, hj, hSj⟩ := List.mem_iff_getElem.mp hS'
        have hkeq' : setToKey (sets.getD j []) =
            setToKey (epsilonClosure nfa
              (stepDests nfa (sets.getD i []) (charSym c))) := by
          rw [List.getD_eq_getElem _ _ hj, hSj, hkeq]
        have htr0 : (⟨generateAlphabeticStateName i, generateAlphabeticStateName j,
            charSym c⟩ : Transition) ∈ (convertNFAToDFA nfa).transitions :=
          (hmemT _).mpr (Or.inl ((hr.1 _).mpr
            ⟨i, charSym c, j, hi, hal, hi, hj, hD, hkeq', rfl⟩))
        obtain ⟨t, hfind⟩ : ∃ t, (convertNFAToDFA nfa).transitions.find?
            (fun u => u.«from» == generateAlphabeticStateName i &&
              u.symbol == charSym c) = some t :=
          Option.isSome_iff_exists.mp (List.find?_isSome.mpr ⟨_, htr0, by simp⟩)
        have hmemt := List.mem_of_find?_eq_some hfind
        have hpred := List.find?_some hfind
        simp only [Bool.and_eq_true, beq_iff_eq] at hpred
        have hto : t.«to» = generateAlphabeticStateName j :=
          hfun t hmemt _ htr0 (by unfold pairKey; rw [hpred.1, hpred.2])
        have hnecur : ¬ (stepDests nfa cur (charSym c)).length = 0 := by
          intro hlen
          have hnil := List.length_eq_zero.mp hlen
          rcases hmm2 : stepDests nfa (sets.getD i []) (charSym c) with _ | ⟨y, ys⟩
          · exact hD hmm2
          · have hy : y ∈ stepDests nfa cur (charSym c) :=
              (hstep y).mpr (by rw [hmm2]; simp)
            rw [hnil] at hy
            exact List.not_mem_nil y hy
        rw [nfaWalk_cons, if_neg hnecur, dfaWalk_cons_found hfind, hto]
        have hgoodj := hg.hgood (sets.getD j []) (by
          rw [List.getD_eq_getElem _ _ hj]
          exact List.getElem_mem hj)
        have hcl0univ : ∀ x ∈ epsilonClosure nfa
            (stepDests nfa (sets.getD i []) (charSym c)), x ∈ subsetUniv nfa := by
          intro x hx
          rcases epsilonClosure_src (stepDests_nodup _ _ _) hx with hxs |
              ⟨t', ht', hto'⟩
          · obtain ⟨st, _, t', ht', _, _, hto'⟩ := mem_stepDests.mp hxs
            exact List.mem_append_right _ (List.mem_map.mpr ⟨t', ht', hto'⟩)
          · exact List.mem_append_right _ (List.mem_map.mpr ⟨t', ht', hto'⟩)
        have hperm : (sets.getD j []).Perm
            (epsilonClosure nfa (stepDests nfa (sets.getD i []) (charSym c))) :=
          setToKey_inj
            (fun s hs => (hids s (hgoodj.2 s hs)).1)
            (fun s hs => (hids s (hgoodj.2 s hs)).2)
            (fun s hs => (hids s (hcl0univ s hs)).1)
            (fun s hs => (hids s (hcl0univ s hs)).2)
            hkeq'
        have hinvj : ∀ x, x ∈ epsilonClosure nfa (stepDests nfa cur (charSym c)) ↔
            x ∈ sets.getD j [] := by
          intro x
          rw [epsilonClosure_congr (stepDests_nodup _ _ _) (stepDests_nodup _ _ _)
            hstep x]
          exact (hperm.mem_iff).symm
        exact ih hcs' j _ _ _ hj
          (epsilonClosure_nodup (stepDests_nodup _ _ _)) hinvj
    · have hDcur : stepDests nfa cur (charSym c) = [] := by
        rw [List.eq_nil_iff_forall_not_mem]
        intro x hx
        obtain ⟨st, _, t, ht, _, hsymeq, _⟩ := mem_stepDests.mp hx
        exact hal (mem_alphabetOf.mpr ⟨⟨t, ht, hsymeq⟩, hε⟩)
      rw [nfaWalk_cons, if_pos (by rw [hDcur]; rfl)]
      have hfind : (convertNFAToDFA nfa).transitions.find?
          (fun t => t.«from» == generateAlphabeticStateName i &&
            t.symbol == charSym c) = none := by
        rw [List.find?_eq_none]
        intro t ht hpred
        simp only [Bool.and_eq_true, beq_iff_eq] at hpred
        obtain ⟨i', sym', _, hsymeq, hsymal, _⟩ := hclass t ht
        apply hal
        rw [← hpred.2, hsymeq]
        exact hsymal
      rw [dfaWalk_cons_none hfind]

/-! ## Reachability toolkit -/

/-- One pass of the successor-collecting fold of `getReachableStates`:
the reach and push lists grow by the same batch of previously unseen
successors of `cur`. -/
theorem reach_fold_spec (cur : String) (l : List Transition) :
    ∀ reach pushes : List String,
      ∃ news : List String,
        (l.foldl (fun (p : List String × List String) t =>
          if t.«from» = cur ∧ t.«to» ∉ p.1 then (p.1 ++ [t.«to»], p.2 ++ [t.«to»])
          else p) (reach, pushes)).1 = reach ++ news ∧
        (l.foldl (fun (p : List String × List String) t =>
          if t.«from» = cur ∧ t.«to» ∉ p.1 then (p.1 ++ [t.«to»], p.2 ++ [t.«to»])
          else p) (reach, pushes)).2 = pushes ++ news ∧
        news.Nodup ∧ (∀ v ∈ news, v ∉ reach) ∧
        (∀ v ∈ news, ∃ t ∈ l, t.«from» = cur ∧ t.«to» = v) ∧
        (∀ t ∈ l, t.«from» = cur → t.«to» ∈ reach ++ news) := by
  induction l with
  | nil =>
    intro reach pushes
    exact ⟨[], by simp, by simp, List.nodup_nil, by simp, by simp, by simp⟩
  | cons t l ih =>
    intro reach pushes
    rw [List.foldl_cons]
    by_cases hfc : t.«from» = cur
    · by_cases hmem : t.«to» ∈ reach
      · rw [if_neg (fun hc => hc.2 hmem)]
        obtain ⟨news, h1, h2, h3, h4, h5, h6⟩ := ih reach pushes
        refine ⟨news, h1, h2, h3, h4, ?_, ?_⟩
        · intro v hv
          obtain ⟨u, hu, huv⟩ := h5 v hv
          exact ⟨u, List.mem_cons_of_mem t hu, huv⟩
        · intro u hu huc
          rcases List.mem_cons.mp hu with rfl | hu'
          · exact List.mem_append_left _ hmem
          · exact h6 u hu' huc
      · rw [if_pos ⟨hfc, hmem⟩]
        obtain ⟨news, h1, h2, h3, h4, h5, h6⟩ :=
          ih (reach ++ [t.«to»]) (pushes ++ [t.«to»])
        refine ⟨t.«to» :: news, ?_, ?_, ?_, ?_, ?_, ?_⟩
        · rw [h1]; simp
        · rw [h2]; simp
        · rw [List.nodup_cons]
          exact ⟨fun hc => (h4 _ hc) (by simp), h3⟩
        · intro v hv
          rcases List.mem_cons.mp hv with rfl | hv'
          · exact hmem
          · exact fun hc => (h4 v hv') (List.mem_append_left _ hc)
        · intro v hv
          rcases List.mem_cons.mp hv with rfl | hv'
          · exact ⟨t, by simp, hfc, rfl⟩
          · obtain ⟨u, hu, huf, huv⟩ := h5 v hv'
            exact ⟨u, List.mem_cons_of_mem t hu, huf, huv⟩
        · intro u hu huc
          rcases List.mem_cons.mp hu with rfl | hu'
          · simp
          · have := h6 u hu' huc
            simpa [List.append_assoc] using this
    · rw [if_neg (fun hc => hfc hc.1)]
      obtain ⟨news, h1, h2, h3, h4, h5, h6⟩ := ih reach pushes
      refine ⟨news, h1, h2, h3, h4, ?_, ?_⟩
      · intro v hv
        obtain ⟨u, hu, huv⟩ := h5 v hv
        exact ⟨u, List.mem_cons_of_mem t hu, huv⟩
      · intro u hu huc
        rcases List.mem_cons.mp hu with rfl | hu'
        · exact absurd huc hfc
        · exact h6 u hu' huc

/-- Invariant-carrying correctness of the reachability worklist,
mirroring `epsClosureAux_spec`. -/
theorem reachAux_spec (a : Automaton) (P : String → Prop)
    (hP : ∀ x y, P x → StepTo a x y → P y) :
    ∀ (fuel : Nat) (reach stack : List String),
      reach.Nodup →
      (∀ x ∈ stack, x ∈ reach) →
      (∀ x ∈ reach, x ∈ stack ∨ ∀ y, StepTo a x y → y ∈ reach) →
      (∀ x ∈ reach, P x) →
      stack.length + ((a.transitions.map (fun t => t.«to»)).filter
        (fun v => decide (v ∉ reach))).length < fuel →
      (reachAux a fuel reach stack).Nodup ∧
      (∀ x ∈ reach, x ∈ reachAux a fuel reach stack) ∧
      (∀ x ∈ reachAux a fuel reach stack, P x) ∧
      (∀ x ∈ reachAux a fuel reach stack, ∀ y, StepTo a x y →
        y ∈ reachAux a fuel reach stack) := by
  intro fuel
  induction fuel with
  | zero => intro reach stack _ _ _ _ hlt; omega
  | succ fuel ih =>
    intro reach stack hnd hstk hinv bP hlt
    match stack with
    | [] =>
      refine ⟨hnd, fun x hx => hx, bP, ?_⟩
      intro x hx y hstep
      rcases hinv x hx with hfalse | hclosed
      · exact absurd hfalse (List.not_mem_nil x)
      · exact hclosed y hstep
    | st :: stack' =>
      obtain ⟨news, hc1, hc2, hc3, hc4, hc5, hc6⟩ :=
        reach_fold_spec st a.transitions reach []
      have hres : reachAux a (fuel + 1) reach (st :: stack') =
          reachAux a fuel (reach ++ news) (stack' ++ news) := by
        rw [reachAux]
        rw [hc1, hc2]
        simp
      rw [hres]
      have hnewsP : ∀ v ∈ news, P v := by
        intro v hv
        obtain ⟨t, ht, htf, htv⟩ := hc5 v hv
        exact hP st v (bP st (hstk st (by simp))) ⟨t, ht, htf, htv⟩
      have hnd' : (reach ++ news).Nodup := by
        rw [List.nodup_append]
        exact ⟨hnd, hc3, fun x hx hxn => hc4 x hxn hx⟩
      have hstk' : ∀ x ∈ stack' ++ news, x ∈ reach ++ news := by
        intro x hx
        rcases List.mem_append.mp hx with hx' | hx'
        · exact List.mem_append_left _ (hstk x (by simp [hx']))
        · exact List.mem_append_right _ hx'
      have hinv' : ∀ x ∈ reach ++ news,
          x ∈ stack' ++ news ∨ ∀ y, StepTo a x y → y ∈ reach ++ news := by
        intro x hx
        rcases List.mem_append.mp hx with hx' | hx'
        · rcases hinv x hx' with hmem | hclosed
          · rcases List.mem_cons.mp hmem with rfl | hmem'
            · right
              intro y hstep
              obtain ⟨t, ht, htf, htv⟩ := hstep
              rw [← htv]
              exact hc6 t ht htf
            · exact Or.inl (List.mem_append_left _ hmem')
          · exact Or.inr (fun y hy => List.mem_append_left _ (hclosed y hy))
        · exact Or.inl (List.mem_append_right _ hx')
      have hP' : ∀ x ∈ reach ++ news, P x := by
        intro x hx
        rcases List.mem_append.mp hx with hx' | hx'
        · exact bP x hx'
        · exact hnewsP x hx'
      have hmeas : (stack' ++ news).length +
          ((a.transitions.map (fun t => t.«to»)).filter
            (fun v => decide (v ∉ reach ++ news))).length < fuel := by
        set L := a.transitions.map (fun t => t.«to») with hL
        have hsplitc := countP_split (fun v => decide (v ∉ reach))
          (fun v => decide (v ∈ news)) L
        have hgeA : news.length ≤
            L.countP (fun v => decide (v ∉ reach) && decide (v ∈ news)) := by
          rw [List.countP_eq_length_filter]
          apply nodup_length_le hc3
          intro v hv
          rw [List.mem_filter]
          refine ⟨?_, by simp [hc4 v hv, hv]⟩
          obtain ⟨t, ht, _, htv⟩ := hc5 v hv
          rw [hL]
          exact List.mem_map.mpr ⟨t, ht, htv⟩
        have hBeq : (L.filter (fun v => decide (v ∉ reach ++ news))).length =
            L.countP (fun v => decide (v ∉ reach) && !(decide (v ∈ news))) := by
          rw [← List.countP_eq_length_filter]
          apply List.countP_congr
          intro v _
          by_cases h1 : v ∈ reach <;> by_cases h2 : v ∈ news <;>
            simp [h1, h2]
        rw [List.length_append, hBeq]
        rw [← List.countP_eq_length_filter] at hlt
        simp only [List.length_cons] at hlt
        omega
      obtain ⟨r1, r2, r3, r4⟩ := ih (reach ++ news) (stack' ++ news)
        hnd' hstk' hinv' hP' hmeas
      exact ⟨r1, fun x hx => r2 x (List.mem_append_left _ hx), r3, r4⟩

/-- The reachable-state set of an automaton with a truthy start state:
duplicate-free, holds the start state, consists of the start state and
transition targets only, and is closed under transition steps. -/
theorem getReachableStates_spec (a : Automaton) (s : String)
    (hs : a.startState = some s) (hsne : s ≠ "") :
    (getReachableStates a).Nodup ∧
    s ∈ getReachableStates a ∧
    (∀ x ∈ getReachableStates a, x = s ∨ ∃ t ∈ a.transitions, t.«to» = x) ∧
    (∀ x ∈ getReachableStates a, ∀ y, StepTo a x y →
      y ∈ getReachableStates a) := by
  have heq : getReachableStates a =
      reachAux a (1 + a.transitions.length + 1) [s] [s] := by
    unfold getReachableStates
    rw [hs]
    show (if s = "" then [] else reachAux a (1 + a.transitions.length + 1) [s] [s])
      = _
    rw [if_neg hsne]
  have hmeas : ([s] : List String).length +
      ((a.transitions.map (fun t => t.«to»)).filter
        (fun v => decide (v ∉ ([s] : List String)))).length <
      1 + a.transitions.length + 1 := by
    have h1 := List.length_filter_le (fun v => decide (v ∉ ([s] : List String)))
      (a.transitions.map (fun t => t.«to»))
    rw [List.length_map] at h1
    simp only [List.length_singleton]
    omega
  obtain ⟨r1, r2, r3, r4⟩ := reachAux_spec a
    (fun x => x = s ∨ ∃ t ∈ a.transitions, t.«to» = x)
    (fun x y _ hstep => by
      obtain ⟨t, ht, _, htv⟩ := hstep
      exact Or.inr ⟨t, ht, htv⟩)
    (1 + a.transitions.length + 1) [s] [s]
    (by simp) (fun x hx => hx) (fun x hx => Or.inl hx)
    (fun x hx => by
      rw [List.mem_singleton] at hx
      exact Or.inl hx)
    hmeas
  rw [heq]
  exact ⟨r1, r2 s (by simp), r3, r4⟩

/-! ## Partition-refinement toolkit -/

theorem length_le_flatten_length {parts : List (List String)}
    (h : ∀ B ∈ parts, B ≠ []) : parts.length ≤ parts.flatten.length := by
  induction parts with
  | nil => simp
  | cons B rest ih =>
    rw [List.flatten_cons, List.length_append, List.length_cons]
    have hB : 0 < B.length := List.length_pos.mpr (h B (by simp))
    have := ih (fun C hC => h C (by simp [hC]))
    omega

theorem mem_of_length_le_one {α : Type} {l : List α} (h : l.length ≤ 1)
    {x y : α} (hx : x ∈ l) (hy : y ∈ l) : x = y := by
  match l with
  | [] => exact absurd hx (List.not_mem_nil x)
  | [z] =>
    rw [List.mem_singleton] at hx hy
    rw [hx, hy]
  | z₁ :: z₂ :: rest => simp at h

theorem groupInsert_flatten (k : Int) (v : String) :
    ∀ m : List (Int × List String),
      ((groupInsert m k v).map (fun e => e.2)).flatten.Perm
        (v :: (m.map (fun e => e.2)).flatten) := by
  intro m
  induction m with
  | nil => simp [groupInsert]
  | cons e rest ih =>
    obtain ⟨k', vs⟩ := e
    unfold groupInsert
    by_cases h : k' = k
    · rw [if_pos h]
      simp only [List.map_cons, List.flatten_cons]
      exact (List.perm_append_singleton v vs).append_right _
    · rw [if_neg h]
      simp only [List.map_cons, List.flatten_cons]
      exact (ih.append_left vs).trans List.perm_middle

theorem fold_groupInsert_flatten (f : String → Int) :
    ∀ (l : List String) (m : List (Int × List String)),
      ((l.foldl (fun m st => groupInsert m (f st) st) m).map
        (fun e => e.2)).flatten.Perm ((m.map (fun e => e.2)).flatten ++ l) := by
  intro l
  induction l with
  | nil => intro m; simp
  | cons x xs ih =>
    intro m
    rw [List.foldl_cons]
    exact (ih _).trans (((groupInsert_flatten (f x) x m).append_right xs).trans
      List.perm_middle.symm)

theorem splitPartitionHopcroft_small (a : Automaton) (p : List String)
    (allP : List (List String)) (sym : String) (h : p.length ≤ 1) :
    splitPartitionHopcroft a p allP sym = [p] := by
  unfold splitPartitionHopcroft
  rw [if_pos h]

theorem splitPartitionHopcroft_flatten (a : Automaton) (p : List String)
    (allP : List (List String)) (sym : String) :
    (splitPartitionHopcroft a p allP sym).flatten.Perm p := by
  unfold splitPartitionHopcroft
  by_cases h : p.length ≤ 1
  · rw [if_pos h]
    simp
  · rw [if_neg h]
    have := fold_groupInsert_flatten
      (fun st => targetPartitionIndex a allP st sym) p []
    simpa using this

theorem groupInsert_nonempty (k : Int) (v : String) :
    ∀ m : List (Int × List String), (∀ e ∈ m, e.2 ≠ []) →
      ∀ e ∈ groupInsert m k v, e.2 ≠ [] := by
  intro m
  induction m with
  | nil =>
    intro _ e he
    rw [groupInsert] at he
    rw [List.mem_singleton] at he
    subst he
    simp
  | cons e₀ rest ih =>
    intro h e he
    obtain ⟨k', vs⟩ := e₀
    unfold groupInsert at he
    by_cases hk : k' = k
    · rw [if_pos hk] at he
      rcases List.mem_cons.mp he with rfl | he'
      · simp
      · exact h e (by simp [he'])
    · rw [if_neg hk] at he
      rcases List.mem_cons.mp he with rfl | he'
      · exact h (k', vs) (by simp)
      · exact ih (fun u hu => h u (by simp [hu])) e he'

theorem fold_groupInsert_nonempty (f : String → Int) :
    ∀ (l : List String) (m : List (Int × List String)),
      (∀ e ∈ m, e.2 ≠ []) →
      ∀ e ∈ l.foldl (fun m st => groupInsert m (f st) st) m, e.2 ≠ [] := by
  intro l
  induction l with
  | nil => intro m h; exact h
  | cons x xs ih =>
    intro m h
    rw [List.foldl_cons]
    exact ih _ (groupInsert_nonempty (f x) x m h)

theorem splitPartitionHopcroft_nonempty (a : Automaton) (p : List String)
    (allP : List (List String)) (sym : String) (hp : p ≠ []) :
    ∀ B ∈ splitPartitionHopcroft a p allP sym, B ≠ [] := by
  unfold splitPartitionHopcroft
  by_cases h : p.length ≤ 1
  · rw [if_pos h]
    intro B hB
    rw [List.mem_singleton] at hB
    subst hB
    exact hp
  · rw [if_neg h]
    intro B hB
    obtain ⟨e, he, hBe⟩ := List.mem_map.mp hB
    rw [← hBe]
    exact fold_groupInsert_nonempty _ p [] (by simp) e he

theorem groupInsert_key_mem (k : Int) (v : String) :
    ∀ m : List (Int × List String), k ∈ (groupInsert m k v).map (fun e => e.1) := by
  intro m
  induction m with
  | nil => simp [groupInsert]
  | cons e rest ih =>
    obtain ⟨k', vs⟩ := e
    unfold groupInsert
    by_cases h : k' = k
    · rw [if_pos h]
      simp [h]
    · rw [if_neg h]
      simp only [List.map_cons, List.mem_cons]
      exact Or.inr ih

theorem groupInsert_keys_mono (k : Int) (v : String) {k' : Int} :
    ∀ m : List (Int × List String), k' ∈ m.map (fun e => e.1) →
      k' ∈ (groupInsert m k v).map (fun e => e.1) := by
  intro m
  induction m with
  | nil => intro h; simp at h
  | cons e rest ih =>
    obtain ⟨k₀, vs⟩ := e
    intro h
    unfold groupInsert
    by_cases hk : k₀ = k
    · rw [if_pos hk]
      simpa using h
    · rw [if_neg hk]
      simp only [List.map_cons, List.mem_cons] at h ⊢
      rcases h with h | h
      · exact Or.inl h
      · exact Or.inr (ih h)

theorem fold_groupInsert_keys_mono (f : String → Int) {k' : Int} :
    ∀ (l : List String) (m : List (Int × List String)),
      k' ∈ m.map (fun e => e.1) →
      k' ∈ ((l.foldl (fun m st => groupInsert m (f st) st) m).map (fun e => e.1)) := by
  intro l
  induction l with
  | nil => intro m h; exact h
  | cons x xs ih =>
    intro m h
    rw [List.foldl_cons]
    exact ih _ (groupInsert_keys_mono (f x) x m h)

theorem fold_groupInsert_key_mem (f : String → Int) :
    ∀ (l : List String) (m : List (Int × List String)) (st : String), st ∈ l →
      f st ∈ ((l.foldl (fun m st => groupInsert m (f st) st) m).map (fun e => e.1)) := by
  intro l
  induction l with
  | nil => intro m st h; exact absurd h (List.not_mem_nil st)
  | cons x xs ih =>
    intro m st h
    rw [List.foldl_cons]
    rcases List.mem_cons.mp h with rfl | h'
    · exact fold_groupInsert_keys_mono f xs _ (groupInsert_key_mem (f st) st m)
    · exact ih _ st h'

/-- A partition whose Hopcroft split is trivial has a constant target
index over its members. -/
theorem splitPartitionHopcroft_stable_index (a : Automaton) (p : List String)
    (allP : List (List String)) (sym : String)
    (h : ¬ 1 < (splitPartitionHopcroft a p allP sym).length) :
    ∀ s₁ ∈ p, ∀ s₂ ∈ p,
      targetPartitionIndex a allP s₁ sym = targetPartitionIndex a allP s₂ sym := by
  intro s₁ h₁ s₂ h₂
  by_cases hsmall : p.length ≤ 1
  · have := mem_of_length_le_one hsmall h₁ h₂
    rw [this]
  · rw [splitPartitionHopcroft] at h
    rw [if_neg hsmall] at h
    rw [List.length_map] at h
    have hk₁ : targetPartitionIndex a allP s₁ sym ∈ (List.map (fun e => e.1)
        (p.foldl (fun m st => groupInsert m (targetPartitionIndex a allP st sym) st)
          [])) :=
      fold_groupInsert_key_mem (fun st => targetPartitionIndex a allP st sym)
        p [] s₁ h₁
    have hk₂ : targetPartitionIndex a allP s₂ sym ∈ (List.map (fun e => e.1)
        (p.foldl (fun m st => groupInsert m (targetPartitionIndex a allP st sym) st)
          [])) :=
      fold_groupInsert_key_mem (fun st => targetPartitionIndex a allP st sym)
        p [] s₂ h₂
    exact mem_of_length_le_one (by
      rw [List.length_map]
      omega) hk₁ hk₂

theorem trySymbols_none_stable (a : Automaton) (p : List String)
    (allP : List (List String)) :
    ∀ (syms : List String) (details details' : List SplitDetail),
      trySymbols a p allP syms details = (details', none) →
      ∀ sym ∈ syms, ¬ 1 < (splitPartitionHopcroft a p allP sym).length := by
  intro syms
  induction syms with
  | nil => intro details details' _ sym h; exact absurd h (List.not_mem_nil sym)
  | cons sym₀ rest ih =>
    intro details details' h sym hmem
    rw [trySymbols] at h
    by_cases hs : 1 < (splitPartitionHopcroft a p allP sym₀).length
    · rw [if_pos hs] at h
      have := congrArg Prod.snd h
      simp at this
    · rw [if_neg hs] at h
      rcases List.mem_cons.mp hmem with rfl | hmem'
      · exact hs
      · exact ih _ _ h sym hmem'

theorem trySymbols_some_eq (a : Automaton) (p : List String)
    (allP : List (List String)) :
    ∀ (syms : List String) (details details' : List SplitDetail)
      (subs : List (List String)),
      trySymbols a p allP syms details = (details', some subs) →
      (∃ sym ∈ syms, subs = splitPartitionHopcroft a p allP sym) ∧
        1 < subs.length := by
  intro syms
  induction syms with
  | nil =>
    intro details details' subs h
    rw [trySymbols] at h
    have := congrArg Prod.snd h
    simp at this
  | cons sym₀ rest ih =>
    intro details details' subs h
    rw [trySymbols] at h
    by_cases hs : 1 < (splitPartitionHopcroft a p allP sym₀).length
    · rw [if_pos hs] at h
      have hsnd := congrArg Prod.snd h
      simp only at hsnd
      have hsub : splitPartitionHopcroft a p allP sym₀ = subs := by
        injection hsnd
      refine ⟨⟨sym₀, by simp, hsub.symm⟩, ?_⟩
      rw [← hsub]
      exact hs
    · rw [if_neg hs] at h
      obtain ⟨⟨sym, hmem, hsub⟩, hlen⟩ := ih _ _ _ h
      exact ⟨⟨sym, by simp [hmem], hsub⟩, hlen⟩

theorem scanPartitions_nil_eq (a : Automaton) (alphabet : List String)
    (pre : List (List String)) (steps : List PartitioningStep) (ctr : Nat) :
    scanPartitions a alphabet pre [] steps ctr = (pre, steps, ctr, false) := rfl

/-- The omnibus invariant of one scan pass: the flattened partition
list is preserved up to permutation, blocks only refine, block
nonemptiness is preserved, the block count never decreases, a reported
change strictly increases it, and a change-free pass leaves the
partitions untouched and certifies that no block splits. -/
theorem scanPartitions_spec (a : Automaton) (alphabet : List String) :
    ∀ (rest pre : List (List String)) (steps : List PartitioningStep) (ctr : Nat)
      (parts' : List (List String)) (steps' : List PartitioningStep) (ctr' : Nat)
      (changed : Bool),
      scanPartitions a alphabet pre rest steps ctr =
        (parts', steps', ctr', changed) →
      parts'.flatten.Perm ((pre ++ rest).flatten) ∧
      (∀ B ∈ parts', ∃ B' ∈ pre ++ rest, ∀ x ∈ B, x ∈ B') ∧
      ((∀ B ∈ pre ++ rest, B ≠ []) → ∀ B ∈ parts', B ≠ []) ∧
      (pre ++ rest).length ≤ parts'.length ∧
      (changed = true → (pre ++ rest).length < parts'.length) ∧
      (changed = false → parts' = pre ++ rest ∧
        ∀ p ∈ rest, ∀ sym ∈ alphabet,
          ¬ 1 < (splitPartitionHopcroft a p (pre ++ rest) sym).length) := by
  intro rest
  induction rest with
  | nil =>
    intro pre steps ctr parts' steps' ctr' changed h
    rw [scanPartitions_nil_eq] at h
    simp only [Prod.mk.injEq] at h
    obtain ⟨rfl, _, _, rfl⟩ := h
    refine ⟨by simp, fun B hB => ⟨B, by simpa using hB, fun x hx => hx⟩,
      fun hne B hB => hne B (by simpa using hB), by simp, ?_, ?_⟩
    · intro hc
      exact absurd hc (by simp)
    · intro _
      refine ⟨by simp, ?_⟩
      intro p hp
      exact absurd hp (List.not_mem_nil p)
  | cons p rest ih =>
    intro pre steps ctr parts' steps' ctr' changed h
    have hpr : (pre ++ [p]) ++ rest = pre ++ p :: rest := by
      rw [List.append_assoc]
      rfl
    conv at h => lhs; rw [scanPartitions]
    by_cases hp : p.length ≤ 1
    · rw [if_pos hp] at h
      obtain ⟨c1, c2, c3, c4, c5, c6⟩ := ih (pre ++ [p]) _ _ _ _ _ _ h
      rw [hpr] at c1 c2 c3 c4 c5
      refine ⟨c1, c2, c3, c4, c5, ?_⟩
      intro hc
      obtain ⟨he, hstab⟩ := c6 hc
      rw [hpr] at he
      refine ⟨he, ?_⟩
      intro q hq sym _
      rcases List.mem_cons.mp hq with rfl | hq'
      · rw [splitPartitionHopcroft_small a q (pre ++ q :: rest) sym hp]
        simp
      · have := hstab q hq' sym (by assumption)
        rwa [hpr] at this
    · rw [if_neg hp] at h
      rcases hts : trySymbols a p (pre ++ p :: rest) alphabet [] with ⟨details, osubs⟩
      rw [hts] at h
      rcases osubs with _ | subs
      · obtain ⟨c1, c2, c3, c4, c5, c6⟩ := ih (pre ++ [p]) _ _ _ _ _ _ h
        rw [hpr] at c1 c2 c3 c4 c5
        refine ⟨c1, c2, c3, c4, c5, ?_⟩
        intro hc
        obtain ⟨he, hstab⟩ := c6 hc
        rw [hpr] at he
        refine ⟨he, ?_⟩
        intro q hq sym hsym
        rcases List.mem_cons.mp hq with rfl | hq'
        · exact trySymbols_none_stable a q (pre ++ q :: rest) alphabet _ _ hts
            sym hsym
        · have := hstab q hq' sym hsym
          rwa [hpr] at this
      · simp only [Prod.mk.injEq] at h
        obtain ⟨rfl, _, _, rfl⟩ := h
        obtain ⟨⟨sym, _, hsub⟩, hlen⟩ := trySymbols_some_eq a p _ _ _ _ _ hts
        have hsubperm : subs.flatten.Perm p := by
          rw [hsub]
          exact splitPartitionHopcroft_flatten a p _ sym
        refine ⟨?_, ?_, ?_, ?_, ?_, ?_⟩
        · rw [List.flatten_append, List.flatten_append, List.flatten_append,
            List.flatten_cons, List.append_assoc]
          exact ((hsubperm.append_right rest.flatten).append_left
            pre.flatten)
        · intro B hB
          rcases List.mem_append.mp hB with hB' | hB'
          rcases List.mem_append.mp hB' with hB'' | hB''
          · exact ⟨B, List.mem_append_left _ hB'', fun x hx => hx⟩
          · refine ⟨p, by simp, fun x hx => ?_⟩
            exact hsubperm.mem_iff.mp (List.mem_flatten.mpr ⟨B, hB'', hx⟩)
          · exact ⟨B, by simp [hB'], fun x hx => hx⟩
        · intro hne B hB
          rcases List.mem_append.mp hB with hB' | hB'
          rcases List.mem_append.mp hB' with hB'' | hB''
          · exact hne B (List.mem_append_left _ hB'')
          · rw [hsub] at hB''
            exact splitPartitionHopcroft_nonempty a p _ sym
              (hne p (by simp)) B hB''
          · exact hne B (by simp [hB'])
        · simp only [List.length_append, List.length_cons]
          omega
        · intro _
          simp only [List.length_append, List.length_cons]
          omega
        · intro hc
          exact absurd hc (by simp)

theorem refineLoop_succ_eq (a : Automaton) (alphabet : List String) (fuel : Nat)
    {parts parts' : List (List String)} {steps steps' : List PartitioningStep}
    {ctr ctr' : Nat} {changed : Bool}
    (h : scanPartitions a alphabet [] parts steps ctr =
      (parts', steps', ctr', changed)) :
    refineLoop a alphabet (fuel + 1) parts steps ctr =
      if changed then refineLoop a alphabet fuel parts' steps' ctr'
      else (parts', steps', ctr') := by
  conv_lhs => rw [refineLoop]
  rw [h]
  cases changed
  · rfl
  · rfl

/-- The refinement loop, run with fuel exceeding the state count:
the final partitions permute the initial ones when flattened, only
refine them, keep blocks nonempty, and are stable (no block splits
against the final partition list on any alphabet symbol). -/
theorem refineLoop_spec (a : Automaton) (alphabet : List String) :
    ∀ (fuel : Nat) (parts : List (List String)) (steps : List PartitioningStep)
      (ctr : Nat),
      (∀ B ∈ parts, B ≠ []) →
      parts.flatten.length < parts.length + fuel →
      (refineLoop a alphabet fuel parts steps ctr).1.flatten.Perm parts.flatten ∧
      (∀ B ∈ (refineLoop a alphabet fuel parts steps ctr).1,
        ∃ B' ∈ parts, ∀ x ∈ B, x ∈ B') ∧
      (∀ B ∈ (refineLoop a alphabet fuel parts steps ctr).1, B ≠ []) ∧
      (∀ p ∈ (refineLoop a alphabet fuel parts steps ctr).1,
        ∀ sym ∈ alphabet, ¬ 1 < (splitPartitionHopcroft a p
          (refineLoop a alphabet fuel parts steps ctr).1 sym).length) := by
  intro fuel
  induction fuel with
  | zero =>
    intro parts steps ctr hne hmeas
    have := length_le_flatten_length hne
    omega
  | succ fuel ih =>
    intro parts steps ctr hne hmeas
    rcases hscan : scanPartitions a alphabet [] parts steps ctr with
      ⟨parts', steps', ctr', changed⟩
    obtain ⟨c1, c2, c3, c4, c5, c6⟩ := scanPartitions_spec a alphabet parts [] _ _
      _ _ _ _ hscan
    simp only [List.nil_append] at c1 c2 c3 c4 c5 c6
    rw [refineLoop_succ_eq a alphabet fuel hscan]
    cases changed
    · rw [if_neg (by simp)]
      obtain ⟨hparts, hstab⟩ := c6 rfl
      subst hparts
      exact ⟨List.Perm.refl _, fun B hB => ⟨B, hB, fun x hx => hx⟩, hne, hstab⟩
    · rw [if_pos rfl]
      have hlt := c5 rfl
      have hne' := c3 hne
      have hflat : parts'.flatten.length = parts.flatten.length := c1.length_eq
      obtain ⟨r1, r2, r3, r4⟩ := ih parts' steps' ctr' hne' (by omega)
      refine ⟨r1.trans c1, ?_, r3, r4⟩
      intro B hB
      obtain ⟨B', hB', hsub⟩ := r2 B hB
      obtain ⟨B'', hB'', hsub'⟩ := c2 B' hB'
      exact ⟨B'', hB'', fun x hx => hsub' x (hsub x hx)⟩

/-! ## State-mapping toolkit -/

theorem msetStr_not_mem (v : String) {k : String} :
    ∀ m : List (String × String), k ∉ m.map Prod.fst →
      msetStr m k v = m ++ [(k, v)] := by
  intro m
  induction m with
  | nil => intro _; rfl
  | cons e rest ih =>
    intro h
    obtain ⟨k', v'⟩ := e
    simp only [List.map_cons, List.mem_cons] at h
    push_neg at h
    unfold msetStr
    rw [if_neg (fun hc => h.1 hc.symm)]
    rw [ih h.2]
    rfl

theorem foldl_msetStr_block (g : String) :
    ∀ (block : List String) (m : List (String × String)),
      (∀ s ∈ block, s ∉ m.map Prod.fst) → block.Nodup →
      block.foldl (fun m2 s => msetStr m2 s g) m =
        m ++ block.map (fun s => (s, g)) := by
  intro block
  induction block with
  | nil => intro m _ _; simp
  | cons x xs ih =>
    intro m hnm hnd
    rw [List.foldl_cons, msetStr_not_mem g m (hnm x (by simp))]
    rw [List.nodup_cons] at hnd
    rw [ih (m ++ [(x, g)]) ?_ hnd.2]
    · simp
    · intro s hs
      rw [List.map_append, List.mem_append]
      push_neg
      refine ⟨hnm s (by simp [hs]), ?_⟩
      simp only [List.map_cons, List.map_nil, List.mem_singleton]
      exact fun hc => hnd.1 (hc ▸ hs)

theorem foldl_stateMapping_eq :
    ∀ (parts : List (List String)) (n : Nat) (m : List (String × String)),
      (∀ x ∈ parts.flatten, x ∉ m.map Prod.fst) → parts.flatten.Nodup →
      (parts.enumFrom n).foldl (fun m e => e.2.foldl
        (fun m2 s => msetStr m2 s (generateAlphabeticStateName e.1)) m) m
      = m ++ ((parts.enumFrom n).map
          (fun e => e.2.map (fun s => (s, generateAlphabeticStateName e.1)))).flatten := by
  intro parts
  induction parts with
  | nil => intro n m _ _; simp
  | cons B rest ih =>
    intro n m hk hnd
    rw [List.flatten_cons, List.nodup_append] at hnd
    rw [List.enumFrom_cons, List.foldl_cons]
    have hB : B.foldl (fun m2 s => msetStr m2 s (generateAlphabeticStateName n)) m
        = m ++ B.map (fun s => (s, generateAlphabeticStateName n)) :=
      foldl_msetStr_block _ B m
        (fun s hs => hk s (by rw [List.flatten_cons]; exact List.mem_append_left _ hs))
        hnd.1
    rw [hB, ih (n + 1) _ ?_ hnd.2.1]
    · rw [List.map_cons, List.flatten_cons, List.append_assoc]
    · intro x hx
      rw [List.map_append, List.mem_append]
      push_neg
      refine ⟨hk x (by rw [List.flatten_cons]; exact List.mem_append_right _ hx), ?_⟩
      intro hc
      rw [List.map_map] at hc
      obtain ⟨s, hs, hsx⟩ := List.mem_map.mp hc
      have hsx' : s = x := hsx
      rw [← hsx'] at hx
      exact hnd.2.2 hs hx

theorem mlookup_append_right {m₁ m₂ : List (String × String)} {q : String}
    (h : q ∉ m₁.map Prod.fst) : mlookup (m₁ ++ m₂) q = mlookup m₂ q := by
  induction m₁ with
  | nil => rfl
  | cons e rest ih =>
    obtain ⟨k, v⟩ := e
    simp only [List.map_cons, List.mem_cons] at h
    push_neg at h
    rw [List.cons_append, mlookup_cons, if_neg (fun hc => h.1 hc.symm)]
    exact ih h.2

theorem mlookup_append_left {m₁ m₂ : List (String × String)} {q : String}
    {v : String} (h : mlookup m₁ q = some v) :
    mlookup (m₁ ++ m₂) q = some v := by
  induction m₁ with
  | nil => exact absurd h (by simp [mlookup])
  | cons e rest ih =>
    obtain ⟨k, v'⟩ := e
    rw [mlookup_cons] at h
    rw [List.cons_append, mlookup_cons]
    by_cases hk : k = q
    · rw [if_pos hk] at h ⊢
      exact h
    · rw [if_neg hk] at h ⊢
      exact ih h

theorem mlookup_blockmap_mem {block : List String} {q g : String} (h : q ∈ block) :
    mlookup (block.map (fun s => (s, g))) q = some g := by
  induction block with
  | nil => exact absurd h (List.not_mem_nil q)
  | cons x xs ih =>
    rw [List.map_cons, mlookup_cons]
    by_cases hx : x = q
    · rw [if_pos hx]
    · rw [if_neg hx]
      rcases List.mem_cons.mp h with rfl | h'
      · exact absurd rfl hx
      · exact ih h'

theorem mem_flatten_of_getD {parts : List (List String)} {k : Nat} {q : String}
    (hk : k < parts.length) (hq : q ∈ parts.getD k []) : q ∈ parts.flatten := by
  apply List.mem_flatten.mpr
  refine ⟨parts.getD k [], ?_, hq⟩
  rw [List.getD_eq_getElem _ _ hk]
  exact List.getElem_mem hk

theorem flatten_index_exists {parts : List (List String)} {q : String}
    (h : q ∈ parts.flatten) : ∃ k, k < parts.length ∧ q ∈ parts.getD k [] := by
  obtain ⟨B, hB, hq⟩ := List.mem_flatten.mp h
  obtain ⟨k, hk, hBk⟩ := List.mem_iff_getElem.mp hB
  refine ⟨k, hk, ?_⟩
  rw [List.getD_eq_getElem _ _ hk, hBk]
  exact hq

theorem flatten_index_unique {parts : List (List String)}
    (hnd : parts.flatten.Nodup) {q : String} :
    ∀ {k₁ k₂ : Nat}, k₁ < parts.length → k₂ < parts.length →
      q ∈ parts.getD k₁ [] → q ∈ parts.getD k₂ [] → k₁ = k₂ := by
  induction parts with
  | nil => intro k₁ k₂ h₁ _ _ _; simp at h₁
  | cons B rest ih =>
    intro k₁ k₂ h₁ h₂ hq₁ hq₂
    rw [List.flatten_cons, List.nodup_append] at hnd
    match k₁, k₂ with
    | 0, 0 => rfl
    | 0, k₂ + 1 =>
      rw [List.getD_cons_zero] at hq₁
      rw [List.getD_cons_succ] at hq₂
      exact absurd (mem_flatten_of_getD (by simpa using h₂) hq₂) (hnd.2.2 hq₁)
    | k₁ + 1, 0 =>
      rw [List.getD_cons_zero] at hq₂
      rw [List.getD_cons_succ] at hq₁
      exact absurd (mem_flatten_of_getD (by simpa using h₁) hq₁) (hnd.2.2 hq₂)
    | k₁ + 1, k₂ + 1 =>
      rw [List.getD_cons_succ] at hq₁ hq₂
      have := ih hnd.2.1 (by simpa using h₁) (by simpa using h₂) hq₁ hq₂
      omega

theorem mlookup_enum_blocks :
    ∀ (parts : List (List String)), parts.flatten.Nodup →
    ∀ (n k : Nat), k < parts.length → ∀ q ∈ parts.getD k [],
      mlookup (((parts.enumFrom n).map
        (fun e => e.2.map (fun s => (s, generateAlphabeticStateName e.1)))).flatten) q
      = some (generateAlphabeticStateName (n + k)) := by
  intro parts
  induction parts with
  | nil => intro _ n k hk; simp at hk
  | cons B rest ih =>
    intro hnd n k hk q hq
    rw [List.flatten_cons, List.nodup_append] at hnd
    rw [List.enumFrom_cons, List.map_cons, List.flatten_cons]
    match k with
    | 0 =>
      rw [List.getD_cons_zero] at hq
      exact mlookup_append_left (mlookup_blockmap_mem hq)
    | k + 1 =>
      rw [List.getD_cons_succ] at hq
      have hknotB : q ∉ B := fun hc =>
        hnd.2.2 hc (mem_flatten_of_getD (by simpa using hk) hq)
      rw [mlookup_append_right ?_]
      · rw [ih hnd.2.1 (n + 1) k (by simpa using hk) q hq]
        have harith : n + 1 + k = n + (k + 1) := by omega
        rw [harith]
      · intro hc
        rw [List.map_map] at hc
        obtain ⟨s, hs, hsq⟩ := List.mem_map.mp hc
        have hsq' : s = q := hsq
        exact hknotB (hsq' ▸ hs)

/-- `stateMapping` lookup: a state of the `k`-th block maps to the
`k`-th synthetic name. -/
theorem stateMapping_lookup {parts : List (List String)}
    (hnd : parts.flatten.Nodup) {k : Nat} (hk : k < parts.length) {q : String}
    (hq : q ∈ parts.getD k []) :
    mlookup (parts.enum.foldl (fun m e => e.2.foldl
      (fun m2 s => msetStr m2 s (generateAlphabeticStateName e.1)) m) []) q
    = some (generateAlphabeticStateName k) := by
  have henum : parts.enum = parts.enumFrom 0 := rfl
  have heq := foldl_stateMapping_eq parts 0 [] (by simp) hnd
  rw [henum, heq]
  have := mlookup_enum_blocks parts hnd 0 k hk q hq
  simpa using this

/-- Every value of the state mapping is a synthetic block name. -/
theorem stateMapping_values {parts : List (List String)}
    (hnd : parts.flatten.Nodup) :
    ∀ e ∈ parts.enum.foldl (fun m e => e.2.foldl
      (fun m2 s => msetStr m2 s (generateAlphabeticStateName e.1)) m) [],
      ∃ i, e.2 = generateAlphabeticStateName i := by
  intro e he
  have henum : parts.enum = parts.enumFrom 0 := rfl
  rw [henum, foldl_stateMapping_eq parts 0 [] (by simp) hnd] at he
  rw [List.nil_append] at he
  obtain ⟨l, hl, hel⟩ := List.mem_flatten.mp he
  obtain ⟨e', he', hle⟩ := List.mem_map.mp hl
  rw [← hle] at hel
  obtain ⟨s, _, hse⟩ := List.mem_map.mp hel
  exact ⟨e'.1, by rw [← hse]⟩

/-! ## Minimized-transition building toolkit -/

theorem tripleKey_data (f t s : String) :
    (f ++ "-" ++ t ++ "-" ++ s).data = f.data ++ '-' :: (t.data ++ '-' :: s.data) := by
  rw [data_append, data_append, data_append, data_append]
  simp

theorem tripleKey_inj {f₁ t₁ s₁ f₂ t₂ s₂ : String}
    (hf₁ : '-' ∉ f₁.data) (hf₂ : '-' ∉ f₂.data)
    (ht₁ : '-' ∉ t₁.data) (ht₂ : '-' ∉ t₂.data)
    (h : f₁ ++ "-" ++ t₁ ++ "-" ++ s₁ = f₂ ++ "-" ++ t₂ ++ "-" ++ s₂) :
    f₁ = f₂ ∧ t₁ = t₂ ∧ s₁ = s₂ := by
  have hd := congrArg String.data h
  rw [tripleKey_data, tripleKey_data] at hd
  obtain ⟨h1, h2⟩ := sep_append_inj hf₁ hf₂ hd
  obtain ⟨h3, h4⟩ := sep_append_inj ht₁ ht₂ h2
  exact ⟨String.ext h1, String.ext h3, String.ext h4⟩

theorem mlookup_mem {m : List (String × String)} {q v : String}
    (h : mlookup m q = some v) : (q, v) ∈ m := by
  induction m with
  | nil => exact absurd h (by simp [mlookup])
  | cons e rest ih =>
    obtain ⟨k, v'⟩ := e
    rw [mlookup_cons] at h
    by_cases hk : k = q
    · rw [if_pos hk] at h
      injection h with h
      rw [List.mem_cons]
      left
      rw [← hk, ← h]
    · rw [if_neg hk] at h
      exact List.mem_cons_of_mem _ (ih h)

theorem mapped_dash_free {sm : List (String × String)}
    (hsm : ∀ e ∈ sm, '-' ∉ e.2.data) (x : String) :
    '-' ∉ ((mlookup sm x).getD "").data := by
  rcases hl : mlookup sm x with _ | v
  · simp
  · have := hsm (x, v) (mlookup_mem hl)
    simpa using this

/-- The transition-building fold: for dash-free endpoint names the key
set mirrors the emitted minimized transitions, emitted transitions only
accumulate, every processed transition's mapped image ends up present,
and every emitted transition is the image of a processed one. -/
theorem buildTrans_fold_spec (sm : List (String × String))
    (hsm : ∀ e ∈ sm, '-' ∉ e.2.data) :
    ∀ (ts : List Transition) (st : BuildTransSt),
      (∀ f t' s', '-' ∉ f.data → '-' ∉ t'.data →
        ((f ++ "-" ++ t' ++ "-" ++ s') ∈ st.transitionSet ↔
          (⟨f, t', s'⟩ : Transition) ∈ st.minTransitions)) →
      (∀ f t' s', '-' ∉ f.data → '-' ∉ t'.data →
        ((f ++ "-" ++ t' ++ "-" ++ s') ∈
            (ts.foldl (buildTransStep sm) st).transitionSet ↔
          (⟨f, t', s'⟩ : Transition) ∈
            (ts.foldl (buildTransStep sm) st).minTransitions)) ∧
      (∀ u ∈ st.minTransitions, u ∈ (ts.foldl (buildTransStep sm) st).minTransitions) ∧
      (∀ t ∈ ts, (⟨(mlookup sm t.«from»).getD "", (mlookup sm t.«to»).getD "",
        t.symbol⟩ : Transition) ∈ (ts.foldl (buildTransStep sm) st).minTransitions) ∧
      (∀ u ∈ (ts.foldl (buildTransStep sm) st).minTransitions,
        u ∈ st.minTransitions ∨ ∃ t ∈ ts,
          u = ⟨(mlookup sm t.«from»).getD "", (mlookup sm t.«to»).getD "",
            t.symbol⟩) := by
  intro ts
  induction ts with
  | nil =>
    intro st hinv
    exact ⟨hinv, fun u hu => hu, fun t ht => absurd ht (List.not_mem_nil t),
      fun u hu => Or.inl hu⟩
  | cons t ts ih =>
    intro st hinv
    rw [List.foldl_cons]
    have hmf := mapped_dash_free hsm t.«from»
    have hmt' := mapped_dash_free hsm t.«to»
    by_cases hkey : (mlookup sm t.«from»).getD "" ++ "-"
        ++ (mlookup sm t.«to»).getD "" ++ "-" ++ t.symbol ∈ st.transitionSet
    · have hts : (buildTransStep sm st t).transitionSet = st.transitionSet := by
        unfold buildTransStep
        rw [if_pos hkey]
      have hmt : (buildTransStep sm st t).minTransitions = st.minTransitions := by
        unfold buildTransStep
        rw [if_pos hkey]
      obtain ⟨i1, i2, i3, i4⟩ := ih (buildTransStep sm st t) (by
        intro f t' s' hf ht'
        rw [hts, hmt]
        exact hinv f t' s' hf ht')
      refine ⟨i1, ?_, ?_, ?_⟩
      · intro u hu
        exact i2 u (by rw [hmt]; exact hu)
      · intro t₀ ht₀
        rcases List.mem_cons.mp ht₀ with rfl | ht₀'
        · have := (hinv _ _ _ hmf hmt').mp hkey
          exact i2 _ (by rw [hmt]; exact this)
        · exact i3 t₀ ht₀'
      · intro u hu
        rcases i4 u hu with hu' | ⟨t₀, ht₀, hueq⟩
        · rw [hmt] at hu'
          exact Or.inl hu'
        · exact Or.inr ⟨t₀, List.mem_cons_of_mem t ht₀, hueq⟩
    · have hts : (buildTransStep sm st t).transitionSet = st.transitionSet
          ++ [(mlookup sm t.«from»).getD "" ++ "-"
            ++ (mlookup sm t.«to»).getD "" ++ "-" ++ t.symbol] := by
        unfold buildTransStep
        rw [if_neg hkey]
      have hmt : (buildTransStep sm st t).minTransitions = st.minTransitions
          ++ [⟨(mlookup sm t.«from»).getD "", (mlookup sm t.«to»).getD "",
            t.symbol⟩] := by
        unfold buildTransStep
        rw [if_neg hkey]
      obtain ⟨i1, i2, i3, i4⟩ := ih (buildTransStep sm st t) (by
        intro f t' s' hf ht'
        rw [hts, hmt, List.mem_append, List.mem_append]
        constructor
        · rintro (h | h)
          · exact Or.inl ((hinv f t' s' hf ht').mp h)
          · right
            rw [List.mem_singleton] at h
            obtain ⟨e1, e2, e3⟩ := tripleKey_inj hf hmf ht' hmt' h
            rw [List.mem_singleton, e1, e2, e3]
        · rintro (h | h)
          · exact Or.inl ((hinv f t' s' hf ht').mpr h)
          · right
            rw [List.mem_singleton] at h
            have e1 : f = (mlookup sm t.«from»).getD "" := congrArg Transition.from h
            have e2 : t' = (mlookup sm t.«to»).getD "" := congrArg Transition.to h
            have e3 : s' = t.symbol := congrArg Transition.symbol h
            rw [List.mem_singleton, e1, e2, e3])
      refine ⟨i1, ?_, ?_, ?_⟩
      · intro u hu
        exact i2 u (by rw [hmt]; exact List.mem_append_left _ hu)
      · intro t₀ ht₀
        rcases List.mem_cons.mp ht₀ with rfl | ht₀'
        · exact i2 _ (by rw [hmt]; exact List.mem_append_right _ (by simp))
        · exact i3 t₀ ht₀'
      · intro u hu
        rcases i4 u hu with hu' | ⟨t₀, ht₀, hueq⟩
        · rw [hmt, List.mem_append] at hu'
          rcases hu' with hu'' | hu''
          · exact Or.inl hu''
          · rw [List.mem_singleton] at hu''
            exact Or.inr ⟨t, by simp, hu''⟩
        · exact Or.inr ⟨t₀, List.mem_cons_of_mem t ht₀, hueq⟩

/-! ## Minimizer assembly toolkit -/

/-- Unpacking `isCompleteDFA`. -/
theorem isCompleteDFA_unfolded {dfa : Automaton} (h : isCompleteDFA dfa = true) :
    dfa.type = .DFA ∧
    (∀ t ∈ dfa.transitions, isEpsilon t.symbol = false) ∧
    hasNondeterministicTransitions dfa.transitions = false ∧
    (∀ st ∈ dfa.states, ∀ sym ∈ alphabetOf dfa.transitions,
      ∃ t ∈ dfa.transitions, t.«from» = st.id ∧ t.symbol = sym) := by
  unfold isCompleteDFA at h
  by_cases h1 : dfa.type = .NFA
  · rw [if_pos h1] at h
    exact absurd h (by simp)
  · rw [if_neg h1] at h
    have hty : dfa.type = .DFA := by
      cases hc : dfa.type
      · rfl
      · exact absurd hc h1
    by_cases h2 : dfa.transitions.any (fun t => isEpsilon t.symbol) = true
    · rw [if_pos h2] at h
      exact absurd h (by simp)
    · rw [if_neg h2] at h
      rw [Bool.not_eq_true] at h2
      rw [List.any_eq_false] at h2
      by_cases h3 : hasNondeterministicTransitions dfa.transitions = true
      · rw [if_pos h3] at h
        exact absurd h (by simp)
      · rw [if_neg h3] at h
        rw [Bool.not_eq_true] at h3
        rw [List.all_eq_true] at h
        refine ⟨hty, fun t ht => by simpa using h2 t ht, h3, ?_⟩
        intro st hst sym hsym
        have := h st hst
        rw [List.all_eq_true] at this
        have := this sym hsym
        rw [List.any_eq_true] at this
        obtain ⟨t, ht, hpred⟩ := this
        rw [Bool.and_eq_true, beq_iff_eq, beq_iff_eq] at hpred
        exact ⟨t, ht, hpred.1, hpred.2⟩

/-- In a nondeterminism-free transition list, the destination of a
`(from, symbol)` pair is unique. -/
theorem complete_unique_dest {ts : List Transition}
    (hnd : hasNondeterministicTransitions ts = false) :
    ∀ t₁ ∈ ts, ∀ t₂ ∈ ts, t₁.«from» = t₂.«from» → t₁.symbol = t₂.symbol →
      t₁.«to» = t₂.«to» := by
  intro t₁ h₁ t₂ h₂ hf hs
  have hk : pairKey t₁ = pairKey t₂ := by
    unfold pairKey
    rw [hf, hs]
  have hlen : ¬ 2 ≤ (destsOfKey ts (pairKey t₁)).length := by
    intro hc
    have := (hasNondeterministicTransitions_iff ts).mpr ⟨t₁, h₁, hc⟩
    rw [hnd] at this
    exact Bool.noConfusion this
  have hmem₁ : t₁.«to» ∈ destsOfKey ts (pairKey t₁) := by
    unfold destsOfKey
    rw [mem_dedupKeep]
    exact List.mem_map.mpr ⟨t₁, List.mem_filter.mpr ⟨h₁, by simp⟩, rfl⟩
  have hmem₂ : t₂.«to» ∈ destsOfKey ts (pairKey t₁) := by
    unfold destsOfKey
    rw [mem_dedupKeep]
    exact List.mem_map.mpr ⟨t₂, List.mem_filter.mpr ⟨h₂, by simp [hk]⟩, rfl⟩
  exact mem_of_length_le_one (by omega) hmem₁ hmem₂

theorem findIdx_block :
    ∀ (parts : List (List String)), parts.flatten.Nodup →
    ∀ (i k : Nat), k < parts.length → ∀ x ∈ parts.getD k [],
      List.findIdx? (fun p => decide (x ∈ p)) parts i = some (i + k) := by
  intro parts
  induction parts with
  | nil => intro _ i k hk; simp at hk
  | cons B rest ih =>
    intro hnd i k hk x hx
    rw [List.flatten_cons, List.nodup_append] at hnd
    rw [List.findIdx?_cons]
    match k with
    | 0 =>
      rw [List.getD_cons_zero] at hx
      rw [if_pos (by simpa using hx)]
      rfl
    | k + 1 =>
      rw [List.getD_cons_succ] at hx
      have hnB : x ∉ B := fun hc =>
        hnd.2.2 hc (mem_flatten_of_getD (by simpa using hk) hx)
      rw [if_neg (by simpa using hnB)]
      rw [ih hnd.2.1 (i + 1) k (by simpa using hk) x hx]
      have harith : i + 1 + k = i + (k + 1) := by omega
      rw [harith]

theorem targetPartitionIndex_none {a : Automaton} {parts : List (List String)}
    {q sym : String}
    (h : a.transitions.find? (fun t => t.«from» == q && t.symbol == sym) = none) :
    targetPartitionIndex a parts q sym = -1 := by
  unfold targetPartitionIndex
  rw [h]

theorem targetPartitionIndex_some {a : Automaton} {parts : List (List String)}
    {q sym : String} {t : Transition}
    (h : a.transitions.find? (fun u => u.«from» == q && u.symbol == sym) = some t)
    {k : Nat} (hfi : List.findIdx? (fun p => decide (t.«to» ∈ p)) parts 0 = some k) :
    targetPartitionIndex a parts q sym = (k : Int) := by
  unfold targetPartitionIndex
  rw [h]
  show (match List.findIdx? (fun p => decide (t.«to» ∈ p)) parts 0 with
    | some i => (i : Int)
    | none => -1) = (k : Int)
  rw [hfi]

/-- The flattened initial partition is the non-final block followed by
the final block. -/
theorem minPartitions0_flatten (dfa : Automaton) :
    (minPartitions0 dfa).flatten =
      minNonFinals dfa ++ (reachableDFAOf dfa).finalStates := by
  unfold minPartitions0
  by_cases h1 : 0 < (minNonFinals dfa).length
  · by_cases h2 : 0 < (reachableDFAOf dfa).finalStates.length
    · rw [if_pos h1, if_pos h2]
      simp
    · rw [if_pos h1, if_neg h2]
      have he : (reachableDFAOf dfa).finalStates = [] :=
        List.length_eq_zero.mp (by omega)
      rw [he]
      simp
  · have he : minNonFinals dfa = [] := List.length_eq_zero.mp (by omega)
    by_cases h2 : 0 < (reachableDFAOf dfa).finalStates.length
    · rw [if_neg h1, if_pos h2, he]
      simp
    · have he2 : (reachableDFAOf dfa).finalStates = [] :=
        List.length_eq_zero.mp (by omega)
      rw [if_neg h1, if_neg h2, he, he2]
      simp

theorem minPartitions0_nonempty (dfa : Automaton) :
    ∀ B ∈ minPartitions0 dfa, B ≠ [] := by
  intro B hB
  unfold minPartitions0 at hB
  rw [List.mem_append] at hB
  rcases hB with hB | hB
  · by_cases h1 : 0 < (minNonFinals dfa).length
    · rw [if_pos h1] at hB
      rw [List.mem_singleton] at hB
      subst hB
      exact List.length_pos.mp h1
    · rw [if_neg h1] at hB
      exact absurd hB (List.not_mem_nil B)
  · by_cases h2 : 0 < (reachableDFAOf dfa).finalStates.length
    · rw [if_pos h2] at hB
      rw [List.mem_singleton] at hB
      subst hB
      exact List.length_pos.mp h2
    · rw [if_neg h2] at hB
      exact absurd hB (List.not_mem_nil B)

/-- Every block of the initial partition is entirely final or entirely
non-final. -/
theorem minPartitions0_pure (dfa : Automaton) :
    ∀ B ∈ minPartitions0 dfa,
      (∀ x ∈ B, x ∈ (reachableDFAOf dfa).finalStates) ∨
      (∀ x ∈ B, x ∉ (reachableDFAOf dfa).finalStates) := by
  intro B hB
  unfold minPartitions0 at hB
  rw [List.mem_append] at hB
  rcases hB with hB | hB
  · by_cases h1 : 0 < (minNonFinals dfa).length
    · rw [if_pos h1] at hB
      rw [List.mem_singleton] at hB
      subst hB
      right
      intro x hx
      unfold minNonFinals at hx
      rw [List.mem_filter] at hx
      simpa using hx.2
    · rw [if_neg h1] at hB
      exact absurd hB (List.not_mem_nil B)
  · by_cases h2 : 0 < (reachableDFAOf dfa).finalStates.length
    · rw [if_pos h2] at hB
      rw [List.mem_singleton] at hB
      subst hB
      exact Or.inl (fun x hx => hx)
    · rw [if_neg h2] at hB
      exact absurd hB (List.not_mem_nil B)

/-- The final partition of the minimizer on a valid automaton: its
flattening is duplicate-free and holds exactly the reachable states of
the completed automaton; blocks are nonempty, respect finality, and
are stable under Hopcroft splitting. -/
theorem minParts_spec (dfa : Automaton) (s : String)
    (hs : (makeCompleteDFA dfa).startState = some s) (hsne : s ≠ "")
    (hsid : s ∈ (makeCompleteDFA dfa).states.map (fun st => st.id))
    (hids : ((makeCompleteDFA dfa).states.map (fun st => st.id)).Nodup)
    (hfinnd : (makeCompleteDFA dfa).finalStates.Nodup)
    (htr : ∀ t ∈ (makeCompleteDFA dfa).transitions,
      t.«from» ∈ (makeCompleteDFA dfa).states.map (fun st => st.id) ∧
      t.«to» ∈ (makeCompleteDFA dfa).states.map (fun st => st.id)) :
    (minParts dfa).flatten.Nodup ∧
    (∀ x, x ∈ (minParts dfa).flatten ↔
      x ∈ getReachableStates (makeCompleteDFA dfa)) ∧
    (∀ B ∈ minParts dfa, B ≠ []) ∧
    (∀ B ∈ minParts dfa,
      (∀ x ∈ B, x ∈ (makeCompleteDFA dfa).finalStates) ∨
      (∀ x ∈ B, x ∉ (makeCompleteDFA dfa).finalStates)) ∧
    (∀ p ∈ minParts dfa, ∀ sym ∈ minAlphabet dfa,
      ¬ 1 < (splitPartitionHopcroft (reachableDFAOf dfa) p (minParts dfa)
        sym).length) := by
  obtain ⟨hrnodup, hrstart, hrsrc, hrclosed⟩ :=
    getReachableStates_spec (makeCompleteDFA dfa) s hs hsne
  have hreachids : ∀ x ∈ getReachableStates (makeCompleteDFA dfa),
      x ∈ (makeCompleteDFA dfa).states.map (fun st => st.id) := by
    intro x hx
    rcases hrsrc x hx with rfl | ⟨t, ht, hto⟩
    · exact hsid
    · rw [← hto]
      exact (htr t ht).2
  have hRids : ∀ x, x ∈ (reachableDFAOf dfa).states.map (fun st => st.id) ↔
      (x ∈ (makeCompleteDFA dfa).states.map (fun st => st.id) ∧
        x ∈ getReachableStates (makeCompleteDFA dfa)) := by
    intro x
    show x ∈ ((makeCompleteDFA dfa).states.filter _).map (fun st => st.id) ↔ _
    constructor
    · intro hx
      obtain ⟨st, hst, hstx⟩ := List.mem_map.mp hx
      rw [List.mem_filter] at hst
      refine ⟨List.mem_map.mpr ⟨st, hst.1, hstx⟩, ?_⟩
      rw [← hstx]
      simpa using hst.2
    · rintro ⟨hx, hxr⟩
      obtain ⟨st, hst, hstx⟩ := List.mem_map.mp hx
      refine List.mem_map.mpr ⟨st, ?_, hstx⟩
      rw [List.mem_filter]
      exact ⟨hst, by rw [hstx]; simpa using hxr⟩
  have hrfin : ∀ x, x ∈ (reachableDFAOf dfa).finalStates ↔
      (x ∈ (makeCompleteDFA dfa).finalStates ∧
        x ∈ getReachableStates (makeCompleteDFA dfa)) := by
    intro x
    show x ∈ (makeCompleteDFA dfa).finalStates.filter _ ↔ _
    rw [List.mem_filter]
    simp
  have hNF : ∀ x, x ∈ minNonFinals dfa ↔
      ((x ∈ (makeCompleteDFA dfa).states.map (fun st => st.id) ∧
        x ∈ getReachableStates (makeCompleteDFA dfa)) ∧
        x ∉ (reachableDFAOf dfa).finalStates) := by
    intro x
    unfold minNonFinals
    rw [List.mem_filter, hRids x]
    simp
  have hflat0 : ∀ x, x ∈ (minPartitions0 dfa).flatten ↔
      x ∈ getReachableStates (makeCompleteDFA dfa) := by
    intro x
    rw [minPartitions0_flatten, List.mem_append]
    constructor
    · rintro (hx | hx)
      · exact ((hNF x).mp hx).1.2
      · exact ((hrfin x).mp hx).2
    · intro hx
      by_cases hxf : x ∈ (reachableDFAOf dfa).finalStates
      · exact Or.inr hxf
      · exact Or.inl ((hNF x).mpr ⟨⟨hreachids x hx, hx⟩, hxf⟩)
  have hnd0 : (minPartitions0 dfa).flatten.Nodup := by
    rw [minPartitions0_flatten, List.nodup_append]
    refine ⟨?_, ?_, ?_⟩
    · apply List.Nodup.sublist (List.filter_sublist _)
      show ((makeCompleteDFA dfa).states.filter _).map (fun st => st.id) |>.Nodup
      exact List.Nodup.sublist (List.Sublist.map _ (List.filter_sublist _)) hids
    · exact List.Nodup.filter _ hfinnd
    · intro x hx hxf
      exact ((hNF x).mp hx).2 hxf
  have hsubid : ∀ x ∈ (minPartitions0 dfa).flatten,
      x ∈ (reachableDFAOf dfa).states.map (fun st => st.id) := by
    intro x hx
    have hxr := (hflat0 x).mp hx
    exact (hRids x).mpr ⟨hreachids x hxr, hxr⟩
  have hmeas : (minPartitions0 dfa).flatten.length <
      (minPartitions0 dfa).length + ((reachableDFAOf dfa).states.length + 1) := by
    have h1 := nodup_length_le hnd0 hsubid
    rw [List.length_map] at h1
    omega
  obtain ⟨c1, c2, c3, c4⟩ := refineLoop_spec (reachableDFAOf dfa)
    (minAlphabet dfa) ((reachableDFAOf dfa).states.length + 1)
    (minPartitions0 dfa) [minStep0 dfa] 1 (minPartitions0_nonempty dfa) hmeas
  have hM : minParts dfa = (refineLoop (reachableDFAOf dfa) (minAlphabet dfa)
      ((reachableDFAOf dfa).states.length + 1) (minPartitions0 dfa)
      [minStep0 dfa] 1).1 := rfl
  rw [hM]
  have hmemiff : ∀ x, x ∈ (refineLoop (reachableDFAOf dfa) (minAlphabet dfa)
      ((reachableDFAOf dfa).states.length + 1) (minPartitions0 dfa)
      [minStep0 dfa] 1).1.flatten ↔
      x ∈ getReachableStates (makeCompleteDFA dfa) :=
    fun x => (c1.mem_iff).trans (hflat0 x)
  refine ⟨(c1.nodup_iff).mpr hnd0, hmemiff, c3, ?_, c4⟩
  intro B hB
  obtain ⟨B', hB', hsub⟩ := c2 B hB
  rcases minPartitions0_pure dfa B' hB' with hfin | hnfin
  · left
    intro x hx
    exact ((hrfin x).mp (hfin x (hsub x hx))).1
  · right
    intro x hx hxf
    have hxflat : x ∈ (refineLoop (reachableDFAOf dfa) (minAlphabet dfa)
        ((reachableDFAOf dfa).states.length + 1) (minPartitions0 dfa)
        [minStep0 dfa] 1).1.flatten := List.mem_flatten.mpr ⟨B, hB, hx⟩
    have hxr := (hmemiff x).mp hxflat
    exact hnfin x (hsub x hx) ((hrfin x).mpr ⟨hxf, hxr⟩)

set_option maxHeartbeats 8000000 in
/-- Step-by-step simulation between a complete DFA's walk and the walk
of its minimized automaton: when the current state lies in the `k`-th
final partition block, both walks accept the remaining input equally. -/
theorem minimize_walk_sim (dfa : Automaton)
    (hcomp : makeCompleteDFA dfa = dfa)
    (hnodet : hasNondeterministicTransitions dfa.transitions = false)
    (hnd : (minParts dfa).flatten.Nodup)
    (hflat : ∀ x, x ∈ (minParts dfa).flatten ↔ x ∈ getReachableStates dfa)
    (hpure : ∀ B ∈ minParts dfa,
      (∀ x ∈ B, x ∈ dfa.finalStates) ∨ (∀ x ∈ B, x ∉ dfa.finalStates))
    (hstable : ∀ p ∈ minParts dfa, ∀ sym ∈ minAlphabet dfa,
      ¬ 1 < (splitPartitionHopcroft (reachableDFAOf dfa) p (minParts dfa)
        sym).length)
    (hrclosed : ∀ x ∈ getReachableStates dfa, ∀ y, StepTo dfa x y →
      y ∈ getReachableStates dfa) :
    ∀ (cs : List Char) (k : Nat) (q : String) (p₁ p₂ : List String),
      k < (minParts dfa).length → q ∈ (minParts dfa).getD k [] →
      (dfaWalk dfa q p₁ cs).accepted =
        (dfaWalk (minimizedDFAOf dfa) (generateAlphabeticStateName k) p₂
          cs).accepted := by
  have hRmem : ∀ t : Transition, t ∈ (reachableDFAOf dfa).transitions ↔
      (t ∈ dfa.transitions ∧ t.«from» ∈ getReachableStates dfa ∧
        t.«to» ∈ getReachableStates dfa) := by
    intro t
    show t ∈ (makeCompleteDFA dfa).transitions.filter
      (fun t => t.«from» ∈ getReachableStates (makeCompleteDFA dfa) ∧
        t.«to» ∈ getReachableStates (makeCompleteDFA dfa)) ↔ _
    rw [hcomp, List.mem_filter]
    simp
  have hRfin : ∀ x, x ∈ (reachableDFAOf dfa).finalStates ↔
      (x ∈ dfa.finalStates ∧ x ∈ getReachableStates dfa) := by
    intro x
    show x ∈ (makeCompleteDFA dfa).finalStates.filter
      (fun s => s ∈ getReachableStates (makeCompleteDFA dfa)) ↔ _
    rw [hcomp, List.mem_filter]
    simp
  have hsmv : ∀ e ∈ minStateMapping dfa, '-' ∉ e.2.data := by
    intro e he
    obtain ⟨i, hi⟩ := stateMapping_values hnd e he
    rw [hi]
    exact generateAlphabeticStateName_dash_free i
  obtain ⟨_, _, hb3r, hb4r⟩ := buildTrans_fold_spec (minStateMapping dfa) hsmv
    (reachableDFAOf dfa).transitions
    { minTransitions := [], transitionSet := []
      combined := ((List.range (minParts dfa).length).map
        (fun i => State.mk (generateAlphabeticStateName i))).map
          (fun s => (s.id, [])) }
    (by intro f t' s' _ _; simp)
  have hb3 : ∀ t ∈ (reachableDFAOf dfa).transitions,
      (⟨(mlookup (minStateMapping dfa) t.«from»).getD "",
        (mlookup (minStateMapping dfa) t.«to»).getD "", t.symbol⟩ : Transition)
        ∈ (minimizedDFAOf dfa).transitions := hb3r
  have hb4 : ∀ u ∈ (minimizedDFAOf dfa).transitions,
      u ∈ ([] : List Transition) ∨ ∃ t ∈ (reachableDFAOf dfa).transitions,
        u = ⟨(mlookup (minStateMapping dfa) t.«from»).getD "",
          (mlookup (minStateMapping dfa) t.«to»).getD "", t.symbol⟩ := hb4r
  have hblockmem : ∀ k, k < (minParts dfa).length →
      (minParts dfa).getD k [] ∈ minParts dfa := by
    intro k hk
    rw [List.getD_eq_getElem _ _ hk]
    exact List.getElem_mem hk
  have hsymal : ∀ t ∈ (reachableDFAOf dfa).transitions,
      t.symbol ∈ minAlphabet dfa := by
    intro t ht
    unfold minAlphabet
    rw [mem_dedupKeep]
    exact List.mem_map.mpr ⟨t, ht, rfl⟩
  have hfinals_iff : ∀ (k : Nat), k < (minParts dfa).length →
      ∀ q ∈ (minParts dfa).getD k [],
      (q ∈ dfa.finalStates ↔
        generateAlphabeticStateName k ∈ (minimizedDFAOf dfa).finalStates) := by
    intro k hk q hq
    have hqreach : q ∈ getReachableStates dfa :=
      (hflat q).mp (mem_flatten_of_getD hk hq)
    have hmdfin : (minimizedDFAOf dfa).finalStates =
        dedupKeep ((reachableDFAOf dfa).finalStates.map
          (fun f => (mlookup (minStateMapping dfa) f).getD "")) := rfl
    rw [hmdfin]
    constructor
    · intro hqf
      rw [mem_dedupKeep]
      apply List.mem_map.mpr
      refine ⟨q, (hRfin q).mpr ⟨hqf, hqreach⟩, ?_⟩
      have hsl : mlookup (minStateMapping dfa) q =
          some (generateAlphabeticStateName k) := stateMapping_lookup hnd hk hq
      rw [hsl]
      rfl
    · intro hgen
      rw [mem_dedupKeep] at hgen
      obtain ⟨f, hf, hfg⟩ := List.mem_map.mp hgen
      obtain ⟨hff, hfr⟩ := (hRfin f).mp hf
      obtain ⟨kf, hkf, hqf⟩ := flatten_index_exists ((hflat f).mpr hfr)
      have hsl : mlookup (minStateMapping dfa) f =
          some (generateAlphabeticStateName kf) := stateMapping_lookup hnd hkf hqf
      rw [hsl] at hfg
      have hkeq : kf = k := generateAlphabeticStateName_inj hfg
      subst hkeq
      rcases hpure ((minParts dfa).getD kf []) (hblockmem kf hkf) with hall | hnone
      · exact hall q hq
      · exact absurd hff (hnone f hqf)
  have hidx : ∀ z ∈ (minParts dfa).flatten, ∀ tz ∈ dfa.transitions,
      tz.«from» = z → ∀ kz, kz < (minParts dfa).length →
      tz.«to» ∈ (minParts dfa).getD kz [] →
      targetPartitionIndex (reachableDFAOf dfa) (minParts dfa) z tz.symbol
        = (kz : Int) := by
    intro z hz tz htz hfrom kz hkz hto
    have hzreach := (hflat z).mp hz
    have htoreach : tz.«to» ∈ getReachableStates dfa :=
      hrclosed z hzreach _ ⟨tz, htz, hfrom, rfl⟩
    have htzR : tz ∈ (reachableDFAOf dfa).transitions :=
      (hRmem tz).mpr ⟨htz, by rw [hfrom]; exact hzreach, htoreach⟩
    obtain ⟨t₀, hfind⟩ : ∃ t₀, (reachableDFAOf dfa).transitions.find?
        (fun u => u.«from» == z && u.symbol == tz.symbol) = some t₀ :=
      Option.isSome_iff_exists.mp (List.find?_isSome.mpr
        ⟨tz, htzR, by simp [hfrom]⟩)
    have ht₀R := List.mem_of_find?_eq_some hfind
    have hpred := List.find?_some hfind
    simp only [Bool.and_eq_true, beq_iff_eq] at hpred
    have ht₀d : t₀ ∈ dfa.transitions := ((hRmem t₀).mp ht₀R).1
    have ht₀to : t₀.«to» = tz.«to» :=
      complete_unique_dest hnodet t₀ ht₀d tz htz (by rw [hpred.1, hfrom]) hpred.2
    apply targetPartitionIndex_some hfind
    rw [ht₀to]
    have := findIdx_block (minParts dfa) hnd 0 kz hkz tz.«to» hto
    simpa using this
  have hnoidx : ∀ z sym, (dfa.transitions.find?
      (fun u => u.«from» == z && u.symbol == sym) = none) →
      targetPartitionIndex (reachableDFAOf dfa) (minParts dfa) z sym = -1 := by
    intro z sym hf
    apply targetPartitionIndex_none
    rw [List.find?_eq_none]
    intro u hu hpred
    exact (List.find?_eq_none.mp hf) u ((hRmem u).mp hu).1 hpred
  intro cs
  induction cs with
  | nil =>
    intro k q p₁ p₂ hk hq
    rw [dfaWalk_nil, dfaWalk_nil]
    show decide (q ∈ dfa.finalStates) =
      decide (generateAlphabeticStateName k ∈ (minimizedDFAOf dfa).finalStates)
    by_cases hqf : q ∈ dfa.finalStates
    · rw [decide_eq_true hqf, decide_eq_true ((hfinals_iff k hk q hq).mp hqf)]
    · rw [decide_eq_false hqf,
        decide_eq_false (fun hc => hqf ((hfinals_iff k hk q hq).mpr hc))]
  | cons c cs ih =>
    intro k q p₁ p₂ hk hq
    have hqflat : q ∈ (minParts dfa).flatten := mem_flatten_of_getD hk hq
    have hqreach : q ∈ getReachableStates dfa := (hflat q).mp hqflat
    rcases hf : dfa.transitions.find?
        (fun u => u.«from» == q && u.symbol == charSym c) with _ | t
    · have hmfind : (minimizedDFAOf dfa).transitions.find?
          (fun u => u.«from» == generateAlphabeticStateName k &&
            u.symbol == charSym c) = none := by
        rw [List.find?_eq_none]
        intro u hu hpred'
        simp only [Bool.and_eq_true, beq_iff_eq] at hpred'
        rcases hb4 u hu with hu0 | ⟨t'', ht'', hueq⟩
        · exact absurd hu0 (List.not_mem_nil u)
        · obtain ⟨ht''d, hfr'', hto''⟩ := (hRmem t'').mp ht''
          have hufrom : (mlookup (minStateMapping dfa) t''.«from»).getD "" =
              generateAlphabeticStateName k := by
            rw [hueq] at hpred'
            exact hpred'.1
          have husym : t''.symbol = charSym c := by
            rw [hueq] at hpred'
            exact hpred'.2
          obtain ⟨kf, hkf, hqf⟩ := flatten_index_exists ((hflat _).mpr hfr'')
          have hslf : mlookup (minStateMapping dfa) t''.«from» =
              some (generateAlphabeticStateName kf) :=
            stateMapping_lookup hnd hkf hqf
          have hkfk : kf = k := by
            apply generateAlphabeticStateName_inj
            rw [← hufrom, hslf]
            rfl
          subst hkfk
          obtain ⟨kt, hkt, hqt⟩ := flatten_index_exists ((hflat _).mpr hto'')
          have hstab := splitPartitionHopcroft_stable_index (reachableDFAOf dfa)
            ((minParts dfa).getD kf []) (minParts dfa) (charSym c)
            (hstable _ (hblockmem kf hkf) (charSym c)
              (husym ▸ hsymal t'' ht''))
            q hq t''.«from» hqf
          have hq_idx : targetPartitionIndex (reachableDFAOf dfa) (minParts dfa)
              q (charSym c) = -1 := hnoidx q (charSym c) hf
          have hf_idx : targetPartitionIndex (reachableDFAOf dfa) (minParts dfa)
              t''.«from» (charSym c) = (kt : Int) := by
            rw [← husym]
            exact hidx t''.«from» (mem_flatten_of_getD hkf hqf) t'' ht''d rfl
              kt hkt hqt
          rw [hq_idx, hf_idx] at hstab
          omega
      rw [dfaWalk_cons_none hf, dfaWalk_cons_none hmfind]
    · have ht := List.mem_of_find?_eq_some hf
      have hpred := List.find?_some hf
      simp only [Bool.and_eq_true, beq_iff_eq] at hpred
      have htoreach : t.«to» ∈ getReachableStates dfa :=
        hrclosed q hqreach _ ⟨t, ht, hpred.1, rfl⟩
      obtain ⟨k', hk', hq'⟩ := flatten_index_exists ((hflat t.«to»).mpr htoreach)
      have htR : t ∈ (reachableDFAOf dfa).transitions :=
        (hRmem t).mpr ⟨ht, by rw [hpred.1]; exact hqreach, htoreach⟩
      have hmapfrom : (mlookup (minStateMapping dfa) t.«from»).getD "" =
          generateAlphabeticStateName k := by
        have hsl : mlookup (minStateMapping dfa) t.«from» =
            some (generateAlphabeticStateName k) := by
          rw [hpred.1]
          exact stateMapping_lookup hnd hk hq
        rw [hsl]
        rfl
      have hmapto : (mlookup (minStateMapping dfa) t.«to»).getD "" =
          generateAlphabeticStateName k' := by
        have hsl : mlookup (minStateMapping dfa) t.«to» =
            some (generateAlphabeticStateName k') := stateMapping_lookup hnd hk' hq'
        rw [hsl]
        rfl
      have hu₀ : (⟨generateAlphabeticStateName k, generateAlphabeticStateName k',
          t.symbol⟩ : Transition) ∈ (minimizedDFAOf dfa).transitions := by
        have := hb3 t htR
        rw [hmapfrom, hmapto] at this
        exact this
      obtain ⟨u, hufind⟩ : ∃ u, (minimizedDFAOf dfa).transitions.find?
          (fun v => v.«from» == generateAlphabeticStateName k &&
            v.symbol == charSym c) = some u :=
        Option.isSome_iff_exists.mp (List.find?_isSome.mpr ⟨_, hu₀, by
          simp [hpred.2]⟩)
      have humem := List.mem_of_find?_eq_some hufind
      have hupred := List.find?_some hufind
      simp only [Bool.and_eq_true, beq_iff_eq] at hupred
      have huto : u.«to» = generateAlphabeticStateName k' := by
        rcases hb4 u humem with hu0 | ⟨t'', ht'', hueq⟩
        · exact absurd hu0 (List.not_mem_nil u)
        · obtain ⟨ht''d, hfr'', hto''⟩ := (hRmem t'').mp ht''
          have hufrom : (mlookup (minStateMapping dfa) t''.«from»).getD "" =
              generateAlphabeticStateName k := by
            rw [hueq] at hupred
            exact hupred.1
          have husym : t''.symbol = charSym c := by
            rw [hueq] at hupred
            exact hupred.2
          obtain ⟨kf, hkf, hqf⟩ := flatten_index_exists ((hflat _).mpr hfr'')
          have hslf : mlookup (minStateMapping dfa) t''.«from» =
              some (generateAlphabeticStateName kf) :=
            stateMapping_lookup hnd hkf hqf
          have hkfk : kf = k := by
            apply generateAlphabeticStateName_inj
            rw [← hufrom, hslf]
            rfl
          subst hkfk
          obtain ⟨kt, hkt, hqt⟩ := flatten_index_exists ((hflat _).mpr hto'')
          have hstab := splitPartitionHopcroft_stable_index (reachableDFAOf dfa)
            ((minParts dfa).getD kf []) (minParts dfa) (charSym c)
            (hstable _ (hblockmem kf hkf) (charSym c)
              (husym ▸ hsymal t'' ht''))
            q hq t''.«from» hqf
          have hq_idx : targetPartitionIndex (reachableDFAOf dfa) (minParts dfa)
              q (charSym c) = (k' : Int) := by
            rw [← hpred.2]
            exact hidx q hqflat t ht hpred.1 k' hk' hq'
          have hf_idx : targetPartitionIndex (reachableDFAOf dfa) (minParts dfa)
              t''.«from» (charSym c) = (kt : Int) := by
            rw [← husym]
            exact hidx t''.«from» (mem_flatten_of_getD hkf hqf) t'' ht''d rfl
              kt hkt hqt
          have hk'kt : k' = kt := by
            rw [hq_idx, hf_idx] at hstab
            omega
          have hslt : mlookup (minStateMapping dfa) t''.«to» =
              some (generateAlphabeticStateName kt) := stateMapping_lookup hnd hkt hqt
          rw [hueq]
          show (mlookup (minStateMapping dfa) t''.«to»).getD "" = _
          rw [hslt, hk'kt]
          rfl
      rw [dfaWalk_cons_found hf, dfaWalk_cons_found hufind, huto]
      exact ih k' t.«to» (p₁ ++ [t.«to»]) (p₂ ++ [generateAlphabeticStateName k'])
        hk' hq'

/-! # Claim theorems -/

theorem destsOf_pos {ts : List Transition} {t : Transition} (ht : t ∈ ts) :
    1 ≤ (destsOf ts t.«from» t.symbol).length := by
  have hmem : t.«to» ∈ destsOf ts t.«from» t.symbol := by
    unfold destsOf
    rw [mem_dedupKeep]
    exact List.mem_map.mpr ⟨t, List.mem_filter.mpr ⟨ht, by simp⟩, rfl⟩
  exact List.length_pos.mpr (List.ne_nil_of_mem hmem)

/-- C6 (amended): provided no `from` identifier contains a dash (the
grouping key is `from + "-" + symbol`, so dashes in `from` can alias
distinct pairs), the classifier returns NFA whenever an
epsilon-equivalent symbol occurs; and in the absence of
epsilon-equivalent symbols it returns NFA exactly when some true
`(from, symbol)` pair has at least two distinct destinations, and DFA
exactly when every occurring pair has exactly one. -/
theorem classify_epsilon_and_grouping (a : Automaton)
    (hdash : ∀ t ∈ a.transitions, '-' ∉ t.«from».data) :
    ((∃ t ∈ a.transitions, isEpsilon t.symbol = true) →
      determineAutomatonType a = .NFA) ∧
    ((∀ t ∈ a.transitions, isEpsilon t.symbol = false) →
      (determineAutomatonType a = .NFA ↔
        ∃ t ∈ a.transitions,
          2 ≤ (destsOf a.transitions t.«from» t.symbol).length) ∧
      (determineAutomatonType a = .DFA ↔
        ∀ t ∈ a.transitions,
          (destsOf a.transitions t.«from» t.symbol).length = 1)) := by
  constructor
  · intro ⟨t, ht, heps⟩
    unfold determineAutomatonType
    rw [if_pos (List.any_eq_true.mpr ⟨t, ht, heps⟩)]
  · intro hnoeps
    have hany : a.transitions.any (fun t => isEpsilon t.symbol) = false := by
      rw [List.any_eq_false]
      intro t ht
      simp [hnoeps t ht]
    have hnd_iff : determineAutomatonType a = .NFA ↔
        ∃ t ∈ a.transitions, 2 ≤ (destsOf a.transitions t.«from» t.symbol).length := by
      unfold determineAutomatonType
      rw [if_neg (by simp [hany])]
      constructor
      · intro h
        by_cases hnd : hasNondeterministicTransitions a.transitions = true
        · obtain ⟨t, ht, hlen⟩ := (hasNondeterministicTransitions_iff _).mp hnd
          exact ⟨t, ht, by rwa [destsOfKey_eq_destsOf hdash ht] at hlen⟩
        · rw [if_neg (by simpa using hnd)] at h
          exact absurd h (by simp)
      · intro ⟨t, ht, hlen⟩
        have hnd : hasNondeterministicTransitions a.transitions = true :=
          (hasNondeterministicTransitions_iff _).mpr
            ⟨t, ht, by rwa [destsOfKey_eq_destsOf hdash ht]⟩
        rw [if_pos hnd]
    refine ⟨hnd_iff, ?_⟩
    have htype : determineAutomatonType a = .DFA ↔ ¬ determineAutomatonType a = .NFA := by
      cases h : determineAutomatonType a <;> simp
    rw [htype, hnd_iff]
    push_neg
    constructor
    · intro h t ht
      have h1 := destsOf_pos ht
      have h2 := h t ht
      omega
    · intro h t ht
      have := h t ht
      omega

/-- C6 (counterexample): a transition set with no epsilon-equivalent
symbol in which every true `(from, symbol)` pair has exactly one
destination — `("A-", "0") ↦ B` and `("A", "-0") ↦ C` — yet the
classifier returns NFA, because both pairs share the grouping key
`"A--0"`. -/
theorem classify_dash_alias_counterexample :
    (∀ t ∈ dashAliasAutomaton.transitions, isEpsilon t.symbol = false) ∧
    (∀ t ∈ dashAliasAutomaton.transitions,
      (destsOf dashAliasAutomaton.transitions t.«from» t.symbol).length = 1) ∧
    determineAutomatonType dashAliasAutomaton = .NFA := by
  exact ⟨by decide, by decide, by decide⟩

/-- C6 witness: the spec's nondeterministic two-destination scenario. -/
theorem classify_epsilon_and_grouping_witness :
    (∀ t ∈ nondetPairAutomaton.transitions, '-' ∉ t.«from».data) ∧
    (((∃ t ∈ nondetPairAutomaton.transitions, isEpsilon t.symbol = true) →
        determineAutomatonType nondetPairAutomaton = .NFA) ∧
      ((∀ t ∈ nondetPairAutomaton.transitions, isEpsilon t.symbol = false) →
        (determineAutomatonType nondetPairAutomaton = .NFA ↔
          ∃ t ∈ nondetPairAutomaton.transitions,
            2 ≤ (destsOf nondetPairAutomaton.transitions t.«from» t.symbol).length) ∧
        (determineAutomatonType nondetPairAutomaton = .DFA ↔
          ∀ t ∈ nondetPairAutomaton.transitions,
            (destsOf nondetPairAutomaton.transitions t.«from» t.symbol).length = 1))) :=
  ⟨by decide, classify_epsilon_and_grouping nondetPairAutomaton (by decide)⟩

/-- C10 (amended): provided no `from` identifier and no symbol contains
a dash (the report reconstructs the pair by splitting the grouping key
on dashes), `analyze` reports exactly one entry per true
`(from, symbol)` pair with at least two distinct destinations, carrying
that pair's `from`, `symbol` and its distinct destinations in
first-occurrence order. -/
theorem analyze_nondet_report (a : Automaton)
    (hdash : ∀ t ∈ a.transitions, '-' ∉ t.«from».data ∧ '-' ∉ t.symbol.data) :
    (((analyzeAutomaton a).nondeterministicTransitions.map
      (fun e => (e.«from», e.symbol))).Nodup) ∧
    (∀ e ∈ (analyzeAutomaton a).nondeterministicTransitions,
      (∃ t ∈ a.transitions, t.«from» = e.«from» ∧ t.symbol = e.symbol) ∧
      e.destinations = destsOf a.transitions e.«from» e.symbol ∧
      2 ≤ e.destinations.length) ∧
    (∀ t ∈ a.transitions,
      2 ≤ (destsOf a.transitions t.«from» t.symbol).length →
      ∃ e ∈ (analyzeAutomaton a).nondeterministicTransitions,
        e.«from» = t.«from» ∧ e.symbol = t.symbol) := by
  have hS1 : ∀ e ∈ buildTransitionMap a.transitions,
      ∃ t ∈ a.transitions, e.1 = pairKey t ∧ e.2 = destsOfKey a.transitions e.1 := by
    intro e he
    obtain ⟨k, vs⟩ := e
    have hk : k ∈ (buildTransitionMap a.transitions).map Prod.fst :=
      List.mem_map.mpr ⟨(k, vs), he, rfl⟩
    rw [keys_buildTransitionMap, mem_dedupKeep] at hk
    obtain ⟨t, ht, hkt⟩ := List.mem_map.mp hk
    have hl := (mem_iff_lookupDests (keys_buildTransitionMap_nodup _) k vs).mp he
    rw [lookupDests_buildTransitionMap, if_pos ⟨t, ht, hkt⟩] at hl
    exact ⟨t, ht, hkt.symm, by injection hl with h; exact h.symm⟩
  have hsplit : ∀ t ∈ a.transitions, splitPair (pairKey t) = (t.«from», t.symbol) := by
    intro t ht
    exact splitPair_eq (hdash t ht).1 (hdash t ht).2
  have hMnodup : (buildTransitionMap a.transitions).Nodup :=
    (keys_buildTransitionMap_nodup a.transitions).of_map
  have hkeyinj : ∀ e₁ ∈ buildTransitionMap a.transitions,
      ∀ e₂ ∈ buildTransitionMap a.transitions, e₁.1 = e₂.1 → e₁ = e₂ := by
    intro e₁ h₁ e₂ h₂ hk
    have l₁ := (mem_iff_lookupDests (keys_buildTransitionMap_nodup _) e₁.1 e₁.2).mp
      (by simpa using h₁)
    have l₂ := (mem_iff_lookupDests (keys_buildTransitionMap_nodup _) e₂.1 e₂.2).mp
      (by simpa using h₂)
    rw [hk] at l₁
    rw [l₂] at l₁
    have : e₂.2 = e₁.2 := by injection l₁
    obtain ⟨k₁, v₁⟩ := e₁
    obtain ⟨k₂, v₂⟩ := e₂
    simp_all
  refine ⟨?_, ?_, ?_⟩
  · show ((((buildTransitionMap a.transitions).filter
        (fun e => decide (1 < e.2.length))).map _).map _).Nodup
    rw [List.map_map]
    apply List.Nodup.map_on
    · intro e₁ h₁ e₂ h₂ hpair
      have he₁ := List.mem_of_mem_filter h₁
      have he₂ := List.mem_of_mem_filter h₂
      obtain ⟨t₁, ht₁, hk₁, _⟩ := hS1 e₁ he₁
      obtain ⟨t₂, ht₂, hk₂, _⟩ := hS1 e₂ he₂
      simp only [Function.comp] at hpair
      rw [hk₁, hk₂, hsplit t₁ ht₁, hsplit t₂ ht₂] at hpair
      have hff : t₁.«from» = t₂.«from» := congrArg Prod.fst hpair
      have hss : t₁.symbol = t₂.symbol := congrArg Prod.snd hpair
      have : e₁.1 = e₂.1 := by
        rw [hk₁, hk₂]
        unfold pairKey
        rw [hff, hss]
      exact hkeyinj e₁ he₁ e₂ he₂ this
    · exact List.Nodup.filter _ hMnodup
  · intro e he
    obtain ⟨e', he', hge⟩ := List.mem_map.mp he
    have hmem := List.mem_of_mem_filter he'
    have hlen : 1 < e'.2.length := by
      have := List.of_mem_filter he'
      simpa using this
    obtain ⟨t, ht, hk, hv⟩ := hS1 e' hmem
    have hsp : splitPair e'.1 = (t.«from», t.symbol) := by
      rw [hk]; exact hsplit t ht
    have hef : e.«from» = t.«from» := by rw [← hge]; simp [hsp]
    have hes : e.symbol = t.symbol := by rw [← hge]; simp [hsp]
    have hed : e.destinations = e'.2 := by rw [← hge]
    refine ⟨⟨t, ht, hef.symm, hes.symm⟩, ?_, ?_⟩
    · rw [hed, hv, hk, hef, hes]
      exact destsOfKey_eq_destsOf (fun u hu => (hdash u hu).1) ht
    · rw [hed]; omega
  · intro t ht hlen
    have hentry : (pairKey t, destsOfKey a.transitions (pairKey t)) ∈
        buildTransitionMap a.transitions := by
      rw [mem_iff_lookupDests (keys_buildTransitionMap_nodup _),
        lookupDests_buildTransitionMap, if_pos ⟨t, ht, rfl⟩]
    have hfilt : (pairKey t, destsOfKey a.transitions (pairKey t)) ∈
        (buildTransitionMap a.transitions).filter (fun e => decide (1 < e.2.length)) := by
      apply List.mem_filter.mpr
      refine ⟨hentry, ?_⟩
      have := destsOfKey_eq_destsOf (fun u hu => (hdash u hu).1) ht
      simp only [this]
      simpa using hlen
    refine ⟨_, List.mem_map.mpr ⟨_, hfilt, rfl⟩, ?_⟩
    simp [hsplit t ht]

/-- C10 (counterexample): with the dash-containing source state
`"A-B"`, the (unique) nondeterministic pair `("A-B", "0")` is reported
as the entry `{from: "A", symbol: "B", destinations: ["B","C"]}` — the
split of the grouping key misparses the pair, so no reported entry
carries the pair's true `from`/`symbol`. -/
theorem analyze_dash_from_counterexample :
    2 ≤ (destsOf dashFromAutomaton.transitions "A-B" "0").length ∧
    (analyzeAutomaton dashFromAutomaton).nondeterministicTransitions =
      [{ «from» := "A", symbol := "B", destinations := ["B", "C"] }] ∧
    (∀ e ∈ (analyzeAutomaton dashFromAutomaton).nondeterministicTransitions,
      ¬ (e.«from» = "A-B" ∧ e.symbol = "0")) := by
  exact ⟨by decide, by decide, by decide⟩

/-- C10 witness: the spec's concrete scenario `A-0→B`, `A-0→C`:
classified NFA, one reported entry `{from: "A", symbol: "0",
destinations: ["B","C"]}`, and the amended report properties hold. -/
theorem analyze_nondet_report_witness :
    (∀ t ∈ nondetPairAutomaton.transitions,
      '-' ∉ t.«from».data ∧ '-' ∉ t.symbol.data) ∧
    determineAutomatonType nondetPairAutomaton = .NFA ∧
    ((analyzeAutomaton nondetPairAutomaton).nondeterministicTransitions =
      [{ «from» := "A", symbol := "0", destinations := ["B", "C"] }]) ∧
    ((((analyzeAutomaton nondetPairAutomaton).nondeterministicTransitions.map
        (fun e => (e.«from», e.symbol))).Nodup) ∧
      (∀ e ∈ (analyzeAutomaton nondetPairAutomaton).nondeterministicTransitions,
        (∃ t ∈ nondetPairAutomaton.transitions,
          t.«from» = e.«from» ∧ t.symbol = e.symbol) ∧
        e.destinations = destsOf nondetPairAutomaton.transitions e.«from» e.symbol ∧
        2 ≤ e.destinations.length) ∧
      (∀ t ∈ nondetPairAutomaton.transitions,
        2 ≤ (destsOf nondetPairAutomaton.transitions t.«from» t.symbol).length →
        ∃ e ∈ (analyzeAutomaton nondetPairAutomaton).nondeterministicTransitions,
          e.«from» = t.«from» ∧ e.symbol = t.symbol)) :=
  ⟨by decide, by decide, by decide,
    analyze_nondet_report nondetPairAutomaton (by decide)⟩

/-- C8: completion is idempotent — in fact
`complete(complete(dfa))` is literally the same value as
`complete(dfa)` for every automaton, which is stronger than the
claimed equality modulo dead-state identity: the second run adds no
states and no transitions.  The second invocation either sees a
complete DFA or finds no missing `(state, symbol)` pair, and the three
early-return branches all hand the input back unchanged. -/
theorem makeCompleteDFA_idempotent (a : Automaton) :
    makeCompleteDFA (makeCompleteDFA a) = makeCompleteDFA a := by
  by_cases h1 : isCompleteDFA a = true
  · rw [makeCompleteDFA_of_complete h1]
    exact makeCompleteDFA_of_complete h1
  by_cases h2 : (alphabetOf a.transitions).length = 0
  · rw [makeCompleteDFA_of_alphabet_nil h1 h2]
    exact makeCompleteDFA_of_alphabet_nil h1 h2
  by_cases h3 : (missingTransitionPairs a.transitions (a.states.map (fun s => s.id))
      (alphabetOf a.transitions)).length = 0
  · rw [makeCompleteDFA_of_no_missing h1 h2 h3]
    exact makeCompleteDFA_of_no_missing h1 h2 h3
  rw [makeCompleteDFA_of_build h1 h2 h3]
  set A := alphabetOf a.transitions with hA
  set M := missingTransitionPairs a.transitions (a.states.map (fun s => s.id)) A
    with hM
  set d := deadNameOf a with hd
  set R : Automaton :=
    { states := a.states ++ [⟨d⟩]
      transitions := a.transitions
        ++ M.map (fun m => ⟨m.1, d, m.2⟩)
        ++ A.map (fun sym => ⟨d, d, sym⟩)
      startState := a.startState
      finalStates := a.finalStates
      type := .DFA } with hR
  have hRtrans : R.transitions = a.transitions ++
      (M.map (fun m => ⟨m.1, d, m.2⟩) ++ A.map (fun sym => ⟨d, d, sym⟩)) := by
    rw [hR]
    simp
  have hRalpha : alphabetOf R.transitions = A := by
    rw [hRtrans]
    rw [alphabetOf_append]
    intro t ht
    rcases List.mem_append.mp ht with hdead | hloop
    · obtain ⟨m, hm, hmt⟩ := List.mem_map.mp hdead
      have : (m.1, m.2) ∈ M := by simpa using hm
      have := (mem_missingTransitionPairs.mp this).2.1
      rw [← hmt] at *
      simpa using this
    · obtain ⟨sym, hsym, hst⟩ := List.mem_map.mp hloop
      rw [← hst]
      simpa using hsym
  have hRids : R.states.map (fun s => s.id) = a.states.map (fun s => s.id) ++ [d] := by
    rw [hR]
    simp
  have hRmissing : missingTransitionPairs R.transitions
      (R.states.map (fun s => s.id)) (alphabetOf R.transitions) = [] := by
    rw [List.eq_nil_iff_forall_not_mem]
    rintro ⟨x, y⟩ hmem
    rw [mem_missingTransitionPairs] at hmem
    obtain ⟨hx, hy, hnone⟩ := hmem
    rw [hRalpha] at hy
    rw [List.any_eq_false] at hnone
    rw [hRids] at hx
    rcases List.mem_append.mp hx with hxa | hxd
    · by_cases hcov : a.transitions.any (fun t => t.«from» == x && t.symbol == y) = true
      · obtain ⟨t, ht, hty⟩ := List.any_eq_true.mp hcov
        exact absurd hty (by
          simpa using hnone t (by rw [hRtrans]; exact List.mem_append_left _ ht))
      · have hinM : (x, y) ∈ M := by
          rw [hM]
          exact mem_missingTransitionPairs.mpr ⟨hxa, hy, by simpa using hcov⟩
        have hedge : (⟨x, d, y⟩ : Transition) ∈ R.transitions := by
          rw [hRtrans]
          exact List.mem_append_right _ (List.mem_append_left _
            (List.mem_map.mpr ⟨(x, y), hinM, rfl⟩))
        have := hnone _ hedge
        simp at this
    · have hxd' : x = d := by simpa using hxd
      have hloop : (⟨d, d, y⟩ : Transition) ∈ R.transitions := by
        rw [hRtrans]
        exact List.mem_append_right _ (List.mem_append_right _
          (List.mem_map.mpr ⟨y, hy, rfl⟩))
      have := hnone _ hloop
      rw [hxd'] at this
      simp at this
  by_cases hc : isCompleteDFA R = true
  · exact makeCompleteDFA_of_complete hc
  · exact makeCompleteDFA_of_no_missing hc
      (by rw [hRalpha]; exact h2) (by rw [hRmissing]; rfl)

/-- C3: the synthetic state-name generator does NOT produce the
spreadsheet-style sequence the spec (and the source's own comment
`A, B, C, ..., Z, AA, AB, AC, ...`) describes: index 26 yields `"BA"`,
not `"AA"`, and index 27 yields `"BB"`, not `"AB"` — the generator is a
plain base-26 positional encoding with digit `A = 0` and therefore
skips every string whose leading letter is `A` (e.g. `"AA"`). -/
theorem generateAlphabeticStateName_skips_AA :
    generateAlphabeticStateName 0 = "A" ∧
    generateAlphabeticStateName 25 = "Z" ∧
    generateAlphabeticStateName 26 = "BA" ∧
    generateAlphabeticStateName 27 = "BB" := by
  refine ⟨rfl, rfl, rfl, rfl⟩

/-- C4 (counterexample): on the spec's concrete three-state DFA the
minimizer records 2 partitioning steps (the initial split of
`{A,B},{C}` plus the refinement step splitting `{A,B}` on symbol `0`),
so `partitioningSteps.length === 1` is false. -/
theorem exampleMinimalDFA_steps_ne_one :
    (minimizeDFAWithDetails exampleMinimalDFA).partitioningSteps.length ≠ 1 := by
  decide

/-- C4 (amended): on the spec's concrete three-state DFA the minimizer
returns a minimized DFA with 3 states and a partitioning trace with
exactly 2 steps: the initial final/non-final split and one refinement
step that splits the partition `{A, B}`. -/
theorem exampleMinimalDFA_minimization :
    (minimizeDFAWithDetails exampleMinimalDFA).minimizedDFA.states.length = 3 ∧
    (minimizeDFAWithDetails exampleMinimalDFA).partitioningSteps.length = 2 := by
  constructor
  · decide
  · decide

/-- C9: for a DFA-typed input (in particular an incomplete one, which
the completion step densifies internally), the `originalDFA` field of
the minimization result is the caller's input exactly as given, not the
densified intermediate automaton. -/
theorem minimize_originalDFA_is_input (dfa : Automaton)
    (hty : dfa.type = .DFA) (_hinc : isCompleteDFA dfa = false) :
    (minimizeDFAWithDetails dfa).originalDFA = dfa := by
  rw [minimizeDFAWithDetails]
  simp [hty]

/-- C9 witness: the incomplete two-state DFA. -/
theorem minimize_originalDFA_is_input_witness :
    incompleteDFA.type = .DFA ∧ isCompleteDFA incompleteDFA = false ∧
    (minimizeDFAWithDetails incompleteDFA).originalDFA = incompleteDFA :=
  ⟨rfl, by decide, minimize_originalDFA_is_input incompleteDFA rfl (by decide)⟩

/-- C5: for every automaton typed NFA, the subset construction
`convertNFAToDFA` returns an automaton whose type is DFA, which the
classifier `determineAutomatonType` classifies DFA, and which
`isCompleteDFA` accepts: every state has exactly one transition per
alphabet symbol, with no epsilon transitions and no nondeterminism. -/
theorem convertNFAToDFA_complete (a : Automaton) (h : a.type = .NFA) :
    (convertNFAToDFA a).type = .DFA ∧
    determineAutomatonType (convertNFAToDFA a) = .DFA ∧
    isCompleteDFA (convertNFAToDFA a) = true := by
  have hty : ¬ a.type = .DFA := by rw [h]; decide
  obtain ⟨hsyms, hfun, hcov⟩ := convertNFAToDFA_functional a hty
  have htype : (convertNFAToDFA a).type = .DFA := by
    unfold convertNFAToDFA
    rw [if_neg hty]
  have heps : (convertNFAToDFA a).transitions.any
      (fun t => isEpsilon t.symbol) = false := by
    rw [List.any_eq_false]
    intro t ht
    have hsy := (hsyms t ht).1
    rw [mem_alphabetOf] at hsy
    simp [hsy.2]
  have hnd : hasNondeterministicTransitions (convertNFAToDFA a).transitions
      = false := by
    by_contra hc
    rw [Bool.not_eq_false, hasNondeterministicTransitions_iff] at hc
    obtain ⟨t, ht, hlen⟩ := hc
    have hle := @destsOfKey_length_le_one (convertNFAToDFA a).transitions
      (pairKey t)
      (fun t₁ h₁ t₂ h₂ hk₁ hk₂ => hfun t₁ h₁ t₂ h₂ (by rw [hk₁, hk₂]))
    omega
  refine ⟨htype, ?_, ?_⟩
  · unfold determineAutomatonType
    rw [heps, hnd]
    simp
  · unfold isCompleteDFA
    rw [htype, heps, hnd]
    rw [if_neg (by decide), if_neg (by simp), if_neg (by simp)]
    simp only [List.all_eq_true, List.any_eq_true]
    intro st hst sym hsym
    have hsym' : sym ∈ alphabetOf a.transitions := by
      rw [mem_alphabetOf] at hsym
      obtain ⟨⟨t, ht, hts⟩, _⟩ := hsym
      have := (hsyms t ht).1
      rw [hts] at this
      exact this
    obtain ⟨t, ht, hfrom, hsymeq⟩ := hcov st hst sym hsym'
    exact ⟨t, ht, by rw [hfrom, hsymeq]; simp⟩

/-- C5 witness: the concrete ε-NFA instantiation. -/
theorem convertNFAToDFA_complete_witness :
    epsilonNFA.type = .NFA ∧
    ((convertNFAToDFA epsilonNFA).type = .DFA ∧
      determineAutomatonType (convertNFAToDFA epsilonNFA) = .DFA ∧
      isCompleteDFA (convertNFAToDFA epsilonNFA) = true) :=
  ⟨by decide, convertNFAToDFA_complete epsilonNFA (by decide)⟩

/-- C2 (amended): the subset construction preserves string acceptance
under well-behaved identifiers and inputs: for an automaton typed NFA
whose start state is a nonempty comma-free identifier, whose transition
targets are nonempty and comma-free, and for an input none of whose
characters is an epsilon-equivalent symbol, `testString` through the
original automaton and through `convertNFAToDFA` agree.  (The
unrestricted claim is false, see the comma-alias counterexample.) -/
theorem convertNFAToDFA_preserves_acceptance (a : Automaton) (w s : String)
    (hty : a.type = .NFA)
    (hs : a.startState = some s) (hsne : s ≠ "") (hscf : ',' ∉ s.data)
    (htgt : ∀ t ∈ a.transitions, t.«to» ≠ "" ∧ ',' ∉ t.«to».data)
    (hw : ∀ c ∈ w.data, isEpsilon (charSym c) = false) :
    (testString a w).accepted = (testString (convertNFAToDFA a) w).accepted := by
  have hty' : ¬ a.type = .DFA := by rw [hty]; decide
  have hids : ∀ x ∈ subsetUniv a, ¬ x = "" ∧ ',' ∉ x.data := by
    intro x hx
    rcases List.mem_append.mp hx with hx | hx
    · unfold startSeeds at hx
      rw [hs] at hx
      rw [List.mem_singleton] at hx
      subst hx
      exact ⟨hsne, hscf⟩
    · obtain ⟨t, ht, hto⟩ := List.mem_map.mp hx
      rw [← hto]
      exact htgt t ht
  obtain ⟨sets, hpos, hstartcl, hg, hr⟩ := subsetFinal_spec a
  have hL : testString a w = testStringNFA a w := by
    unfold testString
    rw [hs]
    show (if s = "" then (⟨false, none⟩ : TestResult)
      else if a.type = .DFA then testStringDFA a w else testStringNFA a w) = _
    rw [if_neg hsne, if_neg hty']
  have hR : testString (convertNFAToDFA a) w =
      testStringDFA (convertNFAToDFA a) w := by
    unfold testString
    rw [convertNFAToDFA_start a hty']
    show (if generateAlphabeticStateName 0 = "" then (⟨false, none⟩ : TestResult)
      else if (convertNFAToDFA a).type = .DFA then
        testStringDFA (convertNFAToDFA a) w
      else testStringNFA (convertNFAToDFA a) w) = _
    rw [if_neg (generateAlphabeticStateName_ne_empty 0),
      if_pos (convertNFAToDFA_type a hty')]
  have hgetd : a.startState.getD "" = s := by
    rw [hs]
    rfl
  have hgetd' : (convertNFAToDFA a).startState.getD "" =
      generateAlphabeticStateName 0 := by
    rw [convertNFAToDFA_start a hty']
    rfl
  rw [hL, hR, testStringNFA_eq, testStringDFA_eq, hgetd, hgetd']
  have haddset : addSet ([] : List String) s = [s] := by
    simp [addSet]
  rw [haddset]
  have hcur0 : epsilonClosure a [s] = sets.getD 0 [] := by
    rw [hstartcl]
    unfold startSeeds
    rw [hs]
  exact subset_walk_sim a hty' sets hg hr hids w.data hw 0 _ _ _ hpos
    (epsilonClosure_nodup (by simp)) (fun x => by rw [hcur0])

/-- C2 counterexample: a comma inside a state identifier makes the
state-set keys of `{"a,b"}` and of `{"a", "b"}` collide, so the subset
construction merges distinct subsets and changes the language: the NFA
accepts "0" while its conversion rejects it. -/
theorem subset_comma_alias_counterexample :
    (testString commaAliasNFA "0").accepted = true ∧
    (testString (convertNFAToDFA commaAliasNFA) "0").accepted = false := by
  constructor
  · decide
  · decide

/-- C2 witness: the ε-NFA instance on input "a". -/
theorem convertNFAToDFA_preserves_acceptance_witness :
    epsilonNFA.type = .NFA ∧
    epsilonNFA.startState = some "A" ∧
    ("A" : String) ≠ "" ∧
    ',' ∉ ("A" : String).data ∧
    (∀ t ∈ epsilonNFA.transitions, t.«to» ≠ "" ∧ ',' ∉ t.«to».data) ∧
    (∀ c ∈ ("a" : String).data, isEpsilon (charSym c) = false) ∧
    (testString epsilonNFA "a").accepted =
      (testString (convertNFAToDFA epsilonNFA) "a").accepted :=
  ⟨by decide, rfl, by decide, by decide, by decide, by decide,
    convertNFAToDFA_preserves_acceptance epsilonNFA "a" "A" (by decide) rfl
      (by decide) (by decide) (by decide) (by decide)⟩

theorem minParts_degenerate (dfa : Automaton)
    (hr : getReachableStates (makeCompleteDFA dfa) = []) :
    minParts dfa = [] ∧ minStateMapping dfa = [] := by
  have hRst : (reachableDFAOf dfa).states = [] := by
    show (makeCompleteDFA dfa).states.filter _ = []
    rw [hr]
    simp
  have hRfin : (reachableDFAOf dfa).finalStates = [] := by
    show (makeCompleteDFA dfa).finalStates.filter _ = []
    rw [hr]
    simp
  have hNF : minNonFinals dfa = [] := by
    unfold minNonFinals
    rw [hRst]
    rfl
  have hP0 : minPartitions0 dfa = [] := by
    unfold minPartitions0
    rw [hNF, hRfin]
    rfl
  have hMP : minParts dfa = [] := by
    unfold minParts minRefine
    rw [hP0, hRst]
    rfl
  refine ⟨hMP, ?_⟩
  unfold minStateMapping
  rw [hMP]
  rfl

set_option maxHeartbeats 1000000 in
/-- C1 (with validity hypotheses): Hopcroft minimization preserves the
accepted language — for every automaton that `isCompleteDFA` accepts,
with duplicate-free state identifiers and final states, transition
endpoints drawn from the listed states, and a start state (when
present) drawn from the listed states, `testString` on the input and on
the minimizer's `minimizedDFA` agree on acceptance for every input
string. -/
theorem minimize_preserves_language (dfa : Automaton) (w : String)
    (hcompl : isCompleteDFA dfa = true)
    (hids : (dfa.states.map (fun st => st.id)).Nodup)
    (hfinnd : dfa.finalStates.Nodup)
    (htr : ∀ t ∈ dfa.transitions,
      t.«from» ∈ dfa.states.map (fun st => st.id) ∧
      t.«to» ∈ dfa.states.map (fun st => st.id))
    (hstart : ∀ s, dfa.startState = some s →
      s ∈ dfa.states.map (fun st => st.id)) :
    (testString dfa w).accepted =
      (testString (minimizeDFAWithDetails dfa).minimizedDFA w).accepted := by
  have hcomp : makeCompleteDFA dfa = dfa := makeCompleteDFA_of_complete hcompl
  obtain ⟨hty, heps, hnodet, hcov⟩ := isCompleteDFA_unfolded hcompl
  have hmin : (minimizeDFAWithDetails dfa).minimizedDFA = minimizedDFAOf dfa := by
    unfold minimizeDFAWithDetails
    rw [if_neg (by simp [hty])]
  rw [hmin]
  have hrs : (reachableDFAOf dfa).startState = dfa.startState := by
    show (makeCompleteDFA dfa).startState = dfa.startState
    rw [hcomp]
  rcases hss : dfa.startState with _ | s
  · have hms : (minimizedDFAOf dfa).startState = none := by
      show (match (reachableDFAOf dfa).startState with
        | none => none
        | some s => mlookup (minStateMapping dfa) s) = none
      rw [hrs, hss]
    unfold testString
    rw [hss, hms]
  · by_cases hse : s = ""
    · subst hse
      have hr : getReachableStates (makeCompleteDFA dfa) = [] := by
        rw [hcomp]
        unfold getReachableStates
        rw [hss]
        rfl
      obtain ⟨hMP, hSM⟩ := minParts_degenerate dfa hr
      have hms : (minimizedDFAOf dfa).startState = none := by
        show (match (reachableDFAOf dfa).startState with
          | none => none
          | some s => mlookup (minStateMapping dfa) s) = none
        rw [hrs, hss]
        show mlookup (minStateMapping dfa) "" = none
        rw [hSM]
        rfl
      unfold testString
      rw [hss, hms]
      rfl
    · have hsmc : (makeCompleteDFA dfa).startState = some s := by
        rw [hcomp]
        exact hss
      have hsid : s ∈ (makeCompleteDFA dfa).states.map (fun st => st.id) := by
        rw [hcomp]
        exact hstart s hss
      have hids' : ((makeCompleteDFA dfa).states.map (fun st => st.id)).Nodup := by
        rw [hcomp]
        exact hids
      have hfinnd' : (makeCompleteDFA dfa).finalStates.Nodup := by
        rw [hcomp]
        exact hfinnd
      have htr' : ∀ t ∈ (makeCompleteDFA dfa).transitions,
          t.«from» ∈ (makeCompleteDFA dfa).states.map (fun st => st.id) ∧
          t.«to» ∈ (makeCompleteDFA dfa).states.map (fun st => st.id) := by
        rw [hcomp]
        exact htr
      obtain ⟨hnd, hflat', hBne, hpure', hstable⟩ :=
        minParts_spec dfa s hsmc hse hsid hids' hfinnd' htr'
      have hflat : ∀ x, x ∈ (minParts dfa).flatten ↔
          x ∈ getReachableStates dfa := by
        intro x
        rw [hflat' x, hcomp]
      have hpure : ∀ B ∈ minParts dfa,
          (∀ x ∈ B, x ∈ dfa.finalStates) ∨ (∀ x ∈ B, x ∉ dfa.finalStates) := by
        intro B hB
        rcases hpure' B hB with h | h
        · left
          intro x hx
          have hx' := h x hx
          rwa [hcomp] at hx'
        · right
          intro x hx
          have hx' := h x hx
          rwa [hcomp] at hx'
      obtain ⟨hrnd, hrstart, hrsrc, hrclosed⟩ :=
        getReachableStates_spec dfa s hss hse
      obtain ⟨k₀, hk₀, hq₀⟩ := flatten_index_exists ((hflat s).mpr hrstart)
      have hsl : mlookup (minStateMapping dfa) s =
          some (generateAlphabeticStateName k₀) := stateMapping_lookup hnd hk₀ hq₀
      have hms : (minimizedDFAOf dfa).startState =
          some (generateAlphabeticStateName k₀) := by
        show (match (reachableDFAOf dfa).startState with
          | none => none
          | some s => mlookup (minStateMapping dfa) s) =
          some (generateAlphabeticStateName k₀)
        rw [hrs, hss]
        exact hsl
      have hmty : (minimizedDFAOf dfa).type = .DFA := rfl
      have hL : testString dfa w = testStringDFA dfa w := by
        unfold testString
        rw [hss]
        show (if s = "" then (⟨false, none⟩ : TestResult)
          else if dfa.type = .DFA then testStringDFA dfa w
          else testStringNFA dfa w) = _
        rw [if_neg hse, if_pos hty]
      have hR : testString (minimizedDFAOf dfa) w =
          testStringDFA (minimizedDFAOf dfa) w := by
        unfold testString
        rw [hms]
        show (if generateAlphabeticStateName k₀ = "" then
            (⟨false, none⟩ : TestResult)
          else if (minimizedDFAOf dfa).type = .DFA then
            testStringDFA (minimizedDFAOf dfa) w
          else testStringNFA (minimizedDFAOf dfa) w) = _
        rw [if_neg (generateAlphabeticStateName_ne_empty k₀), if_pos hmty]
      have hgetd : dfa.startState.getD "" = s := by
        rw [hss]
        rfl
      have hgetd' : (minimizedDFAOf dfa).startState.getD "" =
          generateAlphabeticStateName k₀ := by
        rw [hms]
        rfl
      rw [hL, hR, testStringDFA_eq dfa w,
        testStringDFA_eq (minimizedDFAOf dfa) w, hgetd, hgetd']
      exact minimize_walk_sim dfa hcomp hnodet hnd hflat hpure hstable hrclosed
        w.data k₀ s [s] [generateAlphabeticStateName k₀] hk₀ hq₀

/-- C1 witness: the already-minimal three-state DFA on input "00". -/
theorem minimize_preserves_language_witness :
    isCompleteDFA exampleMinimalDFA = true ∧
    ((exampleMinimalDFA.states.map (fun st => st.id)).Nodup) ∧
    exampleMinimalDFA.finalStates.Nodup ∧
    (∀ t ∈ exampleMinimalDFA.transitions,
      t.«from» ∈ exampleMinimalDFA.states.map (fun st => st.id) ∧
      t.«to» ∈ exampleMinimalDFA.states.map (fun st => st.id)) ∧
    (∀ s, exampleMinimalDFA.startState = some s →
      s ∈ exampleMinimalDFA.states.map (fun st => st.id)) ∧
    (testString exampleMinimalDFA "00").accepted =
      (testString (minimizeDFAWithDetails exampleMinimalDFA).minimizedDFA
        "00").accepted := by
  refine ⟨by decide, by decide, by decide, by decide, ?_, ?_⟩
  · intro s hs
    have h : some "A" = some s := hs
    injection h with h
    rw [← h]
    decide
  · exact minimize_preserves_language exampleMinimalDFA "00" (by decide)
      (by decide) (by decide) (by decide)
      (fun s hs => by
        have h : some "A" = some s := hs
        injection h with h
        rw [← h]
        decide)

theorem makeCompleteDFA_startState (a : Automaton) :
    (makeCompleteDFA a).startState = a.startState := by
  unfold makeCompleteDFA
  split
  · rfl
  · split
    · rfl
    · split
      · rfl
      · rfl

theorem makeCompleteDFA_cases (a : Automaton) :
    makeCompleteDFA a = a ∨
    ((makeCompleteDFA a).states = a.states ++ [⟨deadNameOf a⟩] ∧
      (makeCompleteDFA a).finalStates = a.finalStates ∧
      (makeCompleteDFA a).transitions = a.transitions
        ++ (missingTransitionPairs a.transitions (a.states.map (fun s => s.id))
            (alphabetOf a.transitions)).map (fun m => ⟨m.1, deadNameOf a, m.2⟩)
        ++ (alphabetOf a.transitions).map
            (fun sym => ⟨deadNameOf a, deadNameOf a, sym⟩)) := by
  by_cases h1 : isCompleteDFA a = true
  · exact Or.inl (makeCompleteDFA_of_complete h1)
  · by_cases h2 : (alphabetOf a.transitions).length = 0
    · exact Or.inl (makeCompleteDFA_of_alphabet_nil h1 h2)
    · by_cases h3 : (missingTransitionPairs a.transitions
          (a.states.map (fun s => s.id)) (alphabetOf a.transitions)).length = 0
      · exact Or.inl (makeCompleteDFA_of_no_missing h1 h2 h3)
      · refine Or.inr ?_
        rw [makeCompleteDFA_of_build h1 h2 h3]
        exact ⟨rfl, rfl, rfl⟩

/-- Completion preserves well-formedness: listed identifiers stay
listed, identifier and final-state lists stay duplicate-free, and all
transition endpoints of the completed automaton are listed states. -/
theorem makeCompleteDFA_valid (dfa : Automaton)
    (hids : (dfa.states.map (fun st => st.id)).Nodup)
    (hfinnd : dfa.finalStates.Nodup)
    (htr : ∀ t ∈ dfa.transitions,
      t.«from» ∈ dfa.states.map (fun st => st.id) ∧
      t.«to» ∈ dfa.states.map (fun st => st.id)) :
    (∀ x ∈ dfa.states.map (fun st => st.id),
      x ∈ (makeCompleteDFA dfa).states.map (fun st => st.id)) ∧
    ((makeCompleteDFA dfa).states.map (fun st => st.id)).Nodup ∧
    (makeCompleteDFA dfa).finalStates.Nodup ∧
    (∀ t ∈ (makeCompleteDFA dfa).transitions,
      t.«from» ∈ (makeCompleteDFA dfa).states.map (fun st => st.id) ∧
      t.«to» ∈ (makeCompleteDFA dfa).states.map (fun st => st.id)) := by
  rcases makeCompleteDFA_cases dfa with heq | ⟨hst, hfin, htrs⟩
  · rw [heq]
    exact ⟨fun x hx => hx, hids, hfinnd, htr⟩
  · have hmap : (makeCompleteDFA dfa).states.map (fun st => st.id) =
        dfa.states.map (fun st => st.id) ++ [deadNameOf dfa] := by
      rw [hst, List.map_append]
      rfl
    have hfresh : deadNameOf dfa ∉ dfa.states.map (fun st => st.id) :=
      freeName_fresh _
    have hdead : deadNameOf dfa ∈ (makeCompleteDFA dfa).states.map
        (fun st => st.id) := by
      rw [hmap]
      exact List.mem_append_right _ (List.mem_singleton_self _)
    have hsup : ∀ x ∈ dfa.states.map (fun st => st.id),
        x ∈ (makeCompleteDFA dfa).states.map (fun st => st.id) := by
      intro x hx
      rw [hmap]
      exact List.mem_append_left _ hx
    refine ⟨hsup, ?_, ?_, ?_⟩
    · rw [hmap, List.nodup_append]
      refine ⟨hids, List.nodup_singleton _, ?_⟩
      intro x hx hx'
      rw [List.mem_singleton] at hx'
      subst hx'
      exact hfresh hx
    · rw [hfin]
      exact hfinnd
    · intro t ht
      rw [htrs] at ht
      rcases List.mem_append.mp ht with ht' | ht'
      · rcases List.mem_append.mp ht' with ht'' | ht''
        · obtain ⟨h1, h2⟩ := htr t ht''
          exact ⟨hsup _ h1, hsup _ h2⟩
        · obtain ⟨m, hm, hmt⟩ := List.mem_map.mp ht''
          obtain ⟨hm1, _, _⟩ := mem_missingTransitionPairs.mp hm
          rw [← hmt]
          exact ⟨hsup _ hm1, hdead⟩
      · obtain ⟨sym, _, hmt⟩ := List.mem_map.mp ht'
        rw [← hmt]
        exact ⟨hdead, hdead⟩

set_option maxHeartbeats 1000000 in
/-- C7 (amended): for every automaton typed DFA with duplicate-free
state identifiers and final states, transition endpoints drawn from the
listed states, and a start state (when present) drawn from the listed
states, the `equivalentStates` mapping of the minimizer has pairwise
disjoint block lists (their concatenation is duplicate-free), the union
of the blocks is exactly the reachable state set of the *completed*
automaton (which may include the synthetic dead state, not an original
state), and the minimized-state identifiers are pairwise distinct. -/
theorem minimize_equivalentStates_spec (dfa : Automaton)
    (hty : dfa.type = .DFA)
    (hids : (dfa.states.map (fun st => st.id)).Nodup)
    (hfinnd : dfa.finalStates.Nodup)
    (htr : ∀ t ∈ dfa.transitions,
      t.«from» ∈ dfa.states.map (fun st => st.id) ∧
      t.«to» ∈ dfa.states.map (fun st => st.id))
    (hstart : ∀ s, dfa.startState = some s →
      s ∈ dfa.states.map (fun st => st.id)) :
    (((minimizeDFAWithDetails dfa).equivalentStates.map
      (fun e => e.2)).flatten).Nodup ∧
    (∀ x, x ∈ ((minimizeDFAWithDetails dfa).equivalentStates.map
      (fun e => e.2)).flatten ↔ x ∈ getReachableStates (makeCompleteDFA dfa)) ∧
    ((minimizeDFAWithDetails dfa).equivalentStates.map (fun e => e.1)).Nodup := by
  have hmineq : (minimizeDFAWithDetails dfa).equivalentStates =
      (minParts dfa).enum.map
        (fun e => (generateAlphabeticStateName e.1, e.2)) := by
    unfold minimizeDFAWithDetails
    rw [if_neg (by simp [hty])]
  have hsnd : (minimizeDFAWithDetails dfa).equivalentStates.map (fun e => e.2) =
      minParts dfa := by
    rw [hmineq, List.map_map]
    exact List.enum_map_snd _
  have hfst : (minimizeDFAWithDetails dfa).equivalentStates.map (fun e => e.1) =
      (List.range (minParts dfa).length).map generateAlphabeticStateName := by
    rw [hmineq, List.map_map]
    show (minParts dfa).enum.map
      (fun e => generateAlphabeticStateName e.1) = _
    rw [show (fun (e : Nat × List String) => generateAlphabeticStateName e.1) =
      (generateAlphabeticStateName ∘ Prod.fst) from rfl, ← List.map_map,
      List.enum_map_fst]
  have hkeys : ((minimizeDFAWithDetails dfa).equivalentStates.map
      (fun e => e.1)).Nodup := by
    rw [hfst]
    exact List.Nodup.map (fun m n h => generateAlphabeticStateName_inj h)
      (List.nodup_range _)
  rw [hsnd]
  have hdeg : ∀ (hr : getReachableStates (makeCompleteDFA dfa) = []),
      (minParts dfa).flatten.Nodup ∧
      (∀ x, x ∈ (minParts dfa).flatten ↔
        x ∈ getReachableStates (makeCompleteDFA dfa)) ∧
      ((minimizeDFAWithDetails dfa).equivalentStates.map (fun e => e.1)).Nodup := by
    intro hr
    obtain ⟨hMP, _⟩ := minParts_degenerate dfa hr
    rw [hMP, hr]
    exact ⟨List.nodup_nil, fun x => Iff.rfl, hkeys⟩
  rcases hss : dfa.startState with _ | s
  · apply hdeg
    unfold getReachableStates
    rw [makeCompleteDFA_startState, hss]
  · by_cases hse : s = ""
    · subst hse
      apply hdeg
      unfold getReachableStates
      rw [makeCompleteDFA_startState, hss]
      rfl
    · obtain ⟨hsup, hids', hfinnd', htr'⟩ := makeCompleteDFA_valid dfa hids
        hfinnd htr
      have hsmc : (makeCompleteDFA dfa).startState = some s := by
        rw [makeCompleteDFA_startState]
        exact hss
      have hsid : s ∈ (makeCompleteDFA dfa).states.map (fun st => st.id) :=
        hsup s (hstart s hss)
      obtain ⟨hnd, hflat, _, _, _⟩ :=
        minParts_spec dfa s hsmc hse hsid hids' hfinnd' htr'
      exact ⟨hnd, hflat, hkeys⟩

/-- C7 (counterexample): on an incomplete two-state DFA the completion
step introduces a dead state "C" that survives into the minimizer's
`equivalentStates` blocks, so the union of the blocks is not a subset
of the original state set. -/
theorem minimize_equivalentStates_counterexample :
    "C" ∈ ((minimizeDFAWithDetails incompleteDFA).equivalentStates.map
      (fun e => e.2)).flatten ∧
    "C" ∉ incompleteDFA.states.map (fun s => s.id) := by
  constructor
  · decide
  · decide

/-- C7 witness: the three-state complete DFA. -/
theorem minimize_equivalentStates_spec_witness :
    exampleMinimalDFA.type = .DFA ∧
    ((exampleMinimalDFA.states.map (fun st => st.id)).Nodup) ∧
    exampleMinimalDFA.finalStates.Nodup ∧
    (∀ t ∈ exampleMinimalDFA.transitions,
      t.«from» ∈ exampleMinimalDFA.states.map (fun st => st.id) ∧
      t.«to» ∈ exampleMinimalDFA.states.map (fun st => st.id)) ∧
    (∀ s, exampleMinimalDFA.startState = some s →
      s ∈ exampleMinimalDFA.states.map (fun st => st.id)) ∧
    ((((minimizeDFAWithDetails exampleMinimalDFA).equivalentStates.map
      (fun e => e.2)).flatten).Nodup ∧
    (∀ x, x ∈ ((minimizeDFAWithDetails exampleMinimalDFA).equivalentStates.map
      (fun e => e.2)).flatten ↔
        x ∈ getReachableStates (makeCompleteDFA exampleMinimalDFA)) ∧
    ((minimizeDFAWithDetails exampleMinimalDFA).equivalentStates.map
      (fun e => e.1)).Nodup) := by
  refine ⟨by decide, by decide, by decide, by decide, ?_, ?_⟩
  · intro s hs
    have h : some "A" = some s := hs
    injection h with h
    rw [← h]
    decide
  · exact minimize_equivalentStates_spec exampleMinimalDFA (by decide)
      (by decide) (by decide) (by decide)
      (fun s hs => by
        have h : some "A" = some s := hs
        injection h with h
        rw [← h]
        decide)

end FA
